import Mathlib

/-!
# Tron language server: declaration tracking, completion and formatting

A shallow embedding of `vstron/server/src/server.ts`.

JavaScript strings are modelled as lists of characters (`Str`).  Every
character the program inspects (`{`, `}`, `\r`, `\n`, white space, the ASCII
letters of identifiers and the punctuation of the declaration patterns) is a
single UTF-16 code unit, so the list view and the code-unit view agree on
everything the program looks at.  A length that leaves the program (the end of
the range of a formatting edit) is counted in UTF-16 code units, `utf16Length`.
-/

namespace Tron

/-- A JavaScript string, as the list of its characters. -/
abbrev Str := List Char

/-! ## Formatter (`formatTronDocument`) -/

/-- White space in the sense of `String.prototype.trim` and of the regular
expression class `\s`: ECMAScript WhiteSpace together with LineTerminator. -/
def isWhiteSpace (c : Char) : Bool :=
  c.toNat = 0x09 || c.toNat = 0x0A || c.toNat = 0x0B || c.toNat = 0x0C || c.toNat = 0x0D ||
  c.toNat = 0x20 || c.toNat = 0xA0 || c.toNat = 0x1680 ||
  (0x2000 ≤ c.toNat && c.toNat ≤ 0x200A) ||
  c.toNat = 0x2028 || c.toNat = 0x2029 || c.toNat = 0x202F || c.toNat = 0x205F ||
  c.toNat = 0x3000 || c.toNat = 0xFEFF

/-- Leading white space removed. -/
def trimStart (s : Str) : Str := s.dropWhile isWhiteSpace

/-- Trailing white space removed. -/
def trimEnd (s : Str) : Str := (s.reverse.dropWhile isWhiteSpace).reverse

/-- `line.trim()`. -/
def trim (s : Str) : Str := trimEnd (trimStart s)

/-- Puts a character in front of the first line of a split result. -/
def consHead (c : Char) : List Str → List Str
  | [] => [[c]]
  | l :: ls => (c :: l) :: ls

/-- `text.split(/\r?\n/)`: the separator is `\r\n` where a `\r` stands right
before a `\n`, and a lone `\n` otherwise; a `\r` that no `\n` follows stays in
its line.  The empty text splits into one empty line. -/
def splitLines : Str → List Str
  | [] => [[]]
  | [c] => if c = '\n' then [[], []] else [[c]]
  | c :: d :: ds =>
    if c = '\n' then [] :: splitLines (d :: ds)
    else if c = '\r' ∧ d = '\n' then [] :: splitLines ds
    else consHead c (splitLines (d :: ds))

/-- `formattedLines.join("\n")`. -/
def joinLines : List Str → Str
  | [] => []
  | [l] => l
  | l :: m :: ls => l ++ '\n' :: joinLines (m :: ls)

/-- The four spaces of one indentation level. -/
def indentUnit : Str := [' ', ' ', ' ', ' ']

/-- `getIndentation`: the top of the stack (its last element), or `""` when
the stack is empty (an empty top is falsy and gives `""` as well). -/
def getIndentation (indentStack : List Str) : Str :=
  match indentStack.getLast? with
  | some top => if top = [] then [] else top
  | none => []

/-- `trimmedLine.endsWith("{")`. -/
def endsWithOpen (trimmedLine : Str) : Bool := trimmedLine.getLast? = some '{'

/-- `formatLine`, with the indentation stack passed explicitly: the formatted
line and the stack after the line. `push` appends, `pop` drops the last
element and does nothing on an empty stack. -/
def formatLine (indentStack : List Str) (line : Str) : Str × List Str :=
  let trimmedLine := trim line
  if trimmedLine = [] then ([], indentStack)
  else
    let indentation := getIndentation indentStack
    if endsWithOpen trimmedLine then
      (indentation ++ trimmedLine, indentStack ++ [indentation ++ indentUnit])
    else if trimmedLine = ['}'] then
      (getIndentation indentStack.dropLast ++ trimmedLine, indentStack.dropLast)
    else (indentation ++ trimmedLine, indentStack)

/-- `lines.map(formatLine)`: the lines are formatted in order, each on the
stack the previous one left. -/
def formatLines : List Str → List Str → List Str × List Str
  | indentStack, [] => ([], indentStack)
  | indentStack, line :: rest =>
    ((formatLine indentStack line).1 :: (formatLines (formatLine indentStack line).2 rest).1,
     (formatLines (formatLine indentStack line).2 rest).2)

/-- The `FormattingOptions` of a formatting request. -/
structure FormattingOptions where
  tabSize : Nat
  insertSpaces : Bool
  deriving DecidableEq, Repr

deriving instance DecidableEq for Except

/-- The message of the error `formatTronDocument` throws. -/
def mismatchedBraces : Str := "Mismatched curly braces in the document".toList

/-- `formatTronDocument`: `Except.error` stands for the thrown `Error`. The
options are accepted and not read. -/
def formatTronDocument (text : Str) (_options : FormattingOptions) : Except Str Str :=
  let lines := splitLines text
  let formatted := formatLines [] lines
  let formattedText := joinLines formatted.1
  if formatted.2.length > 0 then Except.error mismatchedBraces
  else Except.ok formattedText

/-! ### Specification-side notions for the formatter -/

/-- The counter of the specification: incremented by a line whose trimmed form
ends with `{`, decremented, never below 0, by a line whose trimmed form is
exactly `}`. -/
def counterStep (count : Nat) (line : Str) : Nat :=
  if endsWithOpen (trim line) then count + 1
  else if trim line = ['}'] then count - 1
  else count

/-- The counter after a list of lines, starting from 0. -/
def openBlocks (lines : List Str) : Nat := lines.foldl counterStep 0

/-- The number of blocks open at line `i`: the counter before the line, and
the counter after the pop for a line that trims to exactly `}`. -/
def lineDepth (lines : List Str) (i : Nat) : Nat :=
  if (lines[i]?).map trim = some ['}'] then openBlocks (lines.take i) - 1
  else openBlocks (lines.take i)

/-- What the specification says a line is formatted to when `count` blocks are
open before it. -/
def expectedLine (count : Nat) (line : Str) : Str :=
  if trim line = [] then []
  else if trim line = ['}'] then List.replicate (4 * (count - 1)) ' ' ++ trim line
  else List.replicate (4 * count) ' ' ++ trim line

/-- The specification's formatted lines, from a counter value on. -/
def expectedLines : Nat → List Str → List Str
  | _, [] => []
  | count, line :: rest => expectedLine count line :: expectedLines (counterStep count line) rest

/-- The indentation stack after `n` unmatched pushes: 4, 8, ..., 4n spaces. -/
def levels : Nat → List Str
  | 0 => []
  | n + 1 => levels n ++ [List.replicate (4 * (n + 1)) ' ']

/-- The scenario text of the specification. -/
def scenarioText : Str :=
  "let x : number = 5;\nfn add(a: number, b: number): number \x7b\nreturn a+b;\n\x7d".toList

/-- The scenario text, formatted. -/
def scenarioFormatted : Str :=
  "let x : number = 5;\nfn add(a: number, b: number): number \x7b\n    return a+b;\n\x7d".toList

/-- The effect of one character on the nesting depth: `none` for a closing
brace that has no opening brace to match. -/
def braceChar (depth : Nat) (c : Char) : Option Nat :=
  if c = '{' then some (depth + 1)
  else if c = '}' then (if depth = 0 then none else some (depth - 1))
  else some depth

/-- The nesting depth after a text, character by character: `none` when some
closing brace has no opening brace before it to match. -/
def braceDepth : Nat → Str → Option Nat
  | depth, [] => some depth
  | depth, c :: cs => (braceChar depth c).bind (fun d => braceDepth d cs)

/-- Every brace of the text is matched: each closing brace matches an earlier
opening brace and no opening brace is left over. -/
def bracesBalanced (text : Str) : Prop := braceDepth 0 text = some 0

/-- The text has exactly one unmatched opening brace, all other braces being
matched. -/
def oneUnmatchedOpen (text : Str) : Prop := braceDepth 0 text = some 1

/-- Every opening brace of the line is the last character of the line that is
not white space. -/
def openBracesLast : Str → Bool
  | [] => true
  | c :: cs => (c != '{' || cs.all isWhiteSpace) && openBracesLast cs

/-- Every closing brace of the line is the sole content of the line apart from
white space. -/
def closeBracesAlone (line : Str) : Bool :=
  !(line.contains '}') || trim line == ['}']

/-- The braces of the text stand where the formatter looks for them: each
opening brace ends its line and each closing brace is alone on its line. -/
def bracesLineWise (text : Str) : Bool :=
  (splitLines text).all (fun line => openBracesLast line && closeBracesAlone line)

/-- The nesting depth after a list of lines. -/
def linesBraceDepth : Nat → List Str → Option Nat
  | depth, [] => some depth
  | depth, line :: rest => (braceDepth depth line).bind (fun d => linesBraceDepth d rest)

/-! ## Regular expressions of the declaration tracker

The patterns of the tracker use literal characters, character classes, greedy
`*` and `+` and lazy `*?` over a character class, and capture groups that are
neither nested nor repeated.  A pattern is a list of atoms, each tagged with
the number of the capture group it stands in (0 for none).  Matching is the
backtracking search of ECMAScript: a greedy repetition first tries one more
character and falls back to the continuation, a lazy one first tries the
continuation. -/

/-- `[a-zA-Z_]`. -/
def isIdentStart (c : Char) : Bool :=
  (97 ≤ c.toNat && c.toNat ≤ 122) || (65 ≤ c.toNat && c.toNat ≤ 90) || c.toNat = 95

/-- `[a-zA-Z0-9_]`. -/
def isIdentPart (c : Char) : Bool :=
  isIdentStart c || (48 ≤ c.toNat && c.toNat ≤ 57)

/-- `[^;]`. -/
def notSemicolon (c : Char) : Bool := c != ';'

/-- `[^)]`. -/
def notCloseParen (c : Char) : Bool := c != ')'

/-- `[^]`: any character. -/
def anyChar (_c : Char) : Bool := true

/-- One atom of a pattern. -/
inductive Atom where
  /-- A literal character. -/
  | chr (c : Char)
  /-- One character of a class. -/
  | set (p : Char → Bool)
  /-- Greedy `p*`. -/
  | star (p : Char → Bool)
  /-- Greedy `p+`. -/
  | plus (p : Char → Bool)
  /-- Lazy `p*?`. -/
  | lazyStar (p : Char → Bool)

/-- A pattern: its atoms in order, each with the number of its capture group. -/
abbrev Regex := List (Nat × Atom)

/-- Greedy repetition of a class before the continuation `k`: the characters
the repetition consumed and the result of the continuation. -/
def greedy (p : Char → Bool) (k : Str → Option (List Str)) : Str → Option (Str × List Str)
  | [] => (k []).map (fun r => ([], r))
  | c :: cs =>
    if p c then
      match greedy p k cs with
      | some (seg, r) => some (c :: seg, r)
      | none => (k (c :: cs)).map (fun r => ([], r))
    else (k (c :: cs)).map (fun r => ([], r))

/-- Lazy repetition of a class before the continuation `k`. -/
def reluctant (p : Char → Bool) (k : Str → Option (List Str)) : Str → Option (Str × List Str)
  | [] => (k []).map (fun r => ([], r))
  | c :: cs =>
    match k (c :: cs) with
    | some r => some ([], r)
    | none =>
      if p c then
        match reluctant p k cs with
        | some (seg, r) => some (c :: seg, r)
        | none => none
      else none

/-- Matches the atoms at the start of the input: the substring each atom
consumed, in order, for the first successful path of the backtracking search. -/
def matchAtoms : List Atom → Str → Option (List Str)
  | [], _ => some []
  | Atom.chr c :: rest, s =>
    match s with
    | [] => none
    | d :: ds => if d = c then (matchAtoms rest ds).map (fun r => [d] :: r) else none
  | Atom.set p :: rest, s =>
    match s with
    | [] => none
    | d :: ds => if p d then (matchAtoms rest ds).map (fun r => [d] :: r) else none
  | Atom.star p :: rest, s =>
    (greedy p (matchAtoms rest) s).map (fun x => x.1 :: x.2)
  | Atom.plus p :: rest, s =>
    match s with
    | [] => none
    | d :: ds =>
      if p d then (greedy p (matchAtoms rest) ds).map (fun x => (d :: x.1) :: x.2) else none
  | Atom.lazyStar p :: rest, s =>
    (reluctant p (matchAtoms rest) s).map (fun x => x.1 :: x.2)

/-- The result of a successful `exec`: where the match starts and the
substrings the atoms consumed. -/
structure RegExpMatch where
  index : Nat
  segments : List Str
  deriving DecidableEq, Repr

/-- `match[0]`: the matched text. -/
def RegExpMatch.matched (m : RegExpMatch) : Str := m.segments.flatten

/-- `match[i]` for a capture group `i ≥ 1` of the pattern. -/
def RegExpMatch.group (re : Regex) (m : RegExpMatch) (i : Nat) : Str :=
  (((re.map Prod.fst).zip m.segments).filter (fun x => x.1 = i)).map Prod.snd |>.flatten

/-- The index after the match: the `lastIndex` a global pattern is left with. -/
def RegExpMatch.endIndex (m : RegExpMatch) : Nat := m.index + m.matched.length

/-- The leftmost match at or after the start of `s`, which is position `i` of
the text. -/
def execFrom (re : Regex) : Str → Nat → Option RegExpMatch
  | [], i => (matchAtoms (re.map Prod.snd) []).map (fun segs => ⟨i, segs⟩)
  | c :: cs, i =>
    match matchAtoms (re.map Prod.snd) (c :: cs) with
    | some segs => some ⟨i, segs⟩
    | none => execFrom re cs (i + 1)

/-- `regex.exec(text)` with the pattern's `lastIndex` given: the leftmost match
that starts at or after `lastIndex`, or `none` for `null`. -/
def regexExec (re : Regex) (text : Str) (lastIndex : Nat) : Option RegExpMatch :=
  if lastIndex > text.length then none else execFrom re (text.drop lastIndex) lastIndex

/-- The loop `while ((match = regex.exec(text)) !== null) body` of a global
pattern, the loop state passed explicitly.  `fuel` bounds the number of calls
of `exec`; `none` stands for a loop that has not ended within the fuel, or
whose body has not. -/
def execLoop {σ : Type} (re : Regex) (text : Str) (body : σ → RegExpMatch → Option σ) :
    Nat → Nat → σ → Option σ
  | 0, _, _ => none
  | fuel + 1, lastIndex, state =>
    match regexExec re text lastIndex with
    | none => some state
    | some m => (body state m).bind (execLoop re text body fuel m.endIndex)

/-- The matches the loop of a global pattern goes through, in order. -/
def scanAll (re : Regex) (text : Str) : Nat → Nat → Option (List RegExpMatch)
  | 0, _ => none
  | fuel + 1, lastIndex =>
    match regexExec re text lastIndex with
    | none => some []
    | some m => (scanAll re text fuel m.endIndex).map (fun ms => m :: ms)

/-! ## Declaration tracker -/

/-- The pattern of `trackVariableDeclarations`:
`let\s+([a-zA-Z_][a-zA-Z0-9_]*)\s*:\s*([a-zA-Z_][a-zA-Z0-9_]*)\s*=\s*([^;]*);`. -/
def variableRegex : Regex :=
  [(0, Atom.chr 'l'), (0, Atom.chr 'e'), (0, Atom.chr 't'), (0, Atom.plus isWhiteSpace),
   (1, Atom.set isIdentStart), (1, Atom.star isIdentPart),
   (0, Atom.star isWhiteSpace), (0, Atom.chr ':'), (0, Atom.star isWhiteSpace),
   (2, Atom.set isIdentStart), (2, Atom.star isIdentPart),
   (0, Atom.star isWhiteSpace), (0, Atom.chr '='), (0, Atom.star isWhiteSpace),
   (3, Atom.star notSemicolon), (0, Atom.chr ';')]

/-- The pattern of `trackFunctionDeclarations`:
`fn\s+([a-zA-Z_][a-zA-Z0-9_]*)\s*\(([^)]*)\)\s*:\s*([a-zA-Z_][a-zA-Z0-9_]*)\s*\{[^]*?\}`. -/
def functionRegex : Regex :=
  [(0, Atom.chr 'f'), (0, Atom.chr 'n'), (0, Atom.plus isWhiteSpace),
   (1, Atom.set isIdentStart), (1, Atom.star isIdentPart),
   (0, Atom.star isWhiteSpace), (0, Atom.chr '('), (2, Atom.star notCloseParen),
   (0, Atom.chr ')'), (0, Atom.star isWhiteSpace), (0, Atom.chr ':'),
   (0, Atom.star isWhiteSpace),
   (3, Atom.set isIdentStart), (3, Atom.star isIdentPart),
   (0, Atom.star isWhiteSpace), (0, Atom.chr '{'), (0, Atom.lazyStar anyChar),
   (0, Atom.chr '}')]

/-- The first pattern of `extractParameters`:
`fn\s+[a-zA-Z_][a-zA-Z0-9_]*\s*\(([^)]*)\)`. -/
def signatureRegex : Regex :=
  [(0, Atom.chr 'f'), (0, Atom.chr 'n'), (0, Atom.plus isWhiteSpace),
   (0, Atom.set isIdentStart), (0, Atom.star isIdentPart),
   (0, Atom.star isWhiteSpace), (0, Atom.chr '('), (1, Atom.star notCloseParen),
   (0, Atom.chr ')')]

/-- The second pattern of `extractParameters`:
`\s*([a-zA-Z_][a-zA-Z0-9_]*)\s*:\s*([a-zA-Z_][a-zA-Z0-9_]*)\s*`. -/
def paramsRegex : Regex :=
  [(0, Atom.star isWhiteSpace),
   (1, Atom.set isIdentStart), (1, Atom.star isIdentPart),
   (0, Atom.star isWhiteSpace), (0, Atom.chr ':'), (0, Atom.star isWhiteSpace),
   (2, Atom.set isIdentStart), (2, Atom.star isIdentPart),
   (0, Atom.star isWhiteSpace)]

/-- A JavaScript `Map` with string keys: its entries in insertion order. -/
abbrev JsMap (β : Type) := List (Str × β)

/-- `map.set(key, value)`: the value of an existing key is replaced in place,
a new key is appended. -/
def JsMap.set {β : Type} : JsMap β → Str → β → JsMap β
  | [], key, value => [(key, value)]
  | (k, v) :: rest, key, value =>
    if k = key then (k, value) :: rest else (k, v) :: JsMap.set rest key value

/-- `map.get(key)`. -/
def JsMap.get {β : Type} : JsMap β → Str → Option β
  | [], _ => none
  | (k, v) :: rest, key => if k = key then some v else JsMap.get rest key

/-- The keys of a map in iteration order. -/
def JsMap.keys {β : Type} (m : JsMap β) : List Str := m.map Prod.fst

/-- `interface VariableDeclaration`. -/
structure VariableDeclaration where
  declaration : Str
  type : Str
  value : Str
  deriving DecidableEq, Repr

/-- `interface Parameter`. -/
structure Parameter where
  name : Str
  type : Str
  deriving DecidableEq, Repr

/-- `interface FunctionDeclaration`. -/
structure FunctionDeclaration where
  declaration : Str
  parameters : List Parameter
  returnType : Str
  deriving DecidableEq, Repr

/-- The body of the loop of `trackVariableDeclarations`. -/
def variableBody (variableDeclarations : JsMap VariableDeclaration) (m : RegExpMatch) :
    Option (JsMap VariableDeclaration) :=
  let variableName := m.group variableRegex 1
  let variableType := m.group variableRegex 2
  let variableValue := m.group variableRegex 3
  some (variableDeclarations.set variableName
    { declaration := m.matched, type := variableType, value := variableValue })

/-- `trackVariableDeclarations`, on the text of the document and the variable
table, with the fuel of its loop. -/
def trackVariableDeclarationsFuel (fuel : Nat) (text : Str)
    (variableDeclarations : JsMap VariableDeclaration) : Option (JsMap VariableDeclaration) :=
  execLoop variableRegex text variableBody fuel 0 variableDeclarations

/-- The body of the loop of `extractParameters`. -/
def paramsBody (parameters : List Parameter) (m : RegExpMatch) : Option (List Parameter) :=
  some (parameters ++ [{ name := m.group paramsRegex 1, type := m.group paramsRegex 2 }])

/-- `extractParameters`, with the fuel of its loop.  `String.prototype.match`
with a pattern that is not global gives the leftmost match from index 0. -/
def extractParametersFuel (fuel : Nat) (functionDeclaration : Str) : Option (List Parameter) :=
  match regexExec signatureRegex functionDeclaration 0 with
  | none => some []
  | some m =>
    let paramsString := m.group signatureRegex 1
    execLoop paramsRegex paramsString paramsBody fuel 0 []

/-- `extractParameters`: a loop makes at most one call of `exec` per character
of the scanned string and one more. -/
def extractParameters (functionDeclaration : Str) : Option (List Parameter) :=
  extractParametersFuel (functionDeclaration.length + 1) functionDeclaration

/-- The body of the loop of `trackFunctionDeclarations`. -/
def functionBody (functionDeclarations : JsMap FunctionDeclaration) (m : RegExpMatch) :
    Option (JsMap FunctionDeclaration) :=
  let functionName := m.group functionRegex 1
  let functionDeclaration := m.matched
  (extractParameters functionDeclaration).map (fun parameters =>
    let returnType := m.group functionRegex 3
    functionDeclarations.set functionName
      { declaration := functionDeclaration, parameters := parameters, returnType := returnType })

/-- `trackFunctionDeclarations` with the fuel of its loop. -/
def trackFunctionDeclarationsFuel (fuel : Nat) (text : Str)
    (functionDeclarations : JsMap FunctionDeclaration) : Option (JsMap FunctionDeclaration) :=
  execLoop functionRegex text functionBody fuel 0 functionDeclarations

/-- `trackVariableDeclarations`. -/
def trackVariableDeclarations (text : Str) (variableDeclarations : JsMap VariableDeclaration) :
    Option (JsMap VariableDeclaration) :=
  trackVariableDeclarationsFuel (text.length + 1) text variableDeclarations

/-- `trackFunctionDeclarations`. -/
def trackFunctionDeclarations (text : Str) (functionDeclarations : JsMap FunctionDeclaration) :
    Option (JsMap FunctionDeclaration) :=
  trackFunctionDeclarationsFuel (text.length + 1) text functionDeclarations

/-- The two process-wide tables of the server. -/
structure Tables where
  variableDeclarations : JsMap VariableDeclaration
  functionDeclarations : JsMap FunctionDeclaration
  deriving DecidableEq, Repr

/-- The handler of `documents.onDidChangeContent`, on the text of the changed
document. -/
def onDidChangeContent (text : Str) (tables : Tables) : Option Tables :=
  (trackVariableDeclarations text tables.variableDeclarations).bind (fun vars =>
    (trackFunctionDeclarations text tables.functionDeclarations).map (fun fns =>
      { variableDeclarations := vars, functionDeclarations := fns }))

/-! ## Completion -/

/-- The kinds of `CompletionItemKind` the server uses. -/
inductive CompletionItemKind where
  | Keyword
  | Variable
  | Function
  deriving DecidableEq, Repr

/-- A `CompletionItem`: `detail` is absent for keywords and parameters. -/
structure CompletionItem where
  label : Str
  kind : CompletionItemKind
  detail : Option Str
  deriving DecidableEq, Repr

/-- The `TextDocumentPositionParams` of a completion request. -/
structure TextDocumentPositionParams where
  uri : Str
  line : Nat
  character : Nat
  deriving DecidableEq, Repr

/-- A keyword item of the initial `completions` array. -/
def keywordItem (label : String) : CompletionItem :=
  { label := label.toList, kind := CompletionItemKind.Keyword, detail := none }

/-- The handler of `connection.onCompletion`: the array literal of keyword
items, then one `push` per entry of the variable table, then per entry of the
function table one `push` for the function and one per parameter. -/
def onCompletion (tables : Tables) (_textDocumentPosition : TextDocumentPositionParams) :
    List CompletionItem :=
  let completions : List CompletionItem :=
    [keywordItem "break", keywordItem "else if", keywordItem "else", keywordItem "false",
     keywordItem "for", keywordItem "fn", keywordItem "if", keywordItem "use",
     keywordItem "null", keywordItem "true", keywordItem "let", keywordItem "while",
     keywordItem "case", keywordItem "default", keywordItem "switch", keywordItem "number",
     keywordItem "string"]
  let completions := tables.variableDeclarations.foldl
    (fun acc entry =>
      acc ++ [{ label := entry.1, kind := CompletionItemKind.Variable,
                detail := some entry.2.declaration }])
    completions
  let completions := tables.functionDeclarations.foldl
    (fun acc entry =>
      entry.2.parameters.foldl
        (fun acc param =>
          acc ++ [{ label := param.name, kind := CompletionItemKind.Variable, detail := none }])
        (acc ++ [{ label := entry.1, kind := CompletionItemKind.Function,
                   detail := some entry.2.declaration }]))
    completions
  completions

/-- The handler of `connection.onCompletionResolve`. -/
def onCompletionResolve (item : CompletionItem) : CompletionItem := item

/-- What a successful match lets an atom consume: the literal character, one
character of the class, or a run of characters of the class (not empty for
`+`). -/
def Atom.accepts : Atom → Str → Bool
  | Atom.chr c, seg => seg == [c]
  | Atom.set p, seg => seg.length == 1 && seg.all p
  | Atom.star p, seg => seg.all p
  | Atom.plus p, seg => seg.length != 0 && seg.all p
  | Atom.lazyStar p, seg => seg.all p

/-- The least number of characters an atom consumes. -/
def Atom.minLength : Atom → Nat
  | Atom.chr _ => 1
  | Atom.set _ => 1
  | Atom.star _ => 0
  | Atom.plus _ => 1
  | Atom.lazyStar _ => 0

/-- The least number of characters a match of the pattern consumes. -/
def Regex.minLength (re : Regex) : Nat := (re.map (fun x => x.2.minLength)).sum

/-- The segments are what the atoms, one by one, may consume. -/
def segmentsAccepted : List Atom → List Str → Bool
  | [], [] => true
  | a :: rest, seg :: segs => a.accepts seg && segmentsAccepted rest segs
  | _, _ => false

/-- The name a match of the variable pattern declares. -/
def variableName (m : RegExpMatch) : Str := m.group variableRegex 1

/-- The record the variable tracker builds from a match. -/
def variableRecord (m : RegExpMatch) : VariableDeclaration :=
  { declaration := m.matched, type := m.group variableRegex 2, value := m.group variableRegex 3 }

/-- The name a match of the function pattern declares. -/
def functionName (m : RegExpMatch) : Str := m.group functionRegex 1

/-- The record the function tracker builds from a match. -/
def functionRecord (m : RegExpMatch) : Option FunctionDeclaration :=
  (extractParameters m.matched).map (fun parameters =>
    { declaration := m.matched, parameters := parameters,
      returnType := m.group functionRegex 3 })

/-- The matches the loop of `trackVariableDeclarations` goes through. -/
def variableMatches (text : Str) : Option (List RegExpMatch) :=
  scanAll variableRegex text (text.length + 1) 0

/-- The matches the loop of `trackFunctionDeclarations` goes through. -/
def functionMatches (text : Str) : Option (List RegExpMatch) :=
  scanAll functionRegex text (text.length + 1) 0

/-- The last match of a scan that declares the name `n`. -/
def lastMatchFor (name : RegExpMatch → Str) (ms : List RegExpMatch) (n : Str) :
    Option RegExpMatch :=
  (ms.filter (fun m => name m = n)).getLast?

/-- The parameters of a declaration, `[]` standing in for a loop of
`extractParameters` that has not ended (which does not happen, see
`extractParameters_total`). -/
def parametersOf (functionDeclaration : Str) : List Parameter :=
  (extractParameters functionDeclaration).getD []

/-- The record of a match of the function pattern, with `parametersOf`. -/
def functionEntry (m : RegExpMatch) : FunctionDeclaration :=
  { declaration := m.matched, parameters := parametersOf m.matched,
    returnType := m.group functionRegex 3 }

/-- The item of an entry of the variable table. -/
def variableItem (entry : Str × VariableDeclaration) : CompletionItem :=
  { label := entry.1, kind := CompletionItemKind.Variable, detail := some entry.2.declaration }

/-- The item of a parameter. -/
def parameterItem (param : Parameter) : CompletionItem :=
  { label := param.name, kind := CompletionItemKind.Variable, detail := none }

/-- The items of an entry of the function table: the function, then its
parameters. -/
def functionItems (entry : Str × FunctionDeclaration) : List CompletionItem :=
  { label := entry.1, kind := CompletionItemKind.Function, detail := some entry.2.declaration }
    :: entry.2.parameters.map parameterItem

/-- The 17 keyword labels of the specification, in order. -/
def keywordLabels : List String :=
  ["break", "else if", "else", "false", "for", "fn", "if", "use", "null", "true", "let",
   "while", "case", "default", "switch", "number", "string"]

/-- A Variable-category item with the label `n` that carries a detail. -/
def isDetailedVariable (n : Str) (item : CompletionItem) : Bool :=
  item.kind = CompletionItemKind.Variable && item.label = n && item.detail.isSome

/-- A Variable-category item with the label `n`. -/
def isVariableLabelled (n : Str) (item : CompletionItem) : Bool :=
  item.kind = CompletionItemKind.Variable && item.label = n

/-- A Function-category item with the label `n`. -/
def isFunctionLabelled (n : Str) (item : CompletionItem) : Bool :=
  item.kind = CompletionItemKind.Function && item.label = n

/-- The text contains a substring that matches the variable-declaration shape
and declares the name `n`: some substring splits into segments the atoms of the
variable pattern accept, the segments of the first capture group spelling `n`. -/
def containsVariableDeclaration (text n : Str) : Prop :=
  ∃ (before after : Str) (segs : List Str),
    text = before ++ segs.flatten ++ after ∧
    segmentsAccepted (variableRegex.map Prod.snd) segs = true ∧
    RegExpMatch.group variableRegex ⟨before.length, segs⟩ 1 = n

/-- A text that declares the variable `x` twice, with different initializers. -/
def redeclaredText : Str := "let x : number = 1; let x : number = 2;".toList

/-- A text in which a variable declaration stands inside the initializer of
another one, followed by a function with a parameter `a`. -/
def overlappingText : Str := "let a : b = let x : y = 5; fn f(a: t): t \x7b\x7d".toList

/-- The segments of the match of the variable pattern at the start of
`overlappingText`. -/
def overlappingOuter : List Str :=
  ["l", "e", "t", " ", "a", "", " ", ":", " ", "b", "", " ", "=", " ", "let x : y = 5", ";"].map
    String.toList

/-- The segments of the declaration of `x` inside `overlappingText`. -/
def overlappingInner : List Str :=
  ["l", "e", "t", " ", "x", "", " ", ":", " ", "y", "", " ", "=", " ", "5", ";"].map
    String.toList

/-- The declaration `fn f(a: number, b: string): number {body}` of the
specification. -/
def declarationAB (body : Str) : Str :=
  "fn f(a: number, b: string): number \x7b".toList ++ body ++ ['}']

/-- The text of the declarations of `g` and `f`, the second inside the body of
the first. -/
def nestedText : Str :=
  "fn g(): number \x7b fn f(a: number, b: string): number \x7b \x7d".toList

/-- A text that is one declaration of `f`. -/
def singleText : Str := "fn f(a: number, b: string): number \x7b return a; \x7d".toList

/-- The segments of the match of the function pattern on `singleText`. -/
def singleSegments : List Str :=
  ["f", "n", " ", "f", "", "", "(", "a: number, b: string", ")", "", ":", " ", "n", "umber",
   " ", "\x7b", " return a; ", "\x7d"].map String.toList

/-- The characters of `fn f(a: number, b: string)`. -/
def signatureAB : Str :=
  ['f', 'n', ' ', 'f', '(', 'a', ':', ' ', 'n', 'u', 'm', 'b', 'e', 'r', ',', ' ', 'b', ':', ' ', 's', 't', 'r', 'i', 'n', 'g', ')']

/-- The raw text of the function `add` in the scenario text. -/
def scenarioFunction : Str :=
  "fn add(a: number, b: number): number \x7b\nreturn a+b;\n\x7d".toList

/-- A text put together from its lines: the first line, then every further
line behind its line ending. -/
def assembleLines : Str → List (Str × Str) → Str
  | first, [] => first
  | first, (ending, line) :: rest => first ++ ending ++ assembleLines line rest

/-- A line ending: `\n` or `\r\n`. -/
def isLineEnding (s : Str) : Bool := s == ['\n'] || s == ['\r', '\n']

/-- A blank line: empty or white space only (and, being a line, without a
newline character). -/
def isBlankLine (line : Str) : Bool := line.all (fun c => isWhiteSpace c && c != '\n')

/-- `out.split("\n")`: the lines of a text between its newline characters. -/
def splitNewline : Str → List Str
  | [] => [[]]
  | c :: cs => if c = '\n' then [] :: splitNewline cs else consHead c (splitNewline cs)

/-- The text with every two-character line ending `\r\n` replaced by `\n`, in
one pass from the left (`t.replace(/\r\n/g, "\n")`). -/
def replaceCrLf : Str → Str
  | [] => []
  | [c] => [c]
  | c :: d :: cs =>
    if c = '\r' ∧ d = '\n' then '\n' :: replaceCrLf cs else c :: replaceCrLf (d :: cs)

/-- The text contains `\r\n`. -/
def containsCrLf : Str → Bool
  | [] => false
  | c :: cs => (c == '\r' && cs.head? == some '\n') || containsCrLf cs

/-- Two lines that are equal up to one carriage return at the end of the
first. -/
def sameUpToCr (l l' : Str) : Prop := l = l' ∨ l = l' ++ ['\r']

/-- The number of UTF-16 code units of a character: two for a character beyond
the Basic Multilingual Plane, one otherwise. -/
def utf16Size (c : Char) : Nat := if c.toNat < 0x10000 then 1 else 2

/-- `text.length`: the length of a JavaScript string, in UTF-16 code units. -/
def utf16Length (text : Str) : Nat := (text.map utf16Size).sum

/-- A `TextEdit` that replaces a range of a document.  The range is given by
the two offsets its ends are computed from with `document.positionAt`. -/
structure TextEdit where
  startOffset : Nat
  endOffset : Nat
  newText : Str
  deriving DecidableEq, Repr

/-- The `DocumentFormattingParams` of a formatting request. -/
structure DocumentFormattingParams where
  uri : Str
  options : FormattingOptions
  deriving DecidableEq, Repr

/-- The handler of `connection.onDocumentFormatting`; `documents` is the store
of open documents, from the uri of a document to its text. `Except.error` is
the error `formatTronDocument` throws, which the handler lets through. -/
def onDocumentFormatting (documents : JsMap Str) (params : DocumentFormattingParams) :
    Except Str (List TextEdit) :=
  match documents.get params.uri with
  | none => Except.ok []
  | some text =>
    match formatTronDocument text params.options with
    | Except.error e => Except.error e
    | Except.ok formattedText =>
      Except.ok [{ startOffset := 0, endOffset := utf16Length text, newText := formattedText }]

/-- The example of the specification for a nested body. -/
def nestedBodyText : Str := "fn f(): number \x7b if (x) \x7b y \x7d z \x7d".toList

/-- The atoms of the function pattern between `fn` and the opening brace of
the body: white space, the name, the parameter list in its parentheses, the
colon and the return type. -/
def functionSignatureAtoms : List Atom := ((functionRegex.map Prod.snd).drop 2).take 13

/-- An identifier: `[a-zA-Z_][a-zA-Z0-9_]*`. -/
def isIdentifier : Str → Bool
  | [] => false
  | c :: cs => isIdentStart c && cs.all isIdentPart

/-- One pair `name : type` of a parameter list, with the white space around
its tokens. -/
structure ParameterText where
  before : Str
  name : Str
  afterName : Str
  beforeType : Str
  type : Str
  afterType : Str

/-- The name and the type are identifiers and the rest is white space. -/
def ParameterText.wellFormed (p : ParameterText) : Bool :=
  p.before.all isWhiteSpace && isIdentifier p.name && p.afterName.all isWhiteSpace &&
  p.beforeType.all isWhiteSpace && isIdentifier p.type && p.afterType.all isWhiteSpace

/-- The text of the pair. -/
def ParameterText.text (p : ParameterText) : Str :=
  p.before ++ (p.name ++ (p.afterName ++ ':' :: (p.beforeType ++ (p.type ++ p.afterType))))

/-- The text of a parameter list: its pairs, a comma between two of them. -/
def parameterListText : List ParameterText → Str
  | [] => []
  | [p] => p.text
  | p :: q :: rest => p.text ++ ',' :: parameterListText (q :: rest)

/-- What follows a pair in a parameter list: nothing after the last pair, a
comma and the further pairs otherwise. -/
def parameterListTail : List ParameterText → Str
  | [] => []
  | q :: rest => ',' :: parameterListText (q :: rest)

/-- The `Parameter` of a pair. -/
def ParameterText.parameter (p : ParameterText) : Parameter :=
  { name := p.name, type := p.type }

/-- A function declaration from `fn` to the closing parenthesis of its
parameter list, followed by any text: `fn`, white space, the name, optional
white space, and the parameter list in parentheses. -/
def declarationText (space name gap : Str) (ps : List ParameterText) (rest : Str) : Str :=
  'f' :: 'n' :: (space ++ (name ++ (gap ++ '(' :: (parameterListText ps ++ ')' :: rest))))

/-- The `Parameter` of a match of the parameter pattern. -/
def matchParameter (m : RegExpMatch) : Parameter :=
  { name := m.group paramsRegex 1, type := m.group paramsRegex 2 }

/-- The two pairs of the parameter list `a: number, b :string `. -/
def samplePairs : List ParameterText :=
  [{ before := [], name := "a".toList, afterName := [], beforeType := " ".toList,
     type := "number".toList, afterType := [] },
   { before := " ".toList, name := "b".toList, afterName := " ".toList, beforeType := [],
     type := "string".toList, afterType := " ".toList }]

/-- The loop of a global pattern over a text ends: every match `exec` finds has
length at least 1, moves the scan position strictly forward and stays inside
the text; and the scan, run with one call of `exec` per character and one
more, or with any larger number, reaches the call that finds no match, having
found no more matches than the text has characters. -/
def loopTerminates (re : Regex) (text : Str) : Prop :=
  (∀ (lastIndex : Nat) (m : RegExpMatch), regexExec re text lastIndex = some m →
    1 ≤ m.matched.length ∧ lastIndex < m.endIndex ∧ m.endIndex ≤ text.length) ∧
  ∃ ms : List RegExpMatch,
    (∀ k, scanAll re text (text.length + 1 + k) 0 = some ms) ∧ ms.length ≤ text.length

/-- The line does not leave the formatter's count ahead of the braces: a line
that trims to exactly a closing brace aside, the line holds at least as many
opening braces as closing braces, and more opening than closing braces when
its trimmed form ends with an opening brace. -/
def lineOpensEnough (line : Str) : Bool :=
  if endsWithOpen (trim line) then decide (line.count '}' < line.count '{')
  else if trim line = ['}'] then true
  else decide (line.count '}' ≤ line.count '{')

/-- Every line of the text opens enough, in the sense of `lineOpensEnough`. -/
def linesOpenEnough (text : Str) : Bool := (splitLines text).all lineOpensEnough

/-! ## Theorems -/

/-! ### Trimming -/

theorem dropWhile_append_singleton (p : Char → Bool) (a : Str) (c : Char) :
    (a ++ [c]).dropWhile p
      = if a.dropWhile p = [] then [c].dropWhile p else a.dropWhile p ++ [c] := by
  induction a with
  | nil => simp
  | cons x a ih =>
    by_cases hx : p x = true
    · simp [List.dropWhile_cons, hx, ih]
    · simp [List.dropWhile_cons, hx]

theorem trimEnd_nil : trimEnd [] = [] := rfl

theorem trimEnd_cons (c : Char) (s : Str) :
    trimEnd (c :: s) = if trimEnd s = [] ∧ isWhiteSpace c = true then [] else c :: trimEnd s := by
  unfold trimEnd
  rw [List.reverse_cons, dropWhile_append_singleton]
  by_cases h : s.reverse.dropWhile isWhiteSpace = []
  · by_cases hc : isWhiteSpace c = true
    · simp [h, hc, List.dropWhile_cons]
    · simp [h, hc, List.dropWhile_cons]
  · simp [h]

theorem trimStart_cons (c : Char) (s : Str) :
    trimStart (c :: s) = if isWhiteSpace c = true then trimStart s else c :: s := by
  simp [trimStart, List.dropWhile_cons]

theorem mem_trimStart {c : Char} {s : Str} (h : c ∈ trimStart s) : c ∈ s :=
  (List.dropWhile_sublist isWhiteSpace).subset h

theorem mem_trimEnd {c : Char} {s : Str} (h : c ∈ trimEnd s) : c ∈ s := by
  unfold trimEnd at h
  rw [List.mem_reverse] at h
  exact List.mem_reverse.mp ((List.dropWhile_sublist isWhiteSpace).subset h)

theorem mem_trim {c : Char} {s : Str} (h : c ∈ trim s) : c ∈ s :=
  mem_trimStart (mem_trimEnd h)

theorem trimEnd_idem (s : Str) : trimEnd (trimEnd s) = trimEnd s := by
  induction s with
  | nil => rfl
  | cons c s ih =>
    rw [trimEnd_cons]
    by_cases h : trimEnd s = [] ∧ isWhiteSpace c = true
    · rw [if_pos h]; rfl
    · rw [if_neg h, trimEnd_cons, ih, if_neg h]

theorem trimStart_head_not_ws (s : Str) (c : Char) (h : (trimStart s).head? = some c) :
    isWhiteSpace c = false := by
  induction s with
  | nil => simp [trimStart] at h
  | cons x s ih =>
    rw [trimStart_cons] at h
    by_cases hx : isWhiteSpace x = true
    · rw [if_pos hx] at h; exact ih h
    · rw [if_neg hx] at h
      simp at h
      subst h
      simpa using hx

theorem trimStart_of_head (s : Str) (h : ∀ c, s.head? = some c → isWhiteSpace c = false) :
    trimStart s = s := by
  cases s with
  | nil => rfl
  | cons x s =>
    rw [trimStart_cons]
    have := h x rfl
    simp [this]

theorem trimEnd_head (s : Str) (c : Char) (h : (trimEnd s).head? = some c) :
    s.head? = some c := by
  cases s with
  | nil => simp [trimEnd] at h
  | cons x s =>
    rw [trimEnd_cons] at h
    by_cases hx : trimEnd s = [] ∧ isWhiteSpace x = true
    · rw [if_pos hx] at h; simp at h
    · rw [if_neg hx] at h; simpa using h

theorem trim_head_not_ws (s : Str) (c : Char) (h : (trim s).head? = some c) :
    isWhiteSpace c = false :=
  trimStart_head_not_ws s c (trimEnd_head _ c h)

theorem getLast?_cons_of_ne {α : Type} (a : α) {l : List α} (h : l ≠ []) :
    (a :: l).getLast? = l.getLast? := by
  cases l with
  | nil => exact absurd rfl h
  | cons b l => simp

theorem trimEnd_getLast_not_ws (s : Str) (c : Char) (h : (trimEnd s).getLast? = some c) :
    isWhiteSpace c = false := by
  induction s with
  | nil => simp [trimEnd] at h
  | cons x s ih =>
    rw [trimEnd_cons] at h
    by_cases hx : trimEnd s = [] ∧ isWhiteSpace x = true
    · rw [if_pos hx] at h; simp at h
    · rw [if_neg hx] at h
      by_cases hs : trimEnd s = []
      · rw [hs] at h
        simp at h
        subst h
        have : ¬ isWhiteSpace x = true := fun hw => hx ⟨hs, hw⟩
        simpa using this
      · rw [getLast?_cons_of_ne x hs] at h
        exact ih h

theorem trim_getLast_not_ws (s : Str) (c : Char) (h : (trim s).getLast? = some c) :
    isWhiteSpace c = false :=
  trimEnd_getLast_not_ws _ c h

theorem trim_trim (s : Str) : trim (trim s) = trim s := by
  have h1 : trimStart (trim s) = trim s :=
    trimStart_of_head _ (fun c hc => trim_head_not_ws s c hc)
  show trimEnd (trimStart (trim s)) = trim s
  rw [h1]
  exact trimEnd_idem _

theorem trimStart_replicate_append (k : Nat) (t : Str) :
    trimStart (List.replicate k ' ' ++ t) = trimStart t := by
  induction k with
  | zero => simp
  | succ k ih =>
    rw [List.replicate_succ, List.cons_append, trimStart_cons]
    have : isWhiteSpace ' ' = true := by decide
    rw [if_pos this, ih]

theorem trim_replicate_append (k : Nat) (t : Str) :
    trim (List.replicate k ' ' ++ t) = trim t := by
  unfold trim
  rw [trimStart_replicate_append]

theorem trim_nil : trim [] = [] := rfl

theorem trim_expectedLine (count : Nat) (line : Str) :
    trim (expectedLine count line) = trim line := by
  unfold expectedLine
  split
  · next h => rw [h]; rfl
  · split <;> rw [trim_replicate_append, trim_trim]

/-! ### The indentation stack -/

theorem length_levels (n : Nat) : (levels n).length = n := by
  induction n with
  | zero => rfl
  | succ n ih => simp [levels, ih]

theorem getIndentation_levels (n : Nat) :
    getIndentation (levels n) = List.replicate (4 * n) ' ' := by
  cases n with
  | zero => rfl
  | succ n =>
    simp only [levels, getIndentation, List.getLast?_concat]
    have : List.replicate (4 * (n + 1)) ' ' ≠ [] := by
      simp [List.replicate_succ, Nat.mul_succ]
    rw [if_neg this]

theorem dropLast_levels (n : Nat) : (levels n).dropLast = levels (n - 1) := by
  cases n with
  | zero => rfl
  | succ n => simp [levels]

theorem push_levels (n : Nat) :
    levels n ++ [List.replicate (4 * n) ' ' ++ indentUnit] = levels (n + 1) := by
  show _ = levels n ++ [List.replicate (4 * (n + 1)) ' ']
  congr 2
  rw [Nat.mul_succ, List.replicate_add]
  rfl

theorem formatLine_levels (n : Nat) (line : Str) :
    formatLine (levels n) line = (expectedLine n line, levels (counterStep n line)) := by
  unfold formatLine expectedLine counterStep
  by_cases h0 : trim line = []
  · simp [h0, endsWithOpen]
  · by_cases h1 : endsWithOpen (trim line) = true
    · have h2 : trim line ≠ ['}'] := by
        intro h; rw [h] at h1; revert h1; decide
      simp only [h0, h1, h2, if_true, if_false, getIndentation_levels, push_levels]
    · by_cases h2 : trim line = ['}']
      · simp only [h0, h1, if_false, dropLast_levels, getIndentation_levels]
        simp [h2]
      · simp [h0, h1, h2, getIndentation_levels]

theorem formatLines_levels (lines : List Str) (n : Nat) :
    formatLines (levels n) lines
      = (expectedLines n lines, levels (lines.foldl counterStep n)) := by
  induction lines generalizing n with
  | nil => rfl
  | cons line rest ih =>
    simp only [formatLines, formatLine_levels, ih, expectedLines, List.foldl_cons]

theorem length_expectedLines (lines : List Str) (n : Nat) :
    (expectedLines n lines).length = lines.length := by
  induction lines generalizing n with
  | nil => rfl
  | cons line rest ih => simp [expectedLines, ih]

theorem getElem?_expectedLines (lines : List Str) (n i : Nat) :
    (expectedLines n lines)[i]?
      = (lines[i]?).map (expectedLine ((lines.take i).foldl counterStep n)) := by
  induction lines generalizing n i with
  | nil => simp [expectedLines]
  | cons line rest ih =>
    cases i with
    | zero => simp [expectedLines]
    | succ i => simp [expectedLines, ih]

theorem formatTronDocument_eq (text : Str) (options : FormattingOptions) :
    formatTronDocument text options
      = if 0 < openBlocks (splitLines text) then Except.error mismatchedBraces
        else Except.ok (joinLines (expectedLines 0 (splitLines text))) := by
  unfold formatTronDocument openBlocks
  have h := formatLines_levels (splitLines text) 0
  simp only [levels] at h
  simp only [h, length_levels, gt_iff_lt]

/-! ### Lines -/

theorem splitLines_nl (cs : Str) : splitLines ('\n' :: cs) = [] :: splitLines cs := by
  cases cs with
  | nil => simp [splitLines]
  | cons d ds => simp [splitLines]

theorem splitLines_crnl (cs : Str) : splitLines ('\r' :: '\n' :: cs) = [] :: splitLines cs := by
  rw [splitLines]
  simp

theorem splitLines_other (c : Char) (cs : Str) (h1 : c ≠ '\n')
    (h2 : ¬ (c = '\r' ∧ cs.head? = some '\n')) :
    splitLines (c :: cs) = consHead c (splitLines cs) := by
  cases cs with
  | nil => simp [splitLines, h1, consHead]
  | cons d ds =>
    rw [splitLines]
    have h3 : ¬ (c = '\r' ∧ d = '\n') := by simpa using h2
    rw [if_neg h1, if_neg h3]

theorem splitLines_ne_nil : ∀ text : Str, splitLines text ≠ []
  | [] => by simp [splitLines]
  | c :: cs => by
    have ih := splitLines_ne_nil cs
    by_cases h1 : c = '\n'
    · subst h1; rw [splitLines_nl]; simp
    · by_cases h2 : c = '\r' ∧ cs.head? = some '\n'
      · obtain ⟨hc, hd⟩ := h2
        cases cs with
        | nil => simp at hd
        | cons d ds =>
          simp at hd
          subst hc; subst hd
          rw [splitLines_crnl]; simp
      · rw [splitLines_other c cs h1 h2]
        cases hs : splitLines cs with
        | nil => exact absurd hs ih
        | cons l ls => simp [consHead]

theorem not_mem_nl_splitLines : ∀ (text : Str) (l : Str), l ∈ splitLines text → '\n' ∉ l
  | [], l, h => by
    simp [splitLines] at h
    subst h; simp
  | c :: cs, l, h => by
    have ih := not_mem_nl_splitLines cs
    by_cases h1 : c = '\n'
    · subst h1
      rw [splitLines_nl] at h
      rcases List.mem_cons.mp h with h | h
      · subst h; simp
      · exact ih l h
    · by_cases h2 : c = '\r' ∧ cs.head? = some '\n'
      · obtain ⟨hc, hd⟩ := h2
        cases cs with
        | nil => simp at hd
        | cons d ds =>
          simp at hd
          subst hc; subst hd
          rw [splitLines_crnl] at h
          have ih2 := not_mem_nl_splitLines ds
          rcases List.mem_cons.mp h with h | h
          · subst h; simp
          · exact ih2 l h
      · rw [splitLines_other c cs h1 h2] at h
        cases hs : splitLines cs with
        | nil => exact absurd hs (splitLines_ne_nil cs)
        | cons m ms =>
          rw [hs] at h ih
          simp only [consHead, List.mem_cons] at h
          rcases h with h | h
          · subst h
            have := ih m (List.mem_cons_self _ _)
            simp only [List.mem_cons, not_or]
            exact ⟨fun e => h1 e.symm, this⟩
          · exact ih l (List.mem_cons_of_mem _ h)

theorem not_mem_nl_expectedLine (count : Nat) (line : Str) (h : '\n' ∉ line) :
    '\n' ∉ expectedLine count line := by
  have ht : '\n' ∉ trim line := fun hm => h (mem_trim hm)
  unfold expectedLine
  split
  · simp
  · split <;>
    · intro hm
      rcases List.mem_append.mp hm with hm | hm
      · have := (List.mem_replicate.mp hm).2
        revert this; decide
      · exact ht hm

theorem not_mem_nl_expectedLines (lines : List Str) (count : Nat)
    (h : ∀ l ∈ lines, '\n' ∉ l) : ∀ l ∈ expectedLines count lines, '\n' ∉ l := by
  induction lines generalizing count with
  | nil => simp [expectedLines]
  | cons line rest ih =>
    intro l hl
    simp only [expectedLines, List.mem_cons] at hl
    rcases hl with hl | hl
    · subst hl
      exact not_mem_nl_expectedLine count line (h line (List.mem_cons_self _ _))
    · exact ih _ (fun m hm => h m (List.mem_cons_of_mem _ hm)) l hl

theorem expectedLine_of_ne_nil (lines : List Str) (i : Nat) (line : Str)
    (hi : lines[i]? = some line) (hne : trim line ≠ []) :
    expectedLine (openBlocks (lines.take i)) line
      = List.replicate (4 * lineDepth lines i) ' ' ++ trim line := by
  unfold expectedLine lineDepth
  rw [if_neg hne, hi]
  by_cases h : trim line = ['}']
  · simp [h]
  · simp [h]

/-! ### Formatter claims -/

/-- C1: whenever `formatTronDocument` succeeds, whatever the formatting options,
the output is the newline-join of one output line per input line, and each
output line whose trimmed input line is non-empty is exactly `4 * d` spaces
followed by the trimmed input line, `d` being the number of blocks open at that
line (`lineDepth`: the counter before the line, after the pop for a line that
trims to exactly a closing brace). -/
theorem formatTronDocument_line_indentation (text out : Str) (options : FormattingOptions)
    (h : formatTronDocument text options = Except.ok out) :
    ∃ outLines : List Str,
      out = joinLines outLines ∧ outLines.length = (splitLines text).length ∧
      (∀ l ∈ outLines, '\n' ∉ l) ∧
      ∀ (i : Nat) (line : Str), (splitLines text)[i]? = some line → trim line ≠ [] →
        outLines[i]?
          = some (List.replicate (4 * lineDepth (splitLines text) i) ' ' ++ trim line) := by
  rw [formatTronDocument_eq] at h
  split at h
  · cases h
  · injection h with h
    refine ⟨expectedLines 0 (splitLines text), h.symm, length_expectedLines _ _,
      not_mem_nl_expectedLines _ _ (not_mem_nl_splitLines text), ?_⟩
    intro i line hi hne
    rw [getElem?_expectedLines, hi, Option.map_some']
    exact congrArg some (expectedLine_of_ne_nil _ i line hi hne)

/-- C1 at the scenario text of the specification, with a tab size of 2. -/
theorem formatTronDocument_line_indentation_witness :
    formatTronDocument scenarioText ⟨2, true⟩ = Except.ok scenarioFormatted ∧
    ∃ outLines : List Str,
      scenarioFormatted = joinLines outLines ∧
      outLines.length = (splitLines scenarioText).length ∧
      (∀ l ∈ outLines, '\n' ∉ l) ∧
      ∀ (i : Nat) (line : Str), (splitLines scenarioText)[i]? = some line → trim line ≠ [] →
        outLines[i]?
          = some (List.replicate (4 * lineDepth (splitLines scenarioText) i) ' ' ++ trim line) :=
  ⟨by decide, formatTronDocument_line_indentation scenarioText scenarioFormatted ⟨2, true⟩
    (by decide)⟩

theorem length_stack_eq_openBlocks (text : Str) :
    (formatLines [] (splitLines text)).2.length = openBlocks (splitLines text) := by
  have h := formatLines_levels (splitLines text) 0
  simp only [levels] at h
  rw [h, length_levels]
  rfl

theorem formatTronDocument_error_iff_pos (text : Str) (options : FormattingOptions) :
    formatTronDocument text options = Except.error mismatchedBraces
      ↔ 0 < openBlocks (splitLines text) := by
  rw [formatTronDocument_eq]
  by_cases h : 0 < openBlocks (splitLines text)
  · simp [h]
  · simp [h]

theorem formatTronDocument_of_not_pos (text : Str) (options : FormattingOptions)
    (h : ¬ 0 < openBlocks (splitLines text)) :
    formatTronDocument text options
      = Except.ok (joinLines (formatLines [] (splitLines text)).1) := by
  unfold formatTronDocument
  simp only [gt_iff_lt, length_stack_eq_openBlocks, if_neg h]

/-- C2: `formatTronDocument` fails with the mismatched-braces error exactly
when the indentation stack is non-empty after all lines are processed; the
length of that stack is the specification's counter (0 at the start, plus one
for a line whose trimmed form ends with an opening brace, minus one, never
below 0, for a line whose trimmed form is exactly a closing brace); and in
every other case the result is the formatted text, the newline-join of the
formatted lines. -/
theorem formatTronDocument_error_iff (text : Str) (options : FormattingOptions) :
    (formatTronDocument text options = Except.error mismatchedBraces
      ↔ 0 < (formatLines [] (splitLines text)).2.length) ∧
    (formatLines [] (splitLines text)).2.length = openBlocks (splitLines text) ∧
    (formatTronDocument text options = Except.error mismatchedBraces
      ↔ 0 < openBlocks (splitLines text)) ∧
    (¬ 0 < openBlocks (splitLines text) →
      formatTronDocument text options
        = Except.ok (joinLines (formatLines [] (splitLines text)).1)) := by
  refine ⟨?_, length_stack_eq_openBlocks text, formatTronDocument_error_iff_pos text options,
    formatTronDocument_of_not_pos text options⟩
  rw [length_stack_eq_openBlocks]
  exact formatTronDocument_error_iff_pos text options

/-! ### Idempotence -/

theorem splitLines_of_not_mem : ∀ (l : Str), '\n' ∉ l → splitLines l = [l]
  | [], _ => rfl
  | c :: cs, h => by
    have hc : c ≠ '\n' := fun e => h (by simp [e])
    have hcs : '\n' ∉ cs := fun e => h (List.mem_cons_of_mem _ e)
    have h2 : ¬ (c = '\r' ∧ cs.head? = some '\n') := by
      rintro ⟨-, hd⟩
      exact hcs (List.mem_of_mem_head? hd)
    rw [splitLines_other c cs hc h2, splitLines_of_not_mem cs hcs]
    rfl

theorem splitLines_append_nl : ∀ (l rest : Str), '\n' ∉ l → l.getLast? ≠ some '\r' →
    splitLines (l ++ '\n' :: rest) = l :: splitLines rest
  | [], rest, _, _ => by simp [splitLines_nl]
  | c :: cs, rest, h, hr => by
    have hc : c ≠ '\n' := fun e => h (by simp [e])
    have hcs : '\n' ∉ cs := fun e => h (List.mem_cons_of_mem _ e)
    have h2 : ¬ (c = '\r' ∧ (cs ++ '\n' :: rest).head? = some '\n') := by
      rintro ⟨hcr, hd⟩
      cases cs with
      | nil => exact hr (by simp [hcr])
      | cons d ds =>
        simp at hd
        exact hcs (by simp [hd])
    have hr2 : cs.getLast? ≠ some '\r' := by
      cases cs with
      | nil => simp
      | cons d ds => simpa using hr
    rw [List.cons_append, splitLines_other c _ hc h2, splitLines_append_nl cs rest hcs hr2]
    rfl

theorem splitLines_joinLines : ∀ (ls : List Str), ls ≠ [] →
    (∀ l ∈ ls, '\n' ∉ l ∧ l.getLast? ≠ some '\r') → splitLines (joinLines ls) = ls
  | [], h, _ => absurd rfl h
  | [l], _, h => by
    simpa [joinLines] using splitLines_of_not_mem l (h l (by simp)).1
  | l :: m :: ls, _, h => by
    have hl := h l (by simp)
    rw [joinLines, splitLines_append_nl l _ hl.1 hl.2,
      splitLines_joinLines (m :: ls) (by simp) (fun x hx => h x (List.mem_cons_of_mem _ hx))]

theorem expectedLine_getLast (count : Nat) (line : Str) :
    (expectedLine count line).getLast? ≠ some '\r' := by
  have key : ∀ k : Nat, trim line ≠ [] →
      (List.replicate k ' ' ++ trim line).getLast? ≠ some '\r' := by
    intro k hne hl
    obtain ⟨c, hc⟩ : ∃ c, (trim line).getLast? = some c := by
      cases hg : (trim line).getLast? with
      | none => exact absurd (List.getLast?_eq_none_iff.mp hg) hne
      | some c => exact ⟨c, rfl⟩
    rw [List.getLast?_append, hc] at hl
    simp at hl
    subst hl
    have := trim_getLast_not_ws line _ hc
    revert this; decide
  unfold expectedLine
  split
  · simp
  · next hne => split <;> exact key _ hne

theorem counterStep_congr (count : Nat) (a b : Str) (h : trim a = trim b) :
    counterStep count a = counterStep count b := by
  unfold counterStep; rw [h]

theorem expectedLine_congr (count : Nat) (a b : Str) (h : trim a = trim b) :
    expectedLine count a = expectedLine count b := by
  unfold expectedLine; rw [h]

theorem expectedLines_expectedLines (lines : List Str) (m n : Nat) :
    expectedLines n (expectedLines m lines) = expectedLines n lines ∧
    (expectedLines m lines).foldl counterStep n = lines.foldl counterStep n := by
  induction lines generalizing m n with
  | nil => exact ⟨rfl, rfl⟩
  | cons line rest ih =>
    have ht := trim_expectedLine m line
    simp only [expectedLines, List.foldl_cons]
    rw [expectedLine_congr n _ _ ht, counterStep_congr n _ _ ht]
    exact ⟨by rw [(ih _ _).1], (ih _ _).2⟩

theorem splitLines_joinLines_expectedLines (text : Str) :
    splitLines (joinLines (expectedLines 0 (splitLines text)))
      = expectedLines 0 (splitLines text) := by
  apply splitLines_joinLines
  · intro h
    have := length_expectedLines (splitLines text) 0
    rw [h] at this
    exact splitLines_ne_nil text (List.length_eq_zero.mp this.symm)
  · intro l hl
    refine ⟨not_mem_nl_expectedLines _ _ (not_mem_nl_splitLines text) l hl, ?_⟩
    obtain ⟨i, hi, rfl⟩ := List.getElem_of_mem hl
    have h2 := getElem?_expectedLines (splitLines text) 0 i
    rw [List.getElem?_eq_getElem hi] at h2
    cases hline : (splitLines text)[i]? with
    | none => rw [hline] at h2; simp at h2
    | some line =>
      rw [hline, Option.map_some'] at h2
      injection h2 with h2
      rw [h2]
      exact expectedLine_getLast _ _

/-- C3: formatting is idempotent. When `formatTronDocument` succeeds on a text
with output `out`, formatting `out` again (under any options) succeeds and
returns `out` itself. -/
theorem formatTronDocument_idempotent (text out : Str) (options options' : FormattingOptions)
    (h : formatTronDocument text options = Except.ok out) :
    formatTronDocument out options' = Except.ok out := by
  rw [formatTronDocument_eq] at h
  split at h
  · cases h
  · next hc =>
    injection h with h
    subst h
    rw [formatTronDocument_eq, splitLines_joinLines_expectedLines]
    have h2 := expectedLines_expectedLines (splitLines text) 0 0
    have h3 : openBlocks (expectedLines 0 (splitLines text)) = openBlocks (splitLines text) :=
      h2.2
    rw [h3, if_neg hc, h2.1]

/-- C3 at a badly indented text with a two-character line ending. -/
theorem formatTronDocument_idempotent_witness :
    formatTronDocument "a \x7b\r\n  b\n   \x7d".toList ⟨4, true⟩ = Except.ok "a \x7b\n    b\n\x7d".toList ∧
    formatTronDocument "a \x7b\n    b\n\x7d".toList ⟨2, false⟩ = Except.ok "a \x7b\n    b\n\x7d".toList :=
  ⟨by decide, formatTronDocument_idempotent "a \x7b\r\n  b\n   \x7d".toList "a \x7b\n    b\n\x7d".toList
    ⟨4, true⟩ ⟨2, false⟩ (by decide)⟩

/-! ### Balanced braces, character by character -/

theorem braceDepth_append (a b : Str) (d : Nat) :
    braceDepth d (a ++ b) = (braceDepth d a).bind (fun e => braceDepth e b) := by
  induction a generalizing d with
  | nil => rfl
  | cons c a ih =>
    simp only [List.cons_append, braceDepth]
    cases braceChar d c with
    | none => rfl
    | some e => simp [ih]

theorem linesBraceDepth_consHead (c : Char) (ls : List Str) (hls : ls ≠ []) (d : Nat) :
    linesBraceDepth d (consHead c ls)
      = (braceChar d c).bind (fun e => linesBraceDepth e ls) := by
  cases ls with
  | nil => exact absurd rfl hls
  | cons l ls =>
    simp only [consHead, linesBraceDepth, braceDepth]
    cases braceChar d c with
    | none => rfl
    | some e => simp

theorem braceDepth_splitLines : ∀ (text : Str) (d : Nat),
    linesBraceDepth d (splitLines text) = braceDepth d text
  | [], d => rfl
  | c :: cs, d => by
    have ih := braceDepth_splitLines cs
    by_cases h1 : c = '\n'
    · subst h1
      rw [splitLines_nl]
      simp only [linesBraceDepth, braceDepth, Option.some_bind]
      rw [ih]
      rfl
    · by_cases h2 : c = '\r' ∧ cs.head? = some '\n'
      · obtain ⟨hc, hd⟩ := h2
        cases cs with
        | nil => simp at hd
        | cons e es =>
          simp at hd
          subst hc; subst hd
          rw [splitLines_crnl]
          have ih2 := braceDepth_splitLines es
          simp only [linesBraceDepth, braceDepth, Option.some_bind]
          rw [ih2]
          rfl
      · rw [splitLines_other c cs h1 h2,
          linesBraceDepth_consHead c _ (splitLines_ne_nil cs)]
        simp only [braceDepth, ih]

theorem braceDepth_of_not_mem (l : Str) (h1 : '{' ∉ l) (h2 : '}' ∉ l) (d : Nat) :
    braceDepth d l = some d := by
  induction l with
  | nil => rfl
  | cons c cs ih =>
    have hc1 : c ≠ '{' := fun e => h1 (by simp [e])
    have hc2 : c ≠ '}' := fun e => h2 (by simp [e])
    simp only [braceDepth, braceChar, if_neg hc1, if_neg hc2, Option.some_bind]
    exact ih (fun e => h1 (List.mem_cons_of_mem _ e)) (fun e => h2 (List.mem_cons_of_mem _ e))

theorem not_mem_of_all_ws (l : Str) (h : l.all isWhiteSpace = true) (c : Char)
    (hc : isWhiteSpace c = false) : c ∉ l := by
  intro hm
  have := List.all_eq_true.mp h c hm
  rw [hc] at this
  cases this

theorem braceDepth_of_all_ws (l : Str) (h : l.all isWhiteSpace = true) (d : Nat) :
    braceDepth d l = some d :=
  braceDepth_of_not_mem l (not_mem_of_all_ws l h _ (by decide))
    (not_mem_of_all_ws l h _ (by decide)) d

theorem trimStart_decompose (s : Str) :
    ∃ a, s = a ++ trimStart s ∧ a.all isWhiteSpace = true := by
  refine ⟨s.takeWhile isWhiteSpace, (List.takeWhile_append_dropWhile _ _).symm, ?_⟩
  rw [List.all_eq_true]
  intro c hc
  exact List.mem_takeWhile_imp hc

theorem trimEnd_decompose (s : Str) :
    ∃ b, s = trimEnd s ++ b ∧ b.all isWhiteSpace = true := by
  induction s with
  | nil => exact ⟨[], rfl, rfl⟩
  | cons c s ih =>
    obtain ⟨b, hb, hw⟩ := ih
    rw [trimEnd_cons]
    by_cases h : trimEnd s = [] ∧ isWhiteSpace c = true
    · rw [if_pos h]
      refine ⟨c :: b, ?_, by simp [h.2, hw]⟩
      rw [h.1] at hb
      simp [hb]
    · rw [if_neg h]
      exact ⟨b, by rw [List.cons_append, ← hb], hw⟩

theorem trim_decompose (s : Str) :
    ∃ a b, s = a ++ trim s ++ b ∧ a.all isWhiteSpace = true ∧ b.all isWhiteSpace = true := by
  obtain ⟨a, ha, haw⟩ := trimStart_decompose s
  obtain ⟨b, hb, hbw⟩ := trimEnd_decompose (trimStart s)
  refine ⟨a, b, ?_, haw, hbw⟩
  show s = a ++ trimEnd (trimStart s) ++ b
  rw [List.append_assoc, ← hb, ← ha]

theorem braceDepth_eq_trim (s : Str) (d : Nat) : braceDepth d s = braceDepth d (trim s) := by
  obtain ⟨a, b, hs, ha, hb⟩ := trim_decompose s
  conv_lhs => rw [hs]
  rw [braceDepth_append, braceDepth_append, braceDepth_of_all_ws a ha, Option.some_bind]
  cases h : braceDepth d (trim s) with
  | none => rfl
  | some e => rw [Option.some_bind, braceDepth_of_all_ws b hb]

theorem openBracesLast_depth (l : Str) (h1 : openBracesLast l = true) (h2 : '}' ∉ l)
    (d : Nat) : braceDepth d l = some (if '{' ∈ l then d + 1 else d) := by
  induction l with
  | nil => simp [braceDepth]
  | cons c cs ih =>
    simp only [openBracesLast, Bool.and_eq_true, Bool.or_eq_true, bne_iff_ne, ne_eq] at h1
    have h2c : c ≠ '}' := fun e => h2 (by simp [e])
    have h2cs : '}' ∉ cs := fun e => h2 (List.mem_cons_of_mem _ e)
    by_cases hc : c = '{'
    · subst hc
      have hws : cs.all isWhiteSpace = true := by
        rcases h1.1 with h | h
        · exact absurd rfl h
        · exact h
      simp [braceDepth, braceChar, braceDepth_of_all_ws cs hws]
    · simp only [braceDepth, braceChar, if_neg hc, if_neg h2c, Option.some_bind]
      rw [ih h1.2 h2cs]
      have : ('{' ∈ c :: cs) ↔ ('{' ∈ cs) := by
        simp [List.mem_cons, Ne.symm hc]
      simp only [this]

theorem openBracesLast_split (pre post : Str) (h : openBracesLast (pre ++ '{' :: post) = true) :
    post.all isWhiteSpace = true := by
  induction pre with
  | nil =>
    simp only [List.nil_append, openBracesLast, Bool.and_eq_true, Bool.or_eq_true, bne_iff_ne] at h
    rcases h.1 with h | h
    · exact absurd rfl h
    · exact h
  | cons c pre ih =>
    simp only [List.cons_append, openBracesLast, Bool.and_eq_true] at h
    exact ih h.2

theorem dropWhile_append_of_not (p : Char → Bool) (a b : Str) (c : Char) (hc : p c = false) :
    (a ++ c :: b).dropWhile p = a.dropWhile p ++ c :: b := by
  induction a with
  | nil => simp [List.dropWhile_cons, hc]
  | cons x a ih =>
    by_cases hx : p x = true
    · simp [List.dropWhile_cons, hx, ih]
    · simp [List.dropWhile_cons, hx]

theorem trimEnd_append_of_not (x post : Str) (c : Char) (hc : isWhiteSpace c = false)
    (hp : post.all isWhiteSpace = true) : trimEnd (x ++ c :: post) = x ++ [c] := by
  have hpost : trimEnd post = [] := by
    obtain ⟨b, hb, -⟩ := trimEnd_decompose post
    cases ht : trimEnd post with
    | nil => rfl
    | cons y ys =>
      have hy : (trimEnd post).getLast? = some ((y :: ys).getLast (by simp)) := by
        rw [ht]; exact List.getLast?_eq_getLast _ _
      have hnw := trimEnd_getLast_not_ws post _ hy
      have hmem : (y :: ys).getLast (by simp) ∈ post :=
        mem_trimEnd (by rw [ht]; exact List.getLast_mem _)
      exact absurd hmem (not_mem_of_all_ws post hp _ hnw)
  induction x with
  | nil => simp [trimEnd_cons, hpost, hc]
  | cons y x ih => rw [List.cons_append, trimEnd_cons, ih]; simp

theorem endsWithOpen_trim (pre post : Str) (hp : post.all isWhiteSpace = true) :
    endsWithOpen (trim (pre ++ '{' :: post)) = true := by
  have h1 : trimStart (pre ++ '{' :: post) = trimStart pre ++ '{' :: post :=
    dropWhile_append_of_not isWhiteSpace pre post '{' (by decide)
  unfold trim
  rw [h1, trimEnd_append_of_not _ post '{' (by decide) hp]
  simp [endsWithOpen]

theorem braceDepth_line (l : Str) (h1 : openBracesLast l = true)
    (h2 : closeBracesAlone l = true) (d k : Nat) (h : braceDepth d l = some k) :
    k = counterStep d l := by
  by_cases hc : '}' ∈ l
  · have ht : trim l = ['}'] := by
      simp only [closeBracesAlone, Bool.or_eq_true, Bool.not_eq_true', beq_iff_eq] at h2
      rcases h2 with h2 | h2
      · have : l.contains '}' = true := by simp [hc]
        rw [this] at h2; cases h2
      · exact h2
    rw [braceDepth_eq_trim, ht] at h
    unfold counterStep
    rw [ht]
    by_cases hd : d = 0
    · subst hd; simp [braceDepth, braceChar] at h
    · simp [braceDepth, braceChar, hd] at h
      simp [endsWithOpen, h]
  · rw [openBracesLast_depth l h1 hc d] at h
    by_cases ho : '{' ∈ l
    · obtain ⟨pre, post, hl⟩ := List.append_of_mem ho
      have hp := openBracesLast_split pre post (hl ▸ h1)
      have he := endsWithOpen_trim pre post hp
      rw [← hl] at he
      unfold counterStep
      rw [if_pos ho] at h
      injection h with h
      rw [if_pos he, h]
    · rw [if_neg ho] at h
      injection h with h
      have he : endsWithOpen (trim l) = false := by
        cases hg : endsWithOpen (trim l) with
        | false => rfl
        | true =>
          simp only [endsWithOpen, decide_eq_true_eq] at hg
          exact absurd (mem_trim (List.mem_of_getLast?_eq_some hg)) ho
      have hne : trim l ≠ ['}'] := by
        intro e
        exact hc (mem_trim (by rw [e]; simp))
      unfold counterStep
      simp [he, hne, h]

theorem linesBraceDepth_counter (lines : List Str)
    (hl : ∀ l ∈ lines, openBracesLast l = true ∧ closeBracesAlone l = true) (d k : Nat)
    (h : linesBraceDepth d lines = some k) : lines.foldl counterStep d = k := by
  induction lines generalizing d with
  | nil =>
    simp only [linesBraceDepth] at h
    injection h
  | cons l rest ih =>
    simp only [linesBraceDepth] at h
    cases hd : braceDepth d l with
    | none => rw [hd] at h; cases h
    | some e =>
      rw [hd, Option.some_bind] at h
      have hl0 := hl l (List.mem_cons_self _ _)
      have he := braceDepth_line l hl0.1 hl0.2 d e hd
      rw [List.foldl_cons, ← he]
      exact ih (fun m hm => hl m (List.mem_cons_of_mem _ hm)) e h

theorem openBlocks_of_braceDepth (text : Str) (hl : bracesLineWise text = true) (k : Nat)
    (h : braceDepth 0 text = some k) : openBlocks (splitLines text) = k := by
  apply linesBraceDepth_counter
  · intro l hm
    have := List.all_eq_true.mp hl l hm
    simpa using this
  · rw [braceDepth_splitLines]; exact h

/-- C4, refuted as stated: the three-line text `if (a) {`, `} else {`, `}` has
balanced braces, and `formatTronDocument` raises the mismatched-braces error on
it. -/
theorem formatTronDocument_balanced_counterexample :
    bracesBalanced "if (a) \x7b\n\x7d else \x7b\n\x7d".toList ∧
    formatTronDocument "if (a) \x7b\n\x7d else \x7b\n\x7d".toList ⟨4, true⟩
      = Except.error mismatchedBraces := by
  unfold bracesBalanced
  decide

/-! ### Balanced texts, line by line -/

theorem braceDepth_count (l : Str) : ∀ (d k : Nat), braceDepth d l = some k →
    k + l.count '}' = d + l.count '{' := by
  induction l with
  | nil =>
    intro d k h
    simp only [braceDepth] at h
    injection h with h
    simp [h]
  | cons c cs ih =>
    intro d k h
    simp only [braceDepth] at h
    by_cases h1 : c = '{'
    · subst h1
      simp only [braceChar, if_true, Option.some_bind] at h
      have := ih (d + 1) k h
      have hc1 : List.count '}' ('{' :: cs) = List.count '}' cs :=
        List.count_cons_of_ne (by decide) cs
      rw [List.count_cons_self, hc1]
      omega
    · by_cases h2 : c = '}'
      · subst h2
        by_cases hd : d = 0
        · subst hd
          simp [braceChar] at h
        · have hb : braceChar d '}' = some (d - 1) := by
            simp [braceChar, hd]
          rw [hb, Option.some_bind] at h
          have := ih (d - 1) k h
          have hc1 : List.count '{' ('}' :: cs) = List.count '{' cs :=
            List.count_cons_of_ne (by decide) cs
          rw [List.count_cons_self, hc1]
          omega
      · simp only [braceChar, if_neg h1, if_neg h2, Option.some_bind] at h
        have := ih d k h
        rw [List.count_cons_of_ne (Ne.symm h1), List.count_cons_of_ne (Ne.symm h2)]
        exact this

theorem counterStep_le_braceDepth (l : Str) (hl : lineOpensEnough l = true) (c d k : Nat)
    (hcd : c ≤ d) (h : braceDepth d l = some k) : counterStep c l ≤ k := by
  have hcount := braceDepth_count l d k h
  unfold lineOpensEnough at hl
  unfold counterStep
  by_cases h1 : endsWithOpen (trim l) = true
  · rw [if_pos h1] at hl ⊢
    have := of_decide_eq_true hl
    omega
  · rw [if_neg h1] at hl ⊢
    by_cases h2 : trim l = ['}']
    · rw [if_pos h2]
      rw [braceDepth_eq_trim, h2] at h
      by_cases hd : d = 0
      · subst hd; simp [braceDepth, braceChar] at h
      · simp [braceDepth, braceChar, hd] at h
        omega
    · rw [if_neg h2] at hl ⊢
      have := of_decide_eq_true hl
      omega

theorem foldl_counterStep_le (lines : List Str)
    (hl : ∀ l ∈ lines, lineOpensEnough l = true) : ∀ (c d k : Nat), c ≤ d →
    linesBraceDepth d lines = some k → lines.foldl counterStep c ≤ k := by
  induction lines with
  | nil =>
    intro c d k hcd h
    simp only [linesBraceDepth] at h
    injection h with h
    simp only [List.foldl_nil]
    omega
  | cons l rest ih =>
    intro c d k hcd h
    simp only [linesBraceDepth] at h
    cases hd : braceDepth d l with
    | none => rw [hd] at h; cases h
    | some e =>
      rw [hd, Option.some_bind] at h
      have hstep := counterStep_le_braceDepth l (hl l (List.mem_cons_self _ _)) c d e hcd hd
      rw [List.foldl_cons]
      exact ih (fun m hm => hl m (List.mem_cons_of_mem _ hm)) _ e k hstep h

theorem openBlocks_of_balanced (text : Str) (hb : braceDepth 0 text = some 0)
    (hl : linesOpenEnough text = true) : openBlocks (splitLines text) = 0 := by
  have h := foldl_counterStep_le (splitLines text)
    (fun l hm => List.all_eq_true.mp hl l hm) 0 0 0 (Nat.le_refl 0)
    (by rw [braceDepth_splitLines]; exact hb)
  exact Nat.le_zero.mp h

/-- C4, amended: for every text whose braces are balanced and in which every
line opens enough (a line that trims to exactly a closing brace aside, no line
holds more closing than opening braces, and a line whose trimmed form ends with
an opening brace holds more opening than closing braces; so
`fn f() { return 1; }` on one line and `fn f() {` / `return 1;` / `}` on three
lines, not `if (a) {` / `} else {` / `}`), `formatTronDocument` does not raise
the mismatched-braces error: it returns the formatted text. -/
theorem formatTronDocument_balanced_opening (text : Str) (options : FormattingOptions)
    (hb : bracesBalanced text) (hl : linesOpenEnough text = true) :
    formatTronDocument text options ≠ Except.error mismatchedBraces ∧
    formatTronDocument text options
      = Except.ok (joinLines (formatLines [] (splitLines text)).1) := by
  have h0 := openBlocks_of_balanced text hb hl
  have h := formatTronDocument_of_not_pos text options (by omega)
  exact ⟨fun e => by rw [h] at e; exact Except.noConfusion e, h⟩

/-- C4, amended, at the one-line text `fn f() { return 1; }` of the claim, which
is returned as it is. -/
theorem formatTronDocument_balanced_opening_witness :
    bracesBalanced "fn f() \x7b return 1; \x7d".toList ∧
    linesOpenEnough "fn f() \x7b return 1; \x7d".toList = true ∧
    formatTronDocument "fn f() \x7b return 1; \x7d".toList ⟨4, true⟩
      = Except.ok "fn f() \x7b return 1; \x7d".toList ∧
    formatTronDocument "fn f() \x7b return 1; \x7d".toList ⟨4, true⟩
      ≠ Except.error mismatchedBraces ∧
    formatTronDocument "fn f() \x7b return 1; \x7d".toList ⟨4, true⟩
      = Except.ok
          (joinLines (formatLines [] (splitLines "fn f() \x7b return 1; \x7d".toList)).1) :=
  ⟨by unfold bracesBalanced; decide, by decide, by decide,
    formatTronDocument_balanced_opening "fn f() \x7b return 1; \x7d".toList ⟨4, true⟩
      (by unfold bracesBalanced; decide) (by decide)⟩

/-- C5, refuted as stated: the one-line text `fn f() { return 1;` has exactly
one unmatched opening brace, which does not end its line, and
`formatTronDocument` returns the text instead of raising the error. -/
theorem formatTronDocument_unmatched_counterexample :
    oneUnmatchedOpen "fn f() \x7b return 1;".toList ∧
    formatTronDocument "fn f() \x7b return 1;".toList ⟨4, true⟩
      = Except.ok "fn f() \x7b return 1;".toList := by
  unfold oneUnmatchedOpen
  decide

/-- C5, amended: for every text with exactly one unmatched opening brace (all
other braces matched) whose braces stand line-wise (every opening brace is the
last non-white-space character of its line, every closing brace the sole
non-white-space content of its line), `formatTronDocument` raises the
mismatched-braces error. -/
theorem formatTronDocument_unmatched_lineWise (text : Str) (options : FormattingOptions)
    (hu : oneUnmatchedOpen text) (hl : bracesLineWise text = true) :
    formatTronDocument text options = Except.error mismatchedBraces := by
  have h1 := openBlocks_of_braceDepth text hl 1 hu
  exact (formatTronDocument_error_iff_pos text options).mpr (by omega)

/-- C5, amended, at a text whose outer block is never closed. -/
theorem formatTronDocument_unmatched_lineWise_witness :
    oneUnmatchedOpen "fn f() \x7b\nif (a) \x7b\n\x7d".toList ∧
    formatTronDocument "fn f() \x7b\nif (a) \x7b\n\x7d".toList ⟨4, true⟩
      = Except.error mismatchedBraces :=
  ⟨by unfold oneUnmatchedOpen; decide,
    formatTronDocument_unmatched_lineWise "fn f() \x7b\nif (a) \x7b\n\x7d".toList ⟨4, true⟩
      (by unfold oneUnmatchedOpen; decide) (by decide)⟩

/-- C6, what the code does on a surplus closing brace: on the one-line text
consisting of a closing brace, no block being open, `formatTronDocument`
returns the text unchanged under every options value and does not raise the
mismatched-braces error. -/
theorem formatTronDocument_surplus_close (options : FormattingOptions) :
    formatTronDocument ['}'] options = Except.ok ['}'] ∧
    formatTronDocument ['}'] options ≠ Except.error mismatchedBraces := by
  have h : formatTronDocument ['}'] options = Except.ok ['}'] := by
    rw [formatTronDocument_eq]
    decide
  exact ⟨h, by rw [h]; intro e; cases e⟩

/-! ### The pattern matcher -/

theorem greedy_sound (p : Char → Bool) (k : Str → Option (List Str)) :
    ∀ (s seg : Str) (r : List Str), greedy p k s = some (seg, r) →
      seg.all p = true ∧ ∃ rest, s = seg ++ rest ∧ k rest = some r
  | [], seg, r, h => by
    simp only [greedy, Option.map_eq_some'] at h
    obtain ⟨r0, hk, he⟩ := h
    injection he with h1 h2
    subst h1; subst h2
    exact ⟨rfl, [], rfl, hk⟩
  | c :: cs, seg, r, h => by
    have ih := greedy_sound p k cs
    have stop : (k (c :: cs)).map (fun r => (([] : Str), r)) = some (seg, r) →
        seg.all p = true ∧ ∃ rest, c :: cs = seg ++ rest ∧ k rest = some r := by
      intro h
      simp only [Option.map_eq_some'] at h
      obtain ⟨r0, hk, he⟩ := h
      injection he with h1 h2
      subst h1; subst h2
      exact ⟨rfl, c :: cs, rfl, hk⟩
    rw [greedy] at h
    by_cases hp : p c = true
    · rw [if_pos hp] at h
      cases hg : greedy p k cs with
      | none => rw [hg] at h; exact stop h
      | some x =>
        obtain ⟨seg0, r0⟩ := x
        rw [hg] at h
        injection h with h
        injection h with h1 h2
        subst h1; subst h2
        obtain ⟨hall, rest, hs, hk⟩ := ih seg0 r0 hg
        exact ⟨by simp [hp, hall], rest, by rw [hs]; rfl, hk⟩
    · rw [if_neg hp] at h
      exact stop h

theorem reluctant_sound (p : Char → Bool) (k : Str → Option (List Str)) :
    ∀ (s seg : Str) (r : List Str), reluctant p k s = some (seg, r) →
      seg.all p = true ∧ ∃ rest, s = seg ++ rest ∧ k rest = some r
  | [], seg, r, h => by
    simp only [reluctant, Option.map_eq_some'] at h
    obtain ⟨r0, hk, he⟩ := h
    injection he with h1 h2
    subst h1; subst h2
    exact ⟨rfl, [], rfl, hk⟩
  | c :: cs, seg, r, h => by
    have ih := reluctant_sound p k cs
    rw [reluctant] at h
    cases hk : k (c :: cs) with
    | some r0 =>
      rw [hk] at h
      injection h with h
      injection h with h1 h2
      subst h1; subst h2
      exact ⟨rfl, c :: cs, rfl, hk⟩
    | none =>
      rw [hk] at h
      by_cases hp : p c = true
      · simp only [if_pos hp] at h
        cases hg : reluctant p k cs with
        | none => rw [hg] at h; cases h
        | some x =>
          obtain ⟨seg0, r0⟩ := x
          rw [hg] at h
          injection h with h
          injection h with h1 h2
          subst h1; subst h2
          obtain ⟨hall, rest, hs, hk2⟩ := ih seg0 r0 hg
          exact ⟨by simp [hp, hall], rest, by rw [hs]; rfl, hk2⟩
      · simp only [if_neg hp] at h
        cases h

theorem matchAtoms_sound : ∀ (atoms : List Atom) (s : Str) (segs : List Str),
    matchAtoms atoms s = some segs →
      segmentsAccepted atoms segs = true ∧ ∃ rest, s = segs.flatten ++ rest
  | [], s, segs, h => by
    simp only [matchAtoms] at h
    injection h with h
    subst h
    exact ⟨rfl, s, rfl⟩
  | Atom.chr c :: atoms, s, segs, h => by
    cases s with
    | nil => simp [matchAtoms] at h
    | cons d ds =>
      simp only [matchAtoms] at h
      by_cases hd : d = c
      · rw [if_pos hd, Option.map_eq_some'] at h
        obtain ⟨r, hr, he⟩ := h
        subst he
        obtain ⟨ha, rest, hs⟩ := matchAtoms_sound atoms ds r hr
        exact ⟨by simp [segmentsAccepted, Atom.accepts, hd, ha], rest, by simp [hs]⟩
      · rw [if_neg hd] at h; cases h
  | Atom.set p :: atoms, s, segs, h => by
    cases s with
    | nil => simp [matchAtoms] at h
    | cons d ds =>
      simp only [matchAtoms] at h
      by_cases hd : p d = true
      · rw [if_pos hd, Option.map_eq_some'] at h
        obtain ⟨r, hr, he⟩ := h
        subst he
        obtain ⟨ha, rest, hs⟩ := matchAtoms_sound atoms ds r hr
        exact ⟨by simp [segmentsAccepted, Atom.accepts, hd, ha], rest, by simp [hs]⟩
      · rw [if_neg hd] at h; cases h
  | Atom.star p :: atoms, s, segs, h => by
    simp only [matchAtoms, Option.map_eq_some'] at h
    obtain ⟨⟨seg, r⟩, hg, he⟩ := h
    subst he
    obtain ⟨hall, rest, hs, hk⟩ := greedy_sound p _ s seg r hg
    obtain ⟨ha, rest2, hs2⟩ := matchAtoms_sound atoms rest r hk
    exact ⟨by simp only [segmentsAccepted, Atom.accepts, hall, ha, Bool.and_self],
      rest2, by simp [hs, hs2]⟩
  | Atom.plus p :: atoms, s, segs, h => by
    cases s with
    | nil => simp [matchAtoms] at h
    | cons d ds =>
      simp only [matchAtoms] at h
      by_cases hd : p d = true
      · rw [if_pos hd, Option.map_eq_some'] at h
        obtain ⟨⟨seg, r⟩, hg, he⟩ := h
        subst he
        obtain ⟨hall, rest, hs, hk⟩ := greedy_sound p _ ds seg r hg
        obtain ⟨ha, rest2, hs2⟩ := matchAtoms_sound atoms rest r hk
        exact ⟨by simp [segmentsAccepted, Atom.accepts, hd, hall, ha],
          rest2, by simp [hs, hs2]⟩
      · rw [if_neg hd] at h; cases h
  | Atom.lazyStar p :: atoms, s, segs, h => by
    simp only [matchAtoms, Option.map_eq_some'] at h
    obtain ⟨⟨seg, r⟩, hg, he⟩ := h
    subst he
    obtain ⟨hall, rest, hs, hk⟩ := reluctant_sound p _ s seg r hg
    obtain ⟨ha, rest2, hs2⟩ := matchAtoms_sound atoms rest r hk
    exact ⟨by simp only [segmentsAccepted, Atom.accepts, hall, ha, Bool.and_self],
      rest2, by simp [hs, hs2]⟩

theorem minLength_le_of_accepts (a : Atom) (seg : Str) (h : a.accepts seg = true) :
    a.minLength ≤ seg.length := by
  cases a with
  | chr c => simp [Atom.accepts] at h; simp [h, Atom.minLength]
  | set p => simp [Atom.accepts] at h; simp [h.1, Atom.minLength]
  | star p => simp [Atom.minLength]
  | plus p =>
    simp [Atom.accepts] at h
    have := List.length_pos.mpr h.1
    simpa [Atom.minLength] using this
  | lazyStar p => simp [Atom.minLength]

theorem minLength_le_of_segmentsAccepted : ∀ (atoms : List Atom) (segs : List Str),
    segmentsAccepted atoms segs = true →
      (atoms.map Atom.minLength).sum ≤ segs.flatten.length
  | [], [], _ => by simp
  | [], _ :: _, h => by simp [segmentsAccepted] at h
  | _ :: _, [], h => by simp [segmentsAccepted] at h
  | a :: atoms, seg :: segs, h => by
    simp only [segmentsAccepted, Bool.and_eq_true] at h
    have h1 := minLength_le_of_accepts a seg h.1
    have h2 := minLength_le_of_segmentsAccepted atoms segs h.2
    simp only [List.map_cons, List.sum_cons, List.flatten_cons, List.length_append]
    omega

theorem minLength_le_matched (re : Regex) (s : Str) (segs : List Str)
    (h : matchAtoms (re.map Prod.snd) s = some segs) :
    re.minLength ≤ segs.flatten.length := by
  have h1 := (matchAtoms_sound _ s segs h).1
  have h2 := minLength_le_of_segmentsAccepted _ segs h1
  unfold Regex.minLength
  rw [List.map_map] at h2
  exact h2

/-! ### `exec` and the scan loops -/

theorem execFrom_sound (re : Regex) : ∀ (s : Str) (i : Nat) (m : RegExpMatch),
    execFrom re s i = some m →
      ∃ k, k ≤ s.length ∧ m.index = i + k ∧
        matchAtoms (re.map Prod.snd) (s.drop k) = some m.segments
  | [], i, m, h => by
    simp only [execFrom, Option.map_eq_some'] at h
    obtain ⟨segs, hs, he⟩ := h
    subst he
    exact ⟨0, by simp, rfl, hs⟩
  | c :: cs, i, m, h => by
    rw [execFrom] at h
    cases hm : matchAtoms (re.map Prod.snd) (c :: cs) with
    | some segs =>
      rw [hm] at h
      injection h with h
      subst h
      exact ⟨0, by simp, rfl, hm⟩
    | none =>
      rw [hm] at h
      obtain ⟨k, hk, hi, hs⟩ := execFrom_sound re cs (i + 1) m h
      exact ⟨k + 1, by simp [hk], by omega, by simpa using hs⟩

theorem regexExec_sound (re : Regex) (text : Str) (lastIndex : Nat) (m : RegExpMatch)
    (h : regexExec re text lastIndex = some m) :
    lastIndex ≤ m.index ∧ m.endIndex ≤ text.length ∧
      re.minLength ≤ m.matched.length ∧
      ∃ rest, text.drop m.index = m.matched ++ rest := by
  unfold regexExec at h
  by_cases hl : lastIndex > text.length
  · rw [if_pos hl] at h; cases h
  · rw [if_neg hl] at h
    obtain ⟨k, hk, hi, hs⟩ := execFrom_sound re _ lastIndex m h
    rw [List.drop_drop] at hs
    have hidx : lastIndex + k = m.index := hi.symm
    rw [hidx] at hs
    obtain ⟨-, rest, hrest⟩ := matchAtoms_sound _ _ _ hs
    have hmin := minLength_le_matched re _ _ hs
    have hlen : (text.drop m.index).length = m.matched.length + rest.length := by
      rw [hrest, List.length_append]; rfl
    rw [List.length_drop] at hlen
    rw [List.length_drop] at hk
    refine ⟨by omega, ?_, hmin, rest, hrest⟩
    unfold RegExpMatch.endIndex
    omega

theorem scanAll_terminates (re : Regex) (text : Str) (hmin : 0 < re.minLength) :
    ∀ (fuel lastIndex : Nat), text.length < fuel + lastIndex → 0 < fuel →
      ∃ ms, scanAll re text fuel lastIndex = some ms
  | 0, _, _, h0 => absurd h0 (Nat.lt_irrefl 0)
  | fuel + 1, lastIndex, hf, _ => by
    rw [scanAll]
    cases hm : regexExec re text lastIndex with
    | none => exact ⟨[], rfl⟩
    | some m =>
      obtain ⟨h1, h2, h3, -⟩ := regexExec_sound re text lastIndex m hm
      have hend : lastIndex < m.endIndex := by
        unfold RegExpMatch.endIndex; omega
      have hfuel : 0 < fuel := by omega
      obtain ⟨ms, hms⟩ := scanAll_terminates re text hmin fuel m.endIndex (by omega) hfuel
      exact ⟨m :: ms, by simp [hms]⟩

theorem execLoop_eq_scanAll {σ : Type} (re : Regex) (text : Str)
    (body : σ → RegExpMatch → Option σ) :
    ∀ (fuel lastIndex : Nat) (state : σ),
      execLoop re text body fuel lastIndex state
        = (scanAll re text fuel lastIndex).bind (fun ms => ms.foldlM body state)
  | 0, _, _ => rfl
  | fuel + 1, lastIndex, state => by
    rw [execLoop, scanAll]
    cases hm : regexExec re text lastIndex with
    | none => rfl
    | some m =>
      simp only []
      cases hb : body state m with
      | none =>
        cases hs : scanAll re text fuel m.endIndex with
        | none => rfl
        | some ms => simp [hb]
      | some st =>
        rw [Option.some_bind, execLoop_eq_scanAll re text body fuel m.endIndex st]
        cases hs : scanAll re text fuel m.endIndex with
        | none => rfl
        | some ms => simp [hb]

/-- The matches of the whole scan of a text, with the fuel the tracker gives
its loops. -/
theorem scanAll_total (re : Regex) (text : Str) (hmin : 0 < re.minLength) :
    ∃ ms, scanAll re text (text.length + 1) 0 = some ms :=
  scanAll_terminates re text hmin (text.length + 1) 0 (by omega) (by omega)

/-! ### Tables -/

theorem JsMap.get_set {β : Type} (t : JsMap β) (k : Str) (v : β) (n : Str) :
    (t.set k v).get n = if k = n then some v else t.get n := by
  induction t with
  | nil => simp [JsMap.set, JsMap.get]
  | cons e rest ih =>
    obtain ⟨k0, v0⟩ := e
    by_cases h0 : k0 = k
    · subst h0
      by_cases h1 : k0 = n
      · simp [JsMap.set, JsMap.get, h1]
      · simp [JsMap.set, JsMap.get, h1]
    · by_cases h1 : k0 = n
      · subst h1
        simp [JsMap.set, JsMap.get, h0, Ne.symm h0]
      · simp [JsMap.set, JsMap.get, h0, h1, ih]

theorem JsMap.keys_set {β : Type} (t : JsMap β) (k : Str) (v : β) :
    (t.set k v).keys = if k ∈ t.keys then t.keys else t.keys ++ [k] := by
  induction t with
  | nil => rfl
  | cons e rest ih =>
    obtain ⟨k0, v0⟩ := e
    by_cases h0 : k0 = k
    · subst h0
      simp only [JsMap.set, if_true, JsMap.keys, List.map_cons]
      rw [if_pos (List.mem_cons_self _ _)]
    · have ih2 : List.map Prod.fst (JsMap.set rest k v)
          = if k ∈ List.map Prod.fst rest then List.map Prod.fst rest
            else List.map Prod.fst rest ++ [k] := ih
      simp only [JsMap.set, JsMap.keys, if_neg h0, List.map_cons, List.mem_cons, ih2]
      by_cases h1 : k ∈ List.map Prod.fst rest
      · rw [if_pos h1, if_pos (Or.inr h1)]
      · have h2 : ¬ (k = k0 ∨ k ∈ List.map Prod.fst rest) := by
          rintro (h | h)
          · exact h0 h.symm
          · exact h1 h
        rw [if_neg h1, if_neg h2]
        rfl

theorem JsMap.nodup_set {β : Type} (t : JsMap β) (k : Str) (v : β) (h : t.keys.Nodup) :
    (t.set k v).keys.Nodup := by
  rw [JsMap.keys_set]
  by_cases hk : k ∈ t.keys
  · rw [if_pos hk]; exact h
  · rw [if_neg hk]
    exact List.nodup_append.mpr ⟨h, List.nodup_singleton k, by
      intro a ha hb
      rw [List.mem_singleton] at hb
      subst hb
      exact hk ha⟩

theorem JsMap.mem_keys_of_get {β : Type} (t : JsMap β) (n : Str) (v : β)
    (h : t.get n = some v) : n ∈ t.keys := by
  induction t with
  | nil => simp [JsMap.get] at h
  | cons e rest ih =>
    obtain ⟨k0, v0⟩ := e
    by_cases h0 : k0 = n
    · subst h0
      exact List.mem_cons_self _ _
    · simp only [JsMap.get, if_neg h0] at h
      have := ih h
      simp only [JsMap.keys, List.map_cons, List.mem_cons]
      exact Or.inr this

theorem JsMap.split_of_get {β : Type} (t : JsMap β) (n : Str) (v : β)
    (h : t.get n = some v) : ∃ l1 l2 : JsMap β, t = l1 ++ (n, v) :: l2 := by
  induction t with
  | nil => simp [JsMap.get] at h
  | cons e rest ih =>
    obtain ⟨k0, v0⟩ := e
    by_cases h0 : k0 = n
    · simp only [JsMap.get, if_pos h0] at h
      injection h with h
      subst h0; subst h
      exact ⟨[], rest, rfl⟩
    · simp only [JsMap.get, if_neg h0] at h
      obtain ⟨l1, l2, hl⟩ := ih h
      exact ⟨(k0, v0) :: l1, l2, by rw [hl]; rfl⟩

theorem foldl_set_get {β : Type} (name : RegExpMatch → Str) (value : RegExpMatch → β)
    (ms : List RegExpMatch) (n : Str) : ∀ (t : JsMap β),
    (ms.foldl (fun t m => t.set (name m) (value m)) t).get n
      = match lastMatchFor name ms n with
        | some m => some (value m)
        | none => t.get n := by
  induction ms with
  | nil => intro t; rfl
  | cons m ms ih =>
    intro t
    rw [List.foldl_cons, ih]
    unfold lastMatchFor
    by_cases hm : name m = n
    · have hf : (m :: ms).filter (fun m => decide (name m = n))
          = m :: ms.filter (fun m => decide (name m = n)) := by
        simp [List.filter_cons, hm]
      rw [hf]
      cases hl : (ms.filter (fun m => decide (name m = n))) with
      | nil => simp [JsMap.get_set, hm]
      | cons x xs =>
        rw [List.getLast?_cons_cons, List.getLast?_eq_getLast (x :: xs) (by simp)]
    · have hf : (m :: ms).filter (fun m => decide (name m = n))
          = ms.filter (fun m => decide (name m = n)) := by
        simp [List.filter_cons, hm]
      rw [hf]
      cases hl : (ms.filter (fun m => decide (name m = n))).getLast? with
      | none => simp [JsMap.get_set, hm]
      | some x => rfl

theorem foldl_set_nodup {β : Type} (name : RegExpMatch → Str) (value : RegExpMatch → β)
    (ms : List RegExpMatch) : ∀ (t : JsMap β), t.keys.Nodup →
    (ms.foldl (fun t m => t.set (name m) (value m)) t).keys.Nodup := by
  induction ms with
  | nil => intro t h; exact h
  | cons m ms ih =>
    intro t h
    rw [List.foldl_cons]
    exact ih _ (JsMap.nodup_set t _ _ h)

theorem foldlM_eq_foldl {σ : Type} (body : σ → RegExpMatch → Option σ)
    (step : σ → RegExpMatch → σ) (h : ∀ s m, body s m = some (step s m))
    (ms : List RegExpMatch) : ∀ (state : σ),
    ms.foldlM body state = some (ms.foldl step state) := by
  induction ms with
  | nil => intro state; rfl
  | cons m ms ih =>
    intro state
    rw [List.foldlM_cons, h, List.foldl_cons]
    exact ih _

theorem group_length_le_aux (i : Nat) : ∀ (tags : List Nat) (segs : List Str),
    (((tags.zip segs).filter (fun x => decide (x.1 = i))).map Prod.snd).flatten.length
      ≤ segs.flatten.length
  | [], segs => by simp
  | _ :: _, [] => by simp
  | t :: tags, seg :: segs => by
    have ih := group_length_le_aux i tags segs
    by_cases ht : t = i
    · simp only [List.zip_cons_cons, List.filter_cons, ht, decide_True, if_true, List.map_cons,
        List.flatten_cons, List.length_append]
      omega
    · simp only [List.zip_cons_cons, List.filter_cons, ht, decide_False, List.flatten_cons,
        List.length_append]
      simp only [Bool.false_eq_true, if_false]
      omega

theorem group_length_le (re : Regex) (m : RegExpMatch) (i : Nat) :
    (m.group re i).length ≤ m.matched.length :=
  group_length_le_aux i (re.map Prod.fst) m.segments

theorem extractParameters_total (functionDeclaration : Str) :
    ∃ parameters, extractParameters functionDeclaration = some parameters := by
  unfold extractParameters extractParametersFuel
  cases hm : regexExec signatureRegex functionDeclaration 0 with
  | none => exact ⟨[], rfl⟩
  | some m =>
    simp only []
    obtain ⟨-, h2, -, -⟩ := regexExec_sound _ _ _ _ hm
    have h3 := group_length_le signatureRegex m 1
    have h4 : (m.group signatureRegex 1).length < functionDeclaration.length + 1 + 0 := by
      unfold RegExpMatch.endIndex at h2
      omega
    obtain ⟨ms, hms⟩ := scanAll_terminates paramsRegex (m.group signatureRegex 1) (by decide)
      (functionDeclaration.length + 1) 0 h4 (by omega)
    rw [execLoop_eq_scanAll, hms, Option.some_bind,
      foldlM_eq_foldl paramsBody
        (fun ps m =>
          ps ++ [({ name := m.group paramsRegex 1, type := m.group paramsRegex 2 } : Parameter)])
        (fun _ _ => rfl)]
    exact ⟨_, rfl⟩

theorem extractParameters_eq (functionDeclaration : Str) :
    extractParameters functionDeclaration = some (parametersOf functionDeclaration) := by
  obtain ⟨ps, h⟩ := extractParameters_total functionDeclaration
  unfold parametersOf
  rw [h]
  rfl

theorem functionRecord_eq (m : RegExpMatch) : functionRecord m = some (functionEntry m) := by
  unfold functionRecord functionEntry
  rw [extractParameters_eq]
  rfl

theorem functionBody_eq (t : JsMap FunctionDeclaration) (m : RegExpMatch) :
    functionBody t m = some (t.set (functionName m) (functionEntry m)) := by
  simp only [functionBody, extractParameters_eq, Option.map_some']
  rfl

theorem variableMatches_total (text : Str) : ∃ ms, variableMatches text = some ms :=
  scanAll_total variableRegex text (by decide)

theorem functionMatches_total (text : Str) : ∃ ms, functionMatches text = some ms :=
  scanAll_total functionRegex text (by decide)

theorem trackVariableDeclarations_eq (text : Str) (t : JsMap VariableDeclaration)
    (ms : List RegExpMatch) (h : variableMatches text = some ms) :
    trackVariableDeclarations text t
      = some (ms.foldl (fun t m => t.set (variableName m) (variableRecord m)) t) := by
  unfold trackVariableDeclarations trackVariableDeclarationsFuel
  unfold variableMatches at h
  rw [execLoop_eq_scanAll, h, Option.some_bind]
  exact foldlM_eq_foldl variableBody _ (fun _ _ => rfl) ms t

theorem trackFunctionDeclarations_eq (text : Str) (t : JsMap FunctionDeclaration)
    (ms : List RegExpMatch) (h : functionMatches text = some ms) :
    trackFunctionDeclarations text t
      = some (ms.foldl (fun t m => t.set (functionName m) (functionEntry m)) t) := by
  unfold trackFunctionDeclarations trackFunctionDeclarationsFuel
  unfold functionMatches at h
  rw [execLoop_eq_scanAll, h, Option.some_bind]
  exact foldlM_eq_foldl functionBody _ functionBody_eq ms t

/-! ### Completion -/

theorem foldl_push {α β : Type} (f : α → β) (l : List α) : ∀ (acc : List β),
    l.foldl (fun acc x => acc ++ [f x]) acc = acc ++ l.map f := by
  induction l with
  | nil => intro acc; simp
  | cons x l ih => intro acc; rw [List.foldl_cons, ih]; simp

theorem foldl_functionItems (fns : JsMap FunctionDeclaration) : ∀ (acc : List CompletionItem),
    fns.foldl
      (fun acc entry =>
        entry.2.parameters.foldl
          (fun acc param =>
            acc ++ [{ label := param.name, kind := CompletionItemKind.Variable,
                      detail := none }])
          (acc ++ [{ label := entry.1, kind := CompletionItemKind.Function,
                     detail := some entry.2.declaration }]))
      acc
      = acc ++ (fns.map functionItems).flatten := by
  induction fns with
  | nil => intro acc; simp
  | cons e fns ih =>
    intro acc
    rw [List.foldl_cons, ih]
    have := foldl_push parameterItem e.2.parameters
      (acc ++ [{ label := e.1, kind := CompletionItemKind.Function,
                 detail := some e.2.declaration }])
    unfold parameterItem at this
    rw [this]
    simp [functionItems, parameterItem]

theorem onCompletion_eq (tables : Tables) (pos : TextDocumentPositionParams) :
    onCompletion tables pos
      = keywordLabels.map keywordItem ++ tables.variableDeclarations.map variableItem
        ++ (tables.functionDeclarations.map functionItems).flatten := by
  unfold onCompletion
  simp only []
  rw [foldl_functionItems]
  have := foldl_push variableItem tables.variableDeclarations
  unfold variableItem at this
  rw [this]
  rfl

theorem lastMatchFor_some (name : RegExpMatch → Str) (ms : List RegExpMatch) (n : Str)
    (m : RegExpMatch) (h : lastMatchFor name ms n = some m) : m ∈ ms ∧ name m = n := by
  unfold lastMatchFor at h
  have hm := List.mem_of_getLast?_eq_some h
  rw [List.mem_filter] at hm
  exact ⟨hm.1, by simpa using hm.2⟩

theorem lastMatchFor_of_mem (name : RegExpMatch → Str) (ms : List RegExpMatch) (n : Str)
    (m : RegExpMatch) (hm : m ∈ ms) (hn : name m = n) :
    ∃ m', lastMatchFor name ms n = some m' := by
  unfold lastMatchFor
  cases h : (ms.filter (fun m => decide (name m = n))).getLast? with
  | some m' => exact ⟨m', rfl⟩
  | none =>
    rw [List.getLast?_eq_none_iff] at h
    have : m ∈ ms.filter (fun m => decide (name m = n)) :=
      List.mem_filter.mpr ⟨hm, by simpa using hn⟩
    rw [h] at this
    cases this

theorem filter_keywords (p : CompletionItem → Bool)
    (hp : ∀ item, item.kind = CompletionItemKind.Keyword → p item = false) :
    (keywordLabels.map keywordItem).filter p = [] := by
  rw [List.filter_eq_nil_iff]
  intro item hi
  rw [List.mem_map] at hi
  obtain ⟨l, -, rfl⟩ := hi
  rw [hp _ rfl]
  exact Bool.false_ne_true

theorem filter_functionItems_detailed (n : Str) (fns : JsMap FunctionDeclaration) :
    ((fns.map functionItems).flatten).filter (isDetailedVariable n) = [] := by
  rw [List.filter_eq_nil_iff]
  intro item hi
  rw [List.mem_flatten] at hi
  obtain ⟨l, hl, hil⟩ := hi
  rw [List.mem_map] at hl
  obtain ⟨e, -, rfl⟩ := hl
  simp only [functionItems, List.mem_cons, List.mem_map] at hil
  rcases hil with h | ⟨p, -, h⟩
  · subst h; simp [isDetailedVariable]
  · subst h; simp [isDetailedVariable, parameterItem]

theorem filter_variableItems (n : Str) : ∀ (vars : JsMap VariableDeclaration)
    (record : VariableDeclaration), vars.keys.Nodup → vars.get n = some record →
    (vars.map variableItem).filter (isDetailedVariable n) = [variableItem (n, record)] := by
  intro vars
  induction vars with
  | nil => intro record _ h; simp [JsMap.get] at h
  | cons e rest ih =>
    intro record hnd hget
    obtain ⟨k0, v0⟩ := e
    have hnd2 : k0 ∉ JsMap.keys rest ∧ (JsMap.keys rest).Nodup := List.nodup_cons.mp hnd
    by_cases h0 : k0 = n
    · subst h0
      simp only [JsMap.get, if_true] at hget
      injection hget with hget
      subst hget
      have hrest : (rest.map variableItem).filter (isDetailedVariable k0) = [] := by
        rw [List.filter_eq_nil_iff]
        intro item hi
        rw [List.mem_map] at hi
        obtain ⟨e, he, rfl⟩ := hi
        have hne : e.1 ≠ k0 := by
          intro heq
          apply hnd2.1
          rw [← heq]
          exact List.mem_map_of_mem Prod.fst he
        simp [isDetailedVariable, variableItem, hne]
      rw [List.map_cons, List.filter_cons, hrest]
      simp [isDetailedVariable, variableItem]
    · simp only [JsMap.get, if_neg h0] at hget
      rw [List.map_cons, List.filter_cons, ih record hnd2.2 hget]
      simp [isDetailedVariable, variableItem, h0]

theorem filter_onCompletion_detailed (tables : Tables) (pos : TextDocumentPositionParams)
    (n : Str) (record : VariableDeclaration) (hnd : tables.variableDeclarations.keys.Nodup)
    (hget : tables.variableDeclarations.get n = some record) :
    (onCompletion tables pos).filter (isDetailedVariable n)
      = [{ label := n, kind := CompletionItemKind.Variable,
           detail := some record.declaration }] := by
  rw [onCompletion_eq, List.filter_append, List.filter_append,
    filter_keywords _ (fun item h => by simp [isDetailedVariable, h]),
    filter_functionItems_detailed, filter_variableItems n _ record hnd hget]
  rfl

/-! ### Completion and tracking claims -/

/-- C7: for every state of the tables the completion handler returns (it is a
total function) exactly the 17 keyword items, in the order of the
specification and without detail, then one Variable item per variable-table
entry in iteration order with the name as label and the stored raw text as
detail, then per function-table entry in iteration order one Function item
with the name as label and the stored raw text as detail, immediately followed
by one detail-less Variable item per parameter in parameter order; and the
result does not depend on the position or the document of the request. -/
theorem onCompletion_items (tables : Tables) (pos pos' : TextDocumentPositionParams) :
    onCompletion tables pos
      = keywordLabels.map
          (fun l => { label := l.toList, kind := CompletionItemKind.Keyword, detail := none })
        ++ tables.variableDeclarations.map
          (fun e => { label := e.1, kind := CompletionItemKind.Variable,
                      detail := some e.2.declaration })
        ++ (tables.functionDeclarations.map
          (fun e =>
            { label := e.1, kind := CompletionItemKind.Function,
              detail := some e.2.declaration }
            :: e.2.parameters.map
              (fun p => { label := p.name, kind := CompletionItemKind.Variable,
                          detail := none }))).flatten
    ∧ keywordLabels.length = 17
    ∧ onCompletion tables pos = onCompletion tables pos' := by
  refine ⟨?_, rfl, ?_⟩
  · rw [onCompletion_eq]; rfl
  · rw [onCompletion_eq, onCompletion_eq]

theorem onDidChangeContent_eq (text : Str) (tables : Tables) (vms fms : List RegExpMatch)
    (hv : variableMatches text = some vms) (hf : functionMatches text = some fms) :
    onDidChangeContent text tables
      = some
          { variableDeclarations :=
              vms.foldl (fun t m => t.set (variableName m) (variableRecord m))
                tables.variableDeclarations
            functionDeclarations :=
              fms.foldl (fun t m => t.set (functionName m) (functionEntry m))
                tables.functionDeclarations } := by
  unfold onDidChangeContent
  rw [trackVariableDeclarations_eq text _ vms hv, trackFunctionDeclarations_eq text _ fms hf]
  rfl

/-- C9: last write wins. For every prior table state (a map has no key twice)
and every text, tracking ends, and for a name `n` the scan matched, the record
stored under `n` afterwards is the one built from the last match for `n` in the
text: its raw text, declared type and initializer for a variable, its raw
text, parameters and return type for a function, whatever `n` had before. The
one Variable item labelled `n` that carries a detail in the completion result
has the raw text of that last declaration as its detail. -/
theorem track_last_write_wins (tables : Tables) (text n : Str)
    (pos : TextDocumentPositionParams) (hv : tables.variableDeclarations.keys.Nodup) :
    ∃ (vms fms : List RegExpMatch) (tables' : Tables),
      variableMatches text = some vms ∧ functionMatches text = some fms ∧
      onDidChangeContent text tables = some tables' ∧
      (∀ m, lastMatchFor variableName vms n = some m →
        tables'.variableDeclarations.get n
          = some { declaration := m.matched, type := m.group variableRegex 2,
                   value := m.group variableRegex 3 } ∧
        (onCompletion tables' pos).filter (isDetailedVariable n)
          = [{ label := n, kind := CompletionItemKind.Variable,
               detail := some m.matched }]) ∧
      (∀ m, lastMatchFor functionName fms n = some m →
        ∃ parameters, extractParameters m.matched = some parameters ∧
          tables'.functionDeclarations.get n
            = some { declaration := m.matched, parameters := parameters,
                     returnType := m.group functionRegex 3 }) := by
  obtain ⟨vms, hvms⟩ := variableMatches_total text
  obtain ⟨fms, hfms⟩ := functionMatches_total text
  refine ⟨vms, fms, _, hvms, hfms, onDidChangeContent_eq text tables vms fms hvms hfms, ?_, ?_⟩
  · intro m hm
    have hget := foldl_set_get variableName variableRecord vms n tables.variableDeclarations
    rw [hm] at hget
    have hnd := foldl_set_nodup variableName variableRecord vms tables.variableDeclarations hv
    exact ⟨hget, filter_onCompletion_detailed _ pos n _ hnd hget⟩
  · intro m hm
    have hget := foldl_set_get functionName functionEntry fms n tables.functionDeclarations
    rw [hm] at hget
    exact ⟨parametersOf m.matched, extractParameters_eq _, hget⟩

/-- C9 at a text that declares `x` twice, from empty tables: the table and the
completion detail hold the later declaration. -/
theorem track_last_write_wins_witness :
    onDidChangeContent redeclaredText ⟨[], []⟩
      = some ⟨[("x".toList, ⟨"let x : number = 2;".toList, "number".toList, "2".toList⟩)], []⟩ ∧
    ∃ (vms fms : List RegExpMatch) (tables' : Tables),
      variableMatches redeclaredText = some vms ∧ functionMatches redeclaredText = some fms ∧
      onDidChangeContent redeclaredText ⟨[], []⟩ = some tables' ∧
      (∀ m, lastMatchFor variableName vms "x".toList = some m →
        tables'.variableDeclarations.get "x".toList
          = some { declaration := m.matched, type := m.group variableRegex 2,
                   value := m.group variableRegex 3 } ∧
        (onCompletion tables' ⟨[], 0, 0⟩).filter (isDetailedVariable "x".toList)
          = [{ label := "x".toList, kind := CompletionItemKind.Variable,
               detail := some m.matched }]) ∧
      (∀ m, lastMatchFor functionName fms "x".toList = some m →
        ∃ parameters, extractParameters m.matched = some parameters ∧
          tables'.functionDeclarations.get "x".toList
            = some { declaration := m.matched, parameters := parameters,
                     returnType := m.group functionRegex 3 }) :=
  ⟨by decide, track_last_write_wins ⟨[], []⟩ redeclaredText "x".toList ⟨[], 0, 0⟩ List.nodup_nil⟩

/-- C8, refuted as stated, at `overlappingText` from empty tables. The text
contains a substring of the variable-declaration shape with name `a` and one
with name `x`; after tracking, the completion result has two Variable items
labelled `a` (the variable and the parameter of `f`) and none labelled `x`
(its declaration lies inside the match for `a`, so the scan never reaches it). -/
theorem completion_variable_count_counterexample :
    containsVariableDeclaration overlappingText "a".toList ∧
    containsVariableDeclaration overlappingText "x".toList ∧
    (onDidChangeContent overlappingText ⟨[], []⟩).map
      (fun t => ((onCompletion t ⟨[], 0, 0⟩).filter (isVariableLabelled "a".toList)).length)
      = some 2 ∧
    (onDidChangeContent overlappingText ⟨[], []⟩).map
      (fun t => ((onCompletion t ⟨[], 0, 0⟩).filter (isVariableLabelled "x".toList)).length)
      = some 0 := by
  refine ⟨⟨[], " fn f(a: t): t \x7b\x7d".toList, overlappingOuter, ?_, ?_, ?_⟩,
    ⟨"let a : b = ".toList, " fn f(a: t): t \x7b\x7d".toList, overlappingInner, ?_, ?_, ?_⟩,
    ?_, ?_⟩ <;> decide

/-- C8, amended: for every prior table state (a map has no key twice) and
every text whose variable scan (the leftmost matches of the pattern, one after
the end of the other, from the start of the text) matches a declaration with
name `n`, tracking ends and the completion result afterwards contains exactly
one Variable-category item with label `n` that carries a detail: the item of
the variable table, its detail being the raw text of the last match for `n`.
(Detail-less Variable items labelled `n` may stand besides it, one per function
parameter named `n`.) -/
theorem completion_one_detailed_variable (tables : Tables) (text n : Str)
    (pos : TextDocumentPositionParams) (vms : List RegExpMatch) (m : RegExpMatch)
    (hv : tables.variableDeclarations.keys.Nodup)
    (hs : variableMatches text = some vms) (hm : m ∈ vms) (hn : variableName m = n) :
    ∃ (tables' : Tables) (m' : RegExpMatch),
      onDidChangeContent text tables = some tables' ∧
      lastMatchFor variableName vms n = some m' ∧
      (onCompletion tables' pos).filter (isDetailedVariable n)
        = [{ label := n, kind := CompletionItemKind.Variable, detail := some m'.matched }] ∧
      ((onCompletion tables' pos).filter (isDetailedVariable n)).length = 1 := by
  obtain ⟨fms, hfms⟩ := functionMatches_total text
  obtain ⟨m', hm'⟩ := lastMatchFor_of_mem variableName vms n m hm hn
  have hget := foldl_set_get variableName variableRecord vms n tables.variableDeclarations
  rw [hm'] at hget
  have hnd := foldl_set_nodup variableName variableRecord vms tables.variableDeclarations hv
  have hfilter := filter_onCompletion_detailed
    { variableDeclarations :=
        vms.foldl (fun t m => t.set (variableName m) (variableRecord m))
          tables.variableDeclarations
      functionDeclarations :=
        fms.foldl (fun t m => t.set (functionName m) (functionEntry m))
          tables.functionDeclarations } pos n _ hnd hget
  exact ⟨_, m', onDidChangeContent_eq text tables vms fms hs hfms, hm', hfilter,
    by rw [hfilter]; rfl⟩

/-- C8, amended, at `overlappingText` from empty tables and the name `a`. -/
theorem completion_one_detailed_variable_witness :
    variableMatches overlappingText = some [⟨0, overlappingOuter⟩] ∧
    ∃ (tables' : Tables) (m' : RegExpMatch),
      onDidChangeContent overlappingText ⟨[], []⟩ = some tables' ∧
      lastMatchFor variableName [⟨0, overlappingOuter⟩] "a".toList = some m' ∧
      (onCompletion tables' ⟨[], 0, 0⟩).filter (isDetailedVariable "a".toList)
        = [{ label := "a".toList, kind := CompletionItemKind.Variable,
             detail := some m'.matched }] ∧
      ((onCompletion tables' ⟨[], 0, 0⟩).filter (isDetailedVariable "a".toList)).length = 1 :=
  ⟨by decide,
    completion_one_detailed_variable ⟨[], []⟩ overlappingText "a".toList ⟨[], 0, 0⟩
      [⟨0, overlappingOuter⟩] ⟨0, overlappingOuter⟩ List.nodup_nil (by decide)
      (List.mem_singleton.mpr rfl) (by decide)⟩

theorem scanAll_mono (re : Regex) (text : Str) : ∀ (fuel lastIndex : Nat)
    (ms : List RegExpMatch), scanAll re text fuel lastIndex = some ms →
    ∀ k, scanAll re text (fuel + k) lastIndex = some ms
  | 0, _, _, h, _ => by simp [scanAll] at h
  | fuel + 1, lastIndex, ms, h, k => by
    have e : fuel + 1 + k = (fuel + k) + 1 := by omega
    rw [e, scanAll]
    rw [scanAll] at h
    cases hm : regexExec re text lastIndex with
    | none => rw [hm] at h; exact h
    | some m =>
      rw [hm] at h
      simp only [] at h ⊢
      cases hs : scanAll re text fuel m.endIndex with
      | none => rw [hs] at h; cases h
      | some ms' =>
        rw [hs] at h
        rw [scanAll_mono re text fuel m.endIndex ms' hs k]
        exact h

theorem extractParametersFuel_signatureAB (k : Nat) (rest : Str) :
    extractParametersFuel (k + 3) (signatureAB ++ rest)
      = some [⟨"a".toList, "number".toList⟩, ⟨"b".toList, "string".toList⟩] := by
  rfl

theorem parametersOf_declarationAB (body : Str) :
    parametersOf (declarationAB body)
      = [⟨"a".toList, "number".toList⟩, ⟨"b".toList, "string".toList⟩] := by
  have hsplit : declarationAB body
      = signatureAB ++ (": number \x7b".toList ++ body ++ ['}']) := by
    simp [declarationAB, signatureAB]
  have hlen : (declarationAB body).length + 1 = (body.length + 35) + 3 := by
    simp [declarationAB]
  unfold parametersOf extractParameters
  rw [hlen, hsplit, extractParametersFuel_signatureAB]
  rfl

theorem functionItems_split (fns l1 l2 : JsMap FunctionDeclaration)
    (entry : Str × FunctionDeclaration) (h : fns = l1 ++ entry :: l2) :
    (fns.map functionItems).flatten
      = (l1.map functionItems).flatten ++ functionItems entry
        ++ (l2.map functionItems).flatten := by
  subst h
  simp

/-- C10, refuted as stated, at `nestedText` from empty tables: the text
contains the declaration `fn f(a: number, b: string): number { }`, whose body
has no opening brace, and after tracking the completion result has no Function
item labelled `f`: the match for `g` runs to the first closing brace and takes
the declaration of `f` with it. -/
theorem completion_function_counterexample :
    nestedText = "fn g(): number \x7b ".toList ++ declarationAB [' '] ∧
    '{' ∉ [' '] ∧
    (onDidChangeContent nestedText ⟨[], []⟩).map
      (fun t => ((onCompletion t ⟨[], 0, 0⟩).filter (isFunctionLabelled "f".toList)).length)
      = some 0 := by
  refine ⟨?_, ?_, ?_⟩ <;> decide

/-- C10, amended: for every prior table state and every text in which the last
match of the function scan for the name `f` (the scan takes the leftmost
matches of the pattern, one after the end of the other, each ending at the
first closing brace after its opening brace) has the raw text
`fn f(a: number, b: string): number {body}`, tracking ends and the completion
result afterwards contains a Function item labelled `f`, with that raw text as
detail, immediately followed by a Variable item labelled `a` and then a
Variable item labelled `b`. -/
theorem completion_function_then_parameters (tables : Tables) (text body : Str)
    (pos : TextDocumentPositionParams) (fms : List RegExpMatch) (m : RegExpMatch)
    (hs : functionMatches text = some fms)
    (hl : lastMatchFor functionName fms "f".toList = some m)
    (hm : m.matched = declarationAB body) :
    ∃ (tables' : Tables) (before after : List CompletionItem),
      onDidChangeContent text tables = some tables' ∧
      onCompletion tables' pos
        = before
          ++ [{ label := "f".toList, kind := CompletionItemKind.Function,
                detail := some (declarationAB body) },
              { label := "a".toList, kind := CompletionItemKind.Variable, detail := none },
              { label := "b".toList, kind := CompletionItemKind.Variable, detail := none }]
          ++ after := by
  obtain ⟨vms, hvms⟩ := variableMatches_total text
  have hget := foldl_set_get functionName functionEntry fms "f".toList
    tables.functionDeclarations
  rw [hl] at hget
  obtain ⟨l1, l2, hsplit⟩ := JsMap.split_of_get _ _ _ hget
  refine ⟨_,
    keywordLabels.map keywordItem
      ++ (vms.foldl (fun t m => t.set (variableName m) (variableRecord m))
            tables.variableDeclarations).map variableItem
      ++ (l1.map functionItems).flatten,
    (l2.map functionItems).flatten,
    onDidChangeContent_eq text tables vms fms hvms hs, ?_⟩
  rw [onCompletion_eq, functionItems_split _ l1 l2 _ hsplit]
  have hitems : functionItems ("f".toList, functionEntry m)
      = [{ label := "f".toList, kind := CompletionItemKind.Function,
           detail := some (declarationAB body) },
         { label := "a".toList, kind := CompletionItemKind.Variable, detail := none },
         { label := "b".toList, kind := CompletionItemKind.Variable, detail := none }] := by
    simp only [functionItems, functionEntry, hm, parametersOf_declarationAB]
    rfl
  rw [hitems, ← List.append_assoc, ← List.append_assoc]

/-- C10, amended, at `singleText` from empty tables. -/
theorem completion_function_then_parameters_witness :
    functionMatches singleText = some [⟨0, singleSegments⟩] ∧
    ∃ (tables' : Tables) (before after : List CompletionItem),
      onDidChangeContent singleText ⟨[], []⟩ = some tables' ∧
      onCompletion tables' ⟨[], 0, 0⟩
        = before
          ++ [{ label := "f".toList, kind := CompletionItemKind.Function,
                detail := some (declarationAB " return a; ".toList) },
              { label := "a".toList, kind := CompletionItemKind.Variable, detail := none },
              { label := "b".toList, kind := CompletionItemKind.Variable, detail := none }]
          ++ after :=
  ⟨by decide,
    completion_function_then_parameters ⟨[], []⟩ singleText " return a; ".toList ⟨[], 0, 0⟩
      [⟨0, singleSegments⟩] ⟨0, singleSegments⟩ (by decide) (by decide) (by decide)⟩

/-! ### Frame, scenario and idempotence of tracking -/

/-- C12: the scenario. From empty tables, tracking the scenario text ends and
the completion result afterwards is, for every request, exactly 21 items: the
17 keyword items `break, else if, else, false, for, fn, if, use, null, true,
let, while, case, default, switch, number, string` in this order and without
detail, then the Variable item `x` with detail `let x : number = 5;`, the
Function item `add` whose detail is the whole function text from `fn add`
through the closing brace, and the detail-less Variable items `a` and `b`. -/
theorem scenario_completion (pos : TextDocumentPositionParams) :
    (onDidChangeContent scenarioText ⟨[], []⟩).map (fun t => onCompletion t pos)
      = some
          [{ label := "break".toList, kind := CompletionItemKind.Keyword, detail := none },
           { label := "else if".toList, kind := CompletionItemKind.Keyword, detail := none },
           { label := "else".toList, kind := CompletionItemKind.Keyword, detail := none },
           { label := "false".toList, kind := CompletionItemKind.Keyword, detail := none },
           { label := "for".toList, kind := CompletionItemKind.Keyword, detail := none },
           { label := "fn".toList, kind := CompletionItemKind.Keyword, detail := none },
           { label := "if".toList, kind := CompletionItemKind.Keyword, detail := none },
           { label := "use".toList, kind := CompletionItemKind.Keyword, detail := none },
           { label := "null".toList, kind := CompletionItemKind.Keyword, detail := none },
           { label := "true".toList, kind := CompletionItemKind.Keyword, detail := none },
           { label := "let".toList, kind := CompletionItemKind.Keyword, detail := none },
           { label := "while".toList, kind := CompletionItemKind.Keyword, detail := none },
           { label := "case".toList, kind := CompletionItemKind.Keyword, detail := none },
           { label := "default".toList, kind := CompletionItemKind.Keyword, detail := none },
           { label := "switch".toList, kind := CompletionItemKind.Keyword, detail := none },
           { label := "number".toList, kind := CompletionItemKind.Keyword, detail := none },
           { label := "string".toList, kind := CompletionItemKind.Keyword, detail := none },
           { label := "x".toList, kind := CompletionItemKind.Variable,
             detail := some "let x : number = 5;".toList },
           { label := "add".toList, kind := CompletionItemKind.Function,
             detail := some
               "fn add(a: number, b: number): number \x7b\nreturn a+b;\n\x7d".toList },
           { label := "a".toList, kind := CompletionItemKind.Variable, detail := none },
           { label := "b".toList, kind := CompletionItemKind.Variable, detail := none }] ∧
    ((onDidChangeContent scenarioText ⟨[], []⟩).map
      (fun t => (onCompletion t pos).length)) = some 21 := by
  have h : onDidChangeContent scenarioText ⟨[], []⟩
      = some ⟨[("x".toList, ⟨"let x : number = 5;".toList, "number".toList, "5".toList⟩)],
          [("add".toList, ⟨scenarioFunction,
            [⟨"a".toList, "number".toList⟩, ⟨"b".toList, "number".toList⟩],
            "number".toList⟩)]⟩ := by
    decide
  rw [h, Option.map_some', Option.map_some', onCompletion_eq]
  exact ⟨rfl, rfl⟩

theorem foldl_set_keys {β : Type} (name : RegExpMatch → Str) (value : RegExpMatch → β)
    (ms : List RegExpMatch) : ∀ (t : JsMap β),
    ∃ extra, (ms.foldl (fun t m => t.set (name m) (value m)) t).keys = t.keys ++ extra := by
  induction ms with
  | nil => intro t; exact ⟨[], by simp⟩
  | cons m ms ih =>
    intro t
    obtain ⟨extra, he⟩ := ih (t.set (name m) (value m))
    rw [List.foldl_cons, he, JsMap.keys_set]
    by_cases hk : name m ∈ t.keys
    · rw [if_pos hk]; exact ⟨extra, rfl⟩
    · rw [if_neg hk]; exact ⟨name m :: extra, by simp⟩

theorem lastMatchFor_none (name : RegExpMatch → Str) (ms : List RegExpMatch) (n : Str)
    (h : ∀ m ∈ ms, name m ≠ n) : lastMatchFor name ms n = none := by
  unfold lastMatchFor
  rw [List.getLast?_eq_none_iff, List.filter_eq_nil_iff]
  intro m hm
  simpa using h m hm

theorem foldl_set_get_of_not_matched {β : Type} (name : RegExpMatch → Str)
    (value : RegExpMatch → β) (ms : List RegExpMatch) (n : Str) (t : JsMap β)
    (h : ∀ m ∈ ms, name m ≠ n) :
    (ms.foldl (fun t m => t.set (name m) (value m)) t).get n = t.get n := by
  rw [foldl_set_get, lastMatchFor_none name ms n h]

theorem onDidChangeContent_nil (tables : Tables) : onDidChangeContent [] tables = some tables := by
  have hv : variableMatches [] = some [] := by decide
  have hf : functionMatches [] = some [] := by decide
  rw [onDidChangeContent_eq [] tables [] [] hv hf]
  rfl

/-- C11: tracking only upserts. For every table state and every text the
content-change handler ends, and afterwards the keys of the old variable table
(respectively function table) are still keys, in their old order and before
any new key; every name that no match of the scan declares has the entry it
had before; and tracking the empty text leaves both tables as they were. -/
theorem track_only_upserts (tables : Tables) (text : Str) :
    ∃ (vms fms : List RegExpMatch) (tables' : Tables),
      variableMatches text = some vms ∧ functionMatches text = some fms ∧
      onDidChangeContent text tables = some tables' ∧
      (∃ extra, tables'.variableDeclarations.keys
        = tables.variableDeclarations.keys ++ extra) ∧
      (∃ extra, tables'.functionDeclarations.keys
        = tables.functionDeclarations.keys ++ extra) ∧
      (∀ n, n ∈ tables.variableDeclarations.keys → n ∈ tables'.variableDeclarations.keys) ∧
      (∀ n, n ∈ tables.functionDeclarations.keys → n ∈ tables'.functionDeclarations.keys) ∧
      (∀ n, (∀ m ∈ vms, variableName m ≠ n) →
        tables'.variableDeclarations.get n = tables.variableDeclarations.get n) ∧
      (∀ n, (∀ m ∈ fms, functionName m ≠ n) →
        tables'.functionDeclarations.get n = tables.functionDeclarations.get n) ∧
      onDidChangeContent [] tables = some tables := by
  obtain ⟨vms, hvms⟩ := variableMatches_total text
  obtain ⟨fms, hfms⟩ := functionMatches_total text
  obtain ⟨ev, hev⟩ := foldl_set_keys variableName variableRecord vms tables.variableDeclarations
  obtain ⟨ef, hef⟩ := foldl_set_keys functionName functionEntry fms tables.functionDeclarations
  refine ⟨vms, fms, _, hvms, hfms, onDidChangeContent_eq text tables vms fms hvms hfms,
    ⟨ev, hev⟩, ⟨ef, hef⟩, ?_, ?_, ?_, ?_, onDidChangeContent_nil tables⟩
  · intro n hn
    show n ∈ JsMap.keys _
    rw [hev]
    exact List.mem_append_left _ hn
  · intro n hn
    show n ∈ JsMap.keys _
    rw [hef]
    exact List.mem_append_left _ hn
  · intro n hn
    exact foldl_set_get_of_not_matched variableName variableRecord vms n _ hn
  · intro n hn
    exact foldl_set_get_of_not_matched functionName functionEntry fms n _ hn

theorem JsMap.set_set {β : Type} (t : JsMap β) (k : Str) (v v' : β) :
    (t.set k v).set k v' = t.set k v' := by
  induction t with
  | nil => simp [JsMap.set]
  | cons e rest ih =>
    obtain ⟨k0, v0⟩ := e
    by_cases h0 : k0 = k
    · simp [JsMap.set, h0]
    · simp [JsMap.set, h0, ih]

theorem JsMap.set_of_get {β : Type} (t : JsMap β) (k : Str) (v : β) (h : t.get k = some v) :
    t.set k v = t := by
  induction t with
  | nil => simp [JsMap.get] at h
  | cons e rest ih =>
    obtain ⟨k0, v0⟩ := e
    by_cases h0 : k0 = k
    · simp only [JsMap.get, if_pos h0] at h
      injection h with h
      subst h
      simp [JsMap.set, h0]
    · simp only [JsMap.get, if_neg h0] at h
      simp [JsMap.set, h0, ih h]

theorem JsMap.set_comm {β : Type} (t : JsMap β) (k k' : Str) (v v' : β) (hne : k ≠ k')
    (hk : k ∈ t.keys) : (t.set k v).set k' v' = (t.set k' v').set k v := by
  induction t with
  | nil => simp [JsMap.keys] at hk
  | cons e rest ih =>
    obtain ⟨k0, v0⟩ := e
    by_cases h0 : k0 = k
    · subst h0
      simp [JsMap.set, hne]
    · have hk2 : k ∈ JsMap.keys rest := by
        simp only [JsMap.keys, List.map_cons, List.mem_cons] at hk
        rcases hk with hk | hk
        · exact absurd hk.symm h0
        · exact hk
      by_cases h1 : k0 = k'
      · subst h1
        simp [JsMap.set, h0]
      · simp [JsMap.set, h0, h1, ih hk2]

theorem JsMap.mem_keys_set_of_mem {β : Type} (t : JsMap β) (k n : Str) (v : β)
    (h : n ∈ t.keys) : n ∈ (t.set k v).keys := by
  rw [JsMap.keys_set]
  by_cases hk : k ∈ t.keys
  · rw [if_pos hk]; exact h
  · rw [if_neg hk]; exact List.mem_append_left _ h

theorem foldl_set_absorb {β : Type} (name : RegExpMatch → Str) (value : RegExpMatch → β)
    (ms : List RegExpMatch) : ∀ (t : JsMap β) (k : Str) (v : β), k ∈ t.keys →
    (∃ m ∈ ms, name m = k) →
    ms.foldl (fun t m => t.set (name m) (value m)) (t.set k v)
      = ms.foldl (fun t m => t.set (name m) (value m)) t := by
  induction ms with
  | nil => intro t k v _ h; obtain ⟨m, hm, -⟩ := h; cases hm
  | cons m1 rest ih =>
    intro t k v hk h
    rw [List.foldl_cons, List.foldl_cons]
    by_cases h1 : name m1 = k
    · rw [h1, JsMap.set_set]
    · have hlater : ∃ m ∈ rest, name m = k := by
        obtain ⟨m, hm, hn⟩ := h
        rcases List.mem_cons.mp hm with hm | hm
        · subst hm; exact absurd hn h1
        · exact ⟨m, hm, hn⟩
      rw [JsMap.set_comm t k (name m1) v (value m1) (Ne.symm h1) hk]
      exact ih _ k v (JsMap.mem_keys_set_of_mem t (name m1) k (value m1) hk) hlater

theorem lastMatchFor_append_last (name : RegExpMatch → Str) (before rest : List RegExpMatch)
    (m : RegExpMatch) (h : ∀ m' ∈ rest, name m' ≠ name m) :
    lastMatchFor name (before ++ m :: rest) (name m) = some m := by
  unfold lastMatchFor
  have hr : rest.filter (fun m' => decide (name m' = name m)) = [] := by
    rw [List.filter_eq_nil_iff]
    intro m' hm'
    simpa using h m' hm'
  rw [List.filter_append, List.filter_cons, hr]
  simp

theorem foldl_set_idem_aux {β : Type} (name : RegExpMatch → Str) (value : RegExpMatch → β)
    (t : JsMap β) (rest : List RegExpMatch) : ∀ (before : List RegExpMatch),
    rest.foldl (fun t m => t.set (name m) (value m))
        ((before ++ rest).foldl (fun t m => t.set (name m) (value m)) t)
      = (before ++ rest).foldl (fun t m => t.set (name m) (value m)) t := by
  induction rest with
  | nil => intro before; rfl
  | cons m rest ih =>
    intro before
    have ih' := ih (before ++ [m])
    rw [List.append_assoc] at ih'
    simp only [List.singleton_append] at ih'
    rw [List.foldl_cons]
    by_cases hlater : ∃ m' ∈ rest, name m' = name m
    · have hget := foldl_set_get name value (before ++ m :: rest) (name m) t
      have hsome : ∃ w, ((before ++ m :: rest).foldl
          (fun t m => t.set (name m) (value m)) t).get (name m) = some w := by
        obtain ⟨m', hm'⟩ := lastMatchFor_of_mem name (before ++ m :: rest) (name m) m
          (by simp) rfl
        rw [hm'] at hget
        exact ⟨_, hget⟩
      obtain ⟨w, hw⟩ := hsome
      rw [foldl_set_absorb name value rest _ (name m) (value m)
        (JsMap.mem_keys_of_get _ _ _ hw) hlater]
      exact ih'
    · have hnone : ∀ m' ∈ rest, name m' ≠ name m := by
        intro m' hm' he
        exact hlater ⟨m', hm', he⟩
      have hget := foldl_set_get name value (before ++ m :: rest) (name m) t
      rw [lastMatchFor_append_last name before rest m hnone] at hget
      rw [JsMap.set_of_get _ _ _ hget]
      exact ih'

theorem foldl_set_idem {β : Type} (name : RegExpMatch → Str) (value : RegExpMatch → β)
    (t : JsMap β) (ms : List RegExpMatch) :
    ms.foldl (fun t m => t.set (name m) (value m))
        (ms.foldl (fun t m => t.set (name m) (value m)) t)
      = ms.foldl (fun t m => t.set (name m) (value m)) t := by
  have h := foldl_set_idem_aux name value t ms []
  simpa using h

/-- C20: tracking is idempotent. For every table state and every text, the
content-change handler ends, and running it on the same text again, on the
tables it left, ends with the very same tables, the order of their entries
included; so the completion result after two runs is that after one. -/
theorem onDidChangeContent_idempotent (tables : Tables) (text : Str)
    (pos : TextDocumentPositionParams) :
    ∃ tables' : Tables,
      onDidChangeContent text tables = some tables' ∧
      onDidChangeContent text tables' = some tables' ∧
      (onDidChangeContent text tables).bind (onDidChangeContent text)
        = onDidChangeContent text tables ∧
      ((onDidChangeContent text tables).bind (onDidChangeContent text)).map
          (fun t => onCompletion t pos)
        = (onDidChangeContent text tables).map (fun t => onCompletion t pos) := by
  obtain ⟨vms, hvms⟩ := variableMatches_total text
  obtain ⟨fms, hfms⟩ := functionMatches_total text
  have h1 := onDidChangeContent_eq text tables vms fms hvms hfms
  have h2 := onDidChangeContent_eq text
    { variableDeclarations :=
        vms.foldl (fun t m => t.set (variableName m) (variableRecord m))
          tables.variableDeclarations
      functionDeclarations :=
        fms.foldl (fun t m => t.set (functionName m) (functionEntry m))
          tables.functionDeclarations } vms fms hvms hfms
  simp only [foldl_set_idem] at h2
  refine ⟨_, h1, h2, ?_, ?_⟩
  · rw [h1, Option.some_bind, h2]
  · rw [h1, Option.some_bind, h2]

/-! ### Blank documents -/

theorem mem_of_mem_splitLines : ∀ (text l : Str) (c : Char),
    l ∈ splitLines text → c ∈ l → c ∈ text
  | [], l, c, hl, hc => by
    simp [splitLines] at hl
    subst hl
    exact hc
  | x :: cs, l, c, hl, hc => by
    have ih := mem_of_mem_splitLines cs
    by_cases h1 : x = '\n'
    · subst h1
      rw [splitLines_nl] at hl
      rcases List.mem_cons.mp hl with hl | hl
      · subst hl; cases hc
      · exact List.mem_cons_of_mem _ (ih l c hl hc)
    · by_cases h2 : x = '\r' ∧ cs.head? = some '\n'
      · obtain ⟨hx, hd⟩ := h2
        cases cs with
        | nil => simp at hd
        | cons d ds =>
          simp at hd
          subst hx; subst hd
          rw [splitLines_crnl] at hl
          rcases List.mem_cons.mp hl with hl | hl
          · subst hl; cases hc
          · exact List.mem_cons_of_mem _ (List.mem_cons_of_mem _
              (mem_of_mem_splitLines ds l c hl hc))
      · rw [splitLines_other x cs h1 h2] at hl
        cases hs : splitLines cs with
        | nil => exact absurd hs (splitLines_ne_nil cs)
        | cons m ms =>
          rw [hs] at hl ih
          simp only [consHead, List.mem_cons] at hl
          rcases hl with hl | hl
          · subst hl
            rcases List.mem_cons.mp hc with hc | hc
            · subst hc; exact List.mem_cons_self _ _
            · exact List.mem_cons_of_mem _ (ih m c (List.mem_cons_self _ _) hc)
          · exact List.mem_cons_of_mem _ (ih l c (List.mem_cons_of_mem _ hl) hc)

theorem length_consHead (c : Char) (ls : List Str) (h : ls ≠ []) :
    (consHead c ls).length = ls.length := by
  cases ls with
  | nil => exact absurd rfl h
  | cons l ls => rfl

theorem length_splitLines : ∀ (text : Str),
    (splitLines text).length = text.count '\n' + 1
  | [] => rfl
  | x :: cs => by
    have ih := length_splitLines cs
    by_cases h1 : x = '\n'
    · subst h1
      rw [splitLines_nl, List.length_cons, ih, List.count_cons_self]
    · by_cases h2 : x = '\r' ∧ cs.head? = some '\n'
      · obtain ⟨hx, hd⟩ := h2
        cases cs with
        | nil => simp at hd
        | cons d ds =>
          simp at hd
          subst hx; subst hd
          rw [splitLines_crnl, List.length_cons, length_splitLines ds]
          simp [List.count_cons]
      · rw [splitLines_other x cs h1 h2, length_consHead x _ (splitLines_ne_nil cs), ih,
          List.count_cons_of_ne (Ne.symm h1)]

theorem trim_of_all_ws (l : Str) (h : ∀ c ∈ l, isWhiteSpace c = true) : trim l = [] := by
  have h1 : trimStart l = [] := by
    unfold trimStart
    rw [List.dropWhile_eq_nil_iff]
    exact h
  unfold trim
  rw [h1]
  rfl

theorem expectedLines_of_blank (lines : List Str) (count : Nat)
    (h : ∀ l ∈ lines, trim l = []) :
    expectedLines count lines = List.replicate lines.length [] ∧
    lines.foldl counterStep count = count := by
  induction lines with
  | nil => exact ⟨rfl, rfl⟩
  | cons l rest ih =>
    have hl := h l (List.mem_cons_self _ _)
    have hstep : counterStep count l = count := by
      unfold counterStep
      rw [hl]
      rfl
    have hline : expectedLine count l = [] := by
      unfold expectedLine
      rw [if_pos hl]
    have ih' := ih (fun m hm => h m (List.mem_cons_of_mem _ hm))
    simp only [expectedLines, List.foldl_cons, hstep, hline, List.length_cons,
      List.replicate_succ]
    exact ⟨by rw [ih'.1], ih'.2⟩

theorem joinLines_replicate_nil (k : Nat) :
    joinLines (List.replicate (k + 1) []) = List.replicate k '\n' := by
  induction k with
  | zero => rfl
  | succ k ih =>
    rw [List.replicate_succ, List.replicate_succ, joinLines]
    rw [List.replicate_succ] at ih
    rw [ih]
    rfl

theorem formatTronDocument_of_all_ws (text : Str) (options : FormattingOptions)
    (h : ∀ c ∈ text, isWhiteSpace c = true) :
    formatTronDocument text options = Except.ok (List.replicate (text.count '\n') '\n') := by
  have hb : ∀ l ∈ splitLines text, trim l = [] := by
    intro l hl
    exact trim_of_all_ws l (fun c hc => h c (mem_of_mem_splitLines text l c hl hc))
  obtain ⟨h1, h2⟩ := expectedLines_of_blank (splitLines text) 0 hb
  have h0 : openBlocks (splitLines text) = 0 := h2
  rw [formatTronDocument_eq, h0, h1, length_splitLines, joinLines_replicate_nil]
  rfl

theorem assembleLines_blank (rest : List (Str × Str)) : ∀ (first : Str),
    isBlankLine first = true →
    (∀ e ∈ rest, isLineEnding e.1 = true ∧ isBlankLine e.2 = true) →
    (∀ c ∈ assembleLines first rest, isWhiteSpace c = true) ∧
    (assembleLines first rest).count '\n' = rest.length := by
  induction rest with
  | nil =>
    intro first hf _
    have hf' : ∀ c ∈ first, isWhiteSpace c = true ∧ c ≠ '\n' := by
      intro c hc
      have := List.all_eq_true.mp hf c hc
      simpa using this
    refine ⟨fun c hc => (hf' c hc).1, ?_⟩
    show first.count '\n' = 0
    rw [List.count_eq_zero]
    intro hm
    exact (hf' _ hm).2 rfl
  | cons e rest ih =>
    intro first hf hr
    obtain ⟨ending, line⟩ := e
    have he := hr (ending, line) (List.mem_cons_self _ _)
    obtain ⟨ih1, ih2⟩ := ih line he.2 (fun x hx => hr x (List.mem_cons_of_mem _ hx))
    have hf' : ∀ c ∈ first, isWhiteSpace c = true ∧ c ≠ '\n' := by
      intro c hc
      have := List.all_eq_true.mp hf c hc
      simpa using this
    have hfc : first.count '\n' = 0 := by
      rw [List.count_eq_zero]
      intro hm
      exact (hf' _ hm).2 rfl
    have hend : ending = ['\n'] ∨ ending = ['\r', '\n'] := by
      have := he.1
      simpa [isLineEnding] using this
    simp only [assembleLines]
    refine ⟨?_, ?_⟩
    · intro c hc
      rcases List.mem_append.mp hc with hc | hc
      · rcases List.mem_append.mp hc with hc | hc
        · exact (hf' c hc).1
        · rcases hend with hend | hend <;> subst hend
          · simp only [List.mem_singleton] at hc
            subst hc; decide
          · simp only [List.mem_cons, List.mem_singleton, List.not_mem_nil, or_false] at hc
            rcases hc with hc | hc <;> subst hc <;> decide
      · exact ih1 c hc
    · rw [List.count_append, List.count_append, hfc, ih2]
      rcases hend with hend | hend <;> subst hend <;> simp [List.count_cons] <;> omega

/-- C13: boundary. On the empty text `formatTronDocument` returns the empty
string; and on every text of `n ≥ 1` blank lines (each empty or white space
only, a line ending `\n` or `\r\n` between two of them; here `n` is
`rest.length + 1`) it succeeds and returns `n` empty lines, that is the string
of exactly `n - 1` newline characters, no line carrying any indentation. -/
theorem formatTronDocument_blank (options : FormattingOptions) (first : Str)
    (rest : List (Str × Str)) (hf : isBlankLine first = true)
    (hr : ∀ e ∈ rest, isLineEnding e.1 = true ∧ isBlankLine e.2 = true) :
    formatTronDocument [] options = Except.ok [] ∧
    formatTronDocument (assembleLines first rest) options
      = Except.ok (List.replicate rest.length '\n') ∧
    (splitLines (assembleLines first rest)).length = rest.length + 1 ∧
    joinLines (List.replicate (rest.length + 1) []) = List.replicate rest.length '\n' := by
  obtain ⟨h1, h2⟩ := assembleLines_blank rest first hf hr
  refine ⟨?_, ?_, ?_, joinLines_replicate_nil _⟩
  · rw [formatTronDocument_eq]; rfl
  · rw [formatTronDocument_of_all_ws _ options h1, h2]
  · rw [length_splitLines, h2]

/-- C13 at three blank lines, the first of two spaces, the second behind
`\r\n` and holding a tab, the third behind `\n` and empty. -/
theorem formatTronDocument_blank_witness :
    formatTronDocument [] ⟨4, true⟩ = Except.ok [] ∧
    formatTronDocument (assembleLines "  ".toList [("\r\n".toList, "\t".toList), ("\n".toList, [])])
      ⟨4, true⟩ = Except.ok (List.replicate 2 '\n') ∧
    (splitLines (assembleLines "  ".toList
      [("\r\n".toList, "\t".toList), ("\n".toList, [])])).length = 2 + 1 ∧
    joinLines (List.replicate (2 + 1) []) = List.replicate 2 '\n' :=
  formatTronDocument_blank ⟨4, true⟩ "  ".toList
    [("\r\n".toList, "\t".toList), ("\n".toList, [])] (by decide) (by decide)

/-! ### Lines with a closing brace among other content -/

theorem mem_trim_of_not_ws (line : Str) (c : Char) (hc : c ∈ line)
    (hw : isWhiteSpace c = false) : c ∈ trim line := by
  obtain ⟨a, b, hs, ha, hb⟩ := trim_decompose line
  rw [hs] at hc
  rcases List.mem_append.mp hc with hc | hc
  · rcases List.mem_append.mp hc with hc | hc
    · exact absurd hc (not_mem_of_all_ws a ha c hw)
    · exact hc
  · exact absurd hc (not_mem_of_all_ws b hb c hw)

/-- C15, refuted as stated: the line `} else {` holds a closing brace that is
not its sole content, and processing it on the empty stack pushes a level (the
stack afterwards holds four spaces), since its trimmed form ends with an
opening brace. -/
theorem formatLine_close_reopen_counterexample :
    '}' ∈ "\x7d else \x7b".toList ∧ trim "\x7d else \x7b".toList ≠ ['}'] ∧
    formatLine [] "\x7d else \x7b".toList = ("\x7d else \x7b".toList, ["    ".toList]) ∧
    (formatLine [] "\x7d else \x7b".toList).2 ≠ [] := by
  refine ⟨?_, ?_, ?_, ?_⟩ <;> decide

/-- C15, amended: a line that holds a closing brace without trimming to exactly
a closing brace never pops and is emitted at the current indentation; it
leaves the indentation stack exactly as it was when its trimmed form does not
end with an opening brace, and pushes one level (the current indentation plus
four spaces) when it does, as for `} else {`. -/
theorem formatLine_close_not_alone (indentStack : List Str) (line : Str)
    (hc : '}' ∈ line) (hn : trim line ≠ ['}']) :
    (formatLine indentStack line).1 = getIndentation indentStack ++ trim line ∧
    (endsWithOpen (trim line) = false → (formatLine indentStack line).2 = indentStack) ∧
    (endsWithOpen (trim line) = true →
      (formatLine indentStack line).2
        = indentStack ++ [getIndentation indentStack ++ indentUnit]) := by
  have hne : trim line ≠ [] := by
    intro h
    have := mem_trim_of_not_ws line '}' hc (by decide)
    rw [h] at this
    cases this
  unfold formatLine
  by_cases ho : endsWithOpen (trim line) = true
  · simp [hne, ho]
  · simp [hne, ho, hn]

/-- C15, amended, at the line `foo }` on a stack of one level. -/
theorem formatLine_close_not_alone_witness :
    (formatLine ["    ".toList] "foo \x7d".toList).1
      = getIndentation ["    ".toList] ++ trim "foo \x7d".toList ∧
    (endsWithOpen (trim "foo \x7d".toList) = false →
      (formatLine ["    ".toList] "foo \x7d".toList).2 = ["    ".toList]) ∧
    (endsWithOpen (trim "foo \x7d".toList) = true →
      (formatLine ["    ".toList] "foo \x7d".toList).2
        = ["    ".toList] ++ [getIndentation ["    ".toList] ++ indentUnit]) :=
  formatLine_close_not_alone ["    ".toList] "foo \x7d".toList (by decide) (by decide)

/-! ### Only surrounding white space changes -/

theorem splitNewline_ne_nil : ∀ text : Str, splitNewline text ≠ []
  | [] => by simp [splitNewline]
  | c :: cs => by
    have ih := splitNewline_ne_nil cs
    rw [splitNewline]
    split
    · simp
    · cases hs : splitNewline cs with
      | nil => exact absurd hs ih
      | cons l ls => simp [consHead]

theorem splitNewline_of_not_mem : ∀ (l : Str), '\n' ∉ l → splitNewline l = [l]
  | [], _ => rfl
  | c :: cs, h => by
    have hc : c ≠ '\n' := fun e => h (by simp [e])
    have hcs : '\n' ∉ cs := fun e => h (List.mem_cons_of_mem _ e)
    rw [splitNewline, if_neg hc, splitNewline_of_not_mem cs hcs]
    rfl

theorem splitNewline_append_nl : ∀ (l rest : Str), '\n' ∉ l →
    splitNewline (l ++ '\n' :: rest) = l :: splitNewline rest
  | [], rest, _ => by simp [splitNewline]
  | c :: cs, rest, h => by
    have hc : c ≠ '\n' := fun e => h (by simp [e])
    have hcs : '\n' ∉ cs := fun e => h (List.mem_cons_of_mem _ e)
    rw [List.cons_append, splitNewline, if_neg hc, splitNewline_append_nl cs rest hcs]
    rfl

theorem splitNewline_joinLines : ∀ (ls : List Str), ls ≠ [] →
    (∀ l ∈ ls, '\n' ∉ l) → splitNewline (joinLines ls) = ls
  | [], h, _ => absurd rfl h
  | [l], _, h => by
    simpa [joinLines] using splitNewline_of_not_mem l (h l (by simp))
  | l :: m :: ls, _, h => by
    rw [joinLines, splitNewline_append_nl l _ (h l (by simp)),
      splitNewline_joinLines (m :: ls) (by simp) (fun x hx => h x (List.mem_cons_of_mem _ hx))]

theorem expectedLine_getLast_not_ws (count : Nat) (line : Str) (c : Char)
    (h : (expectedLine count line).getLast? = some c) : isWhiteSpace c = false := by
  have key : ∀ k : Nat, trim line ≠ [] →
      (List.replicate k ' ' ++ trim line).getLast? = some c → isWhiteSpace c = false := by
    intro k hne hl
    obtain ⟨d, hd⟩ : ∃ d, (trim line).getLast? = some d := by
      cases hg : (trim line).getLast? with
      | none => exact absurd (List.getLast?_eq_none_iff.mp hg) hne
      | some d => exact ⟨d, rfl⟩
    rw [List.getLast?_append, hd] at hl
    simp at hl
    subst hl
    exact trim_getLast_not_ws line _ hd
  unfold expectedLine at h
  split at h
  · simp at h
  · next hne =>
    split at h
    · exact key _ hne h
    · exact key _ hne h

theorem mem_expectedLines (lines : List Str) (count : Nat) (out : Str)
    (h : out ∈ expectedLines count lines) : ∃ k line, out = expectedLine k line := by
  induction lines generalizing count with
  | nil => simp [expectedLines] at h
  | cons line rest ih =>
    simp only [expectedLines, List.mem_cons] at h
    rcases h with h | h
    · exact ⟨count, line, h⟩
    · exact ih _ h

theorem splitNewline_expectedLines (text : Str) :
    splitNewline (joinLines (expectedLines 0 (splitLines text)))
      = expectedLines 0 (splitLines text) := by
  apply splitNewline_joinLines
  · intro h
    have := length_expectedLines (splitLines text) 0
    rw [h] at this
    exact splitLines_ne_nil text (List.length_eq_zero.mp this.symm)
  · exact not_mem_nl_expectedLines _ _ (not_mem_nl_splitLines text)

/-- C19: the formatter changes only surrounding white space and line endings.
Whenever `formatTronDocument` succeeds, the output split at its newline
characters has as many lines as the input split at `\r?\n`; at every index the
trimmed output line is the trimmed input line; and no output line ends in a
white-space character. -/
theorem formatTronDocument_keeps_content (text out : Str) (options : FormattingOptions)
    (h : formatTronDocument text options = Except.ok out) :
    (splitNewline out).length = (splitLines text).length ∧
    (∀ i : Nat, ((splitNewline out)[i]?).map trim = ((splitLines text)[i]?).map trim) ∧
    (∀ l ∈ splitNewline out, ∀ c, l.getLast? = some c → isWhiteSpace c = false) := by
  rw [formatTronDocument_eq] at h
  split at h
  · cases h
  · injection h with h
    subst h
    rw [splitNewline_expectedLines]
    refine ⟨length_expectedLines _ _, ?_, ?_⟩
    · intro i
      rw [getElem?_expectedLines]
      cases (splitLines text)[i]? with
      | none => rfl
      | some line => simp [trim_expectedLine]
    · intro l hl c hc
      obtain ⟨k, line, rfl⟩ := mem_expectedLines _ _ l hl
      exact expectedLine_getLast_not_ws k line c hc

/-- C19 at a text with trailing blanks, a tab and a two-character line ending. -/
theorem formatTronDocument_keeps_content_witness :
    (splitNewline "a \x7b\n    b;\n\x7d".toList).length
      = (splitLines "a \x7b  \r\n\tb; \n\x7d".toList).length ∧
    (∀ i : Nat, ((splitNewline "a \x7b\n    b;\n\x7d".toList)[i]?).map trim
      = ((splitLines "a \x7b  \r\n\tb; \n\x7d".toList)[i]?).map trim) ∧
    (∀ l ∈ splitNewline "a \x7b\n    b;\n\x7d".toList,
      ∀ c, l.getLast? = some c → isWhiteSpace c = false) :=
  formatTronDocument_keeps_content "a \x7b  \r\n\tb; \n\x7d".toList
    "a \x7b\n    b;\n\x7d".toList ⟨4, true⟩ (by decide)

/-! ### Line endings -/

theorem trimEnd_append_ws (x : Str) (w : Char) (hw : isWhiteSpace w = true) :
    trimEnd (x ++ [w]) = trimEnd x := by
  induction x with
  | nil => simp [trimEnd_cons, hw, trimEnd_nil]
  | cons y x ih => rw [List.cons_append, trimEnd_cons, trimEnd_cons, ih]

theorem trim_append_ws (l : Str) (w : Char) (hw : isWhiteSpace w = true) :
    trim (l ++ [w]) = trim l := by
  have h := dropWhile_append_singleton isWhiteSpace l w
  have hw' : [w].dropWhile isWhiteSpace = [] := by simp [List.dropWhile_cons, hw]
  unfold trim trimStart
  rw [h, hw']
  by_cases he : l.dropWhile isWhiteSpace = []
  · rw [if_pos he, he]
  · rw [if_neg he]
    exact trimEnd_append_ws _ w hw

theorem trim_eq_of_sameUpToCr (l l' : Str) (h : sameUpToCr l l') : trim l = trim l' := by
  rcases h with h | h
  · rw [h]
  · rw [h]
    exact trim_append_ws l' '\r' (by decide)

theorem expectedLines_congr : ∀ (ls ls' : List Str) (count : Nat),
    List.Forall₂ sameUpToCr ls ls' →
    expectedLines count ls = expectedLines count ls' ∧
    ls.foldl counterStep count = ls'.foldl counterStep count
  | [], [], _, _ => ⟨rfl, rfl⟩
  | l :: ls, l' :: ls', count, h => by
    rw [List.forall₂_cons] at h
    have ht := trim_eq_of_sameUpToCr l l' h.1
    simp only [expectedLines, List.foldl_cons]
    rw [expectedLine_congr count _ _ ht, counterStep_congr count _ _ ht]
    obtain ⟨h1, h2⟩ := expectedLines_congr ls ls' (counterStep count l') h.2
    exact ⟨by rw [h1], h2⟩
  | [], _ :: _, _, h => by cases h
  | _ :: _, [], _, h => by cases h

theorem forall₂_consHead (c : Char) (a b : List Str) (ha : a ≠ []) (hb : b ≠ [])
    (h : List.Forall₂ sameUpToCr a b) :
    List.Forall₂ sameUpToCr (consHead c a) (consHead c b) := by
  cases a with
  | nil => exact absurd rfl ha
  | cons l ls =>
    cases b with
    | nil => exact absurd rfl hb
    | cons l' ls' =>
      rw [List.forall₂_cons] at h
      simp only [consHead]
      refine List.Forall₂.cons ?_ h.2
      rcases h.1 with h1 | h1
      · exact Or.inl (by rw [h1])
      · exact Or.inr (by rw [h1]; rfl)

theorem splitLines_replaceCrLf_aux : ∀ (n : Nat) (text : Str), text.length ≤ n →
    List.Forall₂ sameUpToCr (splitLines text) (splitLines (replaceCrLf text)) := by
  intro n
  induction n with
  | zero =>
    intro text h
    have : text = [] := List.length_eq_zero.mp (Nat.le_zero.mp h)
    subst this
    exact List.Forall₂.cons (Or.inl rfl) List.Forall₂.nil
  | succ n ih =>
    intro text h
    match text, h with
    | [], _ => exact List.Forall₂.cons (Or.inl rfl) List.Forall₂.nil
    | [c], _ =>
      have : replaceCrLf [c] = [c] := rfl
      rw [this]
      by_cases hc : c = '\n'
      · subst hc
        exact List.Forall₂.cons (Or.inl rfl) (List.Forall₂.cons (Or.inl rfl) List.Forall₂.nil)
      · have : splitLines [c] = [[c]] := by simp [splitLines, hc]
        rw [this]
        exact List.Forall₂.cons (Or.inl rfl) List.Forall₂.nil
    | c :: d :: cs, h =>
      have hlen1 : (d :: cs).length ≤ n := by simp at h ⊢; omega
      have hlen2 : cs.length ≤ n := by simp at h ⊢; omega
      by_cases hcr : c = '\r' ∧ d = '\n'
      · obtain ⟨hc, hd⟩ := hcr
        subst hc; subst hd
        have : replaceCrLf ('\r' :: '\n' :: cs) = '\n' :: replaceCrLf cs := by
          simp [replaceCrLf]
        rw [this, splitLines_crnl, splitLines_nl]
        exact List.Forall₂.cons (Or.inl rfl) (ih cs hlen2)
      · have hrep : replaceCrLf (c :: d :: cs) = c :: replaceCrLf (d :: cs) := by
          rw [replaceCrLf, if_neg hcr]
        rw [hrep]
        by_cases hnl : c = '\n'
        · subst hnl
          rw [splitLines_nl, splitLines_nl]
          exact List.Forall₂.cons (Or.inl rfl) (ih (d :: cs) hlen1)
        · have hleft : splitLines (c :: d :: cs) = consHead c (splitLines (d :: cs)) :=
            splitLines_other c (d :: cs) hnl (by simpa using hcr)
          by_cases hspecial : c = '\r' ∧ d = '\r' ∧ cs.head? = some '\n'
          · obtain ⟨hc, hd, hcs⟩ := hspecial
            cases cs with
            | nil => simp at hcs
            | cons e es =>
              simp at hcs
              subst hc; subst hd; subst hcs
              have hlen3 : es.length ≤ n := by simp at h ⊢; omega
              have h1 : replaceCrLf ('\r' :: '\n' :: es) = '\n' :: replaceCrLf es := by
                simp [replaceCrLf]
              rw [hleft, h1, splitLines_crnl, splitLines_crnl]
              exact List.Forall₂.cons (Or.inr rfl) (ih es hlen3)
          · have hhead : ¬ (c = '\r' ∧ (replaceCrLf (d :: cs)).head? = some '\n') := by
              rintro ⟨hc, hh⟩
              cases cs with
              | nil =>
                have : replaceCrLf [d] = [d] := rfl
                rw [this] at hh
                simp at hh
                exact hcr ⟨hc, hh⟩
              | cons e es =>
                by_cases hde : d = '\r' ∧ e = '\n'
                · exact hspecial ⟨hc, hde.1, by simp [hde.2]⟩
                · rw [replaceCrLf, if_neg hde] at hh
                  simp at hh
                  exact hcr ⟨hc, hh⟩
            rw [hleft, splitLines_other c _ hnl hhead]
            exact forall₂_consHead c _ _ (splitLines_ne_nil _) (splitLines_ne_nil _)
              (ih (d :: cs) hlen1)

theorem splitLines_replaceCrLf (text : Str) :
    List.Forall₂ sameUpToCr (splitLines text) (splitLines (replaceCrLf text)) :=
  splitLines_replaceCrLf_aux text.length text (Nat.le_refl _)

theorem containsCrLf_of_not_mem : ∀ (l : Str), '\n' ∉ l → containsCrLf l = false
  | [], _ => rfl
  | c :: cs, h => by
    have hcs : '\n' ∉ cs := fun e => h (List.mem_cons_of_mem _ e)
    have hh : cs.head? ≠ some '\n' := fun e => hcs (List.mem_of_mem_head? e)
    rw [containsCrLf, containsCrLf_of_not_mem cs hcs]
    simp [hh]

theorem containsCrLf_append_nl : ∀ (l rest : Str), '\n' ∉ l → l.getLast? ≠ some '\r' →
    containsCrLf (l ++ '\n' :: rest) = containsCrLf rest
  | [], rest, _, _ => by
    simp [containsCrLf]
  | c :: cs, rest, h, hr => by
    have hcs : '\n' ∉ cs := fun e => h (List.mem_cons_of_mem _ e)
    have hr2 : cs.getLast? ≠ some '\r' := by
      cases cs with
      | nil => simp
      | cons d ds => simpa using hr
    have hhit : (c == '\r' && (cs ++ '\n' :: rest).head? == some '\n') = false := by
      cases cs with
      | nil =>
        have : c ≠ '\r' := fun e => hr (by simp [e])
        simp [this]
      | cons d ds =>
        have : d ≠ '\n' := fun e => hcs (by simp [e])
        simp [this]
    rw [List.cons_append, containsCrLf, hhit, containsCrLf_append_nl cs rest hcs hr2]
    rfl

theorem containsCrLf_joinLines : ∀ (ls : List Str),
    (∀ l ∈ ls, '\n' ∉ l ∧ l.getLast? ≠ some '\r') → containsCrLf (joinLines ls) = false
  | [], _ => rfl
  | [l], h => by
    simpa [joinLines] using containsCrLf_of_not_mem l (h l (by simp)).1
  | l :: m :: ls, h => by
    have hl := h l (by simp)
    rw [joinLines, containsCrLf_append_nl l _ hl.1 hl.2]
    exact containsCrLf_joinLines (m :: ls) (fun x hx => h x (List.mem_cons_of_mem _ hx))

/-- C18: line endings are normalised. For every text, `formatTronDocument` on
the text with every `\r\n` replaced by `\n` gives the result it gives on the
text itself, the same output or the same failure; and a successful output,
the join of its lines by single newline characters, contains no `\r\n`. -/
theorem formatTronDocument_line_endings (text : Str) (options : FormattingOptions) :
    formatTronDocument (replaceCrLf text) options = formatTronDocument text options ∧
    (∀ out, formatTronDocument text options = Except.ok out →
      containsCrLf out = false ∧ out = joinLines (splitNewline out)) := by
  refine ⟨?_, ?_⟩
  · obtain ⟨h1, h2⟩ := expectedLines_congr _ _ 0 (splitLines_replaceCrLf text)
    have h3 : openBlocks (splitLines text) = openBlocks (splitLines (replaceCrLf text)) := h2
    rw [formatTronDocument_eq, formatTronDocument_eq, h3, h1]
  · intro out h
    rw [formatTronDocument_eq] at h
    split at h
    · cases h
    · injection h with h
      subst h
      refine ⟨?_, by rw [splitNewline_expectedLines]⟩
      apply containsCrLf_joinLines
      intro l hl
      refine ⟨not_mem_nl_expectedLines _ _ (not_mem_nl_splitLines text) l hl, ?_⟩
      obtain ⟨k, line, rfl⟩ := mem_expectedLines _ _ l hl
      exact expectedLine_getLast _ _

/-! ### Requests for an unknown document -/

/-- C14, refuted as stated: with no document open and empty tables, the
completion request for the unknown document `a.tron` returns the 17 keyword
items, not an empty list. -/
theorem onCompletion_unknown_document_counterexample :
    JsMap.get ([] : JsMap Str) "a.tron".toList = none ∧
    onCompletion ⟨[], []⟩ ⟨"a.tron".toList, 0, 0⟩ ≠ [] ∧
    (onCompletion ⟨[], []⟩ ⟨"a.tron".toList, 0, 0⟩).length = 17 := by
  refine ⟨?_, ?_, ?_⟩ <;> decide

/-- C14, amended: when the document named in a request is not in the store of
open documents, the formatting request returns an empty edit list rather than
failing; the completion request, which never looks the document up, returns
the same full item list as for any other request, the 17 keyword items and
the items of the tables, and so never an empty one. -/
theorem unknown_document_requests (documents : JsMap Str) (tables : Tables)
    (params : DocumentFormattingParams) (pos : TextDocumentPositionParams)
    (hf : documents.get params.uri = none) (_hc : documents.get pos.uri = none) :
    onDocumentFormatting documents params = Except.ok [] ∧
    onCompletion tables pos
      = keywordLabels.map keywordItem ++ tables.variableDeclarations.map variableItem
        ++ (tables.functionDeclarations.map functionItems).flatten ∧
    17 ≤ (onCompletion tables pos).length ∧
    onCompletion tables pos ≠ [] := by
  have h1 : onDocumentFormatting documents params = Except.ok [] := by
    unfold onDocumentFormatting
    rw [hf]
  have h2 := onCompletion_eq tables pos
  have h3 : 17 ≤ (onCompletion tables pos).length := by
    rw [h2, List.length_append, List.length_append, List.length_map]
    have : keywordLabels.length = 17 := rfl
    omega
  refine ⟨h1, h2, h3, ?_⟩
  intro h
  rw [h] at h3
  simp at h3

/-- C14, amended, at a store that holds one other document. -/
theorem unknown_document_requests_witness :
    onDocumentFormatting [("b.tron".toList, "let x : number = 5;".toList)]
      ⟨"a.tron".toList, ⟨4, true⟩⟩ = Except.ok [] ∧
    onCompletion ⟨[], []⟩ ⟨"a.tron".toList, 0, 0⟩
      = keywordLabels.map keywordItem ++ ([] : JsMap VariableDeclaration).map variableItem
        ++ (([] : JsMap FunctionDeclaration).map functionItems).flatten ∧
    17 ≤ (onCompletion ⟨[], []⟩ ⟨"a.tron".toList, 0, 0⟩).length ∧
    onCompletion ⟨[], []⟩ ⟨"a.tron".toList, 0, 0⟩ ≠ [] :=
  unknown_document_requests [("b.tron".toList, "let x : number = 5;".toList)] ⟨[], []⟩
    ⟨"a.tron".toList, ⟨4, true⟩⟩ ⟨"a.tron".toList, 0, 0⟩ (by decide) (by decide)

/-! ### The body of a function match -/

theorem segmentsAccepted_append : ∀ (a b : List Atom) (segs : List Str),
    segmentsAccepted (a ++ b) segs = true →
    ∃ s1 s2, segs = s1 ++ s2 ∧ segmentsAccepted a s1 = true ∧ segmentsAccepted b s2 = true
  | [], b, segs, h => ⟨[], segs, rfl, rfl, h⟩
  | x :: a, b, [], h => by simp [segmentsAccepted] at h
  | x :: a, b, seg :: segs, h => by
    simp only [List.cons_append, segmentsAccepted, Bool.and_eq_true] at h
    obtain ⟨s1, s2, hs, h1, h2⟩ := segmentsAccepted_append a b segs h.2
    exact ⟨seg :: s1, s2, by rw [hs]; rfl, by simp [segmentsAccepted, h.1, h1], h2⟩

theorem matchAtoms_append : ∀ (a1 a2 : List Atom) (s : Str) (segs : List Str),
    matchAtoms (a1 ++ a2) s = some segs →
    ∃ segs1 segs2 rest, segs = segs1 ++ segs2 ∧ segmentsAccepted a1 segs1 = true ∧
      s = segs1.flatten ++ rest ∧ matchAtoms a2 rest = some segs2
  | [], a2, s, segs, h => ⟨[], segs, s, rfl, rfl, rfl, h⟩
  | Atom.chr c :: a1, a2, s, segs, h => by
    cases s with
    | nil => simp [matchAtoms] at h
    | cons d ds =>
      simp only [List.cons_append, matchAtoms] at h
      by_cases hd : d = c
      · rw [if_pos hd, Option.map_eq_some'] at h
        obtain ⟨r, hr, he⟩ := h
        subst he
        obtain ⟨s1, s2, rest, hs, ha, hf, hm⟩ := matchAtoms_append a1 a2 ds r hr
        exact ⟨[d] :: s1, s2, rest, by rw [hs]; rfl,
          by simp [segmentsAccepted, Atom.accepts, hd, ha], by simp [hf], hm⟩
      · rw [if_neg hd] at h; cases h
  | Atom.set p :: a1, a2, s, segs, h => by
    cases s with
    | nil => simp [matchAtoms] at h
    | cons d ds =>
      simp only [List.cons_append, matchAtoms] at h
      by_cases hd : p d = true
      · rw [if_pos hd, Option.map_eq_some'] at h
        obtain ⟨r, hr, he⟩ := h
        subst he
        obtain ⟨s1, s2, rest, hs, ha, hf, hm⟩ := matchAtoms_append a1 a2 ds r hr
        exact ⟨[d] :: s1, s2, rest, by rw [hs]; rfl,
          by simp [segmentsAccepted, Atom.accepts, hd, ha], by simp [hf], hm⟩
      · rw [if_neg hd] at h; cases h
  | Atom.star p :: a1, a2, s, segs, h => by
    simp only [List.cons_append, matchAtoms, Option.map_eq_some'] at h
    obtain ⟨⟨seg, r⟩, hg, he⟩ := h
    subst he
    obtain ⟨hall, rest0, hs0, hk⟩ := greedy_sound p _ s seg r hg
    obtain ⟨s1, s2, rest, hs, ha, hf, hm⟩ := matchAtoms_append a1 a2 rest0 r hk
    exact ⟨seg :: s1, s2, rest, by rw [hs]; rfl,
      by simp only [segmentsAccepted, Atom.accepts, hall, ha, Bool.and_self],
      by simp [hs0, hf], hm⟩
  | Atom.plus p :: a1, a2, s, segs, h => by
    cases s with
    | nil => simp [matchAtoms] at h
    | cons d ds =>
      simp only [List.cons_append, matchAtoms] at h
      by_cases hd : p d = true
      · rw [if_pos hd, Option.map_eq_some'] at h
        obtain ⟨⟨seg, r⟩, hg, he⟩ := h
        subst he
        obtain ⟨hall, rest0, hs0, hk⟩ := greedy_sound p _ ds seg r hg
        obtain ⟨s1, s2, rest, hs, ha, hf, hm⟩ := matchAtoms_append a1 a2 rest0 r hk
        exact ⟨(d :: seg) :: s1, s2, rest, by rw [hs]; rfl,
          by simp [segmentsAccepted, Atom.accepts, hd, hall, ha], by simp [hs0, hf], hm⟩
      · rw [if_neg hd] at h; cases h
  | Atom.lazyStar p :: a1, a2, s, segs, h => by
    simp only [List.cons_append, matchAtoms, Option.map_eq_some'] at h
    obtain ⟨⟨seg, r⟩, hg, he⟩ := h
    subst he
    obtain ⟨hall, rest0, hs0, hk⟩ := reluctant_sound p _ s seg r hg
    obtain ⟨s1, s2, rest, hs, ha, hf, hm⟩ := matchAtoms_append a1 a2 rest0 r hk
    exact ⟨seg :: s1, s2, rest, by rw [hs]; rfl,
      by simp only [segmentsAccepted, Atom.accepts, hall, ha, Bool.and_self],
      by simp [hs0, hf], hm⟩

theorem reluctant_stops (p : Char → Bool) (k : Str → Option (List Str)) (x : Char)
    (hk : ∀ cs, k (x :: cs) ≠ none) :
    ∀ (s seg : Str) (r : List Str), reluctant p k s = some (seg, r) → x ∉ seg
  | [], seg, r, h => by
    simp only [reluctant, Option.map_eq_some'] at h
    obtain ⟨r0, -, he⟩ := h
    injection he with h1 h2
    subst h1
    simp
  | c :: cs, seg, r, h => by
    have ih := reluctant_stops p k x hk cs
    rw [reluctant] at h
    cases hkc : k (c :: cs) with
    | some r0 =>
      rw [hkc] at h
      injection h with h
      injection h with h1 h2
      subst h1
      simp
    | none =>
      rw [hkc] at h
      have hcx : x ≠ c := by
        intro e
        subst e
        exact hk cs hkc
      by_cases hp : p c = true
      · simp only [if_pos hp] at h
        cases hg : reluctant p k cs with
        | none => rw [hg] at h; cases h
        | some y =>
          obtain ⟨seg0, r0⟩ := y
          rw [hg] at h
          injection h with h
          injection h with h1 h2
          subst h1
          intro hm
          rcases List.mem_cons.mp hm with hm | hm
          · exact hcx hm
          · exact ih seg0 r0 hg hm
      · simp only [if_neg hp] at h
        cases h

theorem lazy_body_sound (rest : Str) (segs : List Str)
    (h : matchAtoms [Atom.lazyStar anyChar, Atom.chr '}'] rest = some segs) :
    ∃ body, segs = [body, ['}']] ∧ '}' ∉ body := by
  simp only [matchAtoms, Option.map_eq_some'] at h
  obtain ⟨⟨seg, r⟩, hg, he⟩ := h
  subst he
  have hk : ∀ cs, (fun s => matchAtoms [Atom.chr '}'] s) ('}' :: cs) ≠ none := by
    intro cs
    simp [matchAtoms]
  have hno := reluctant_stops anyChar _ '}' hk rest seg r hg
  obtain ⟨-, rest0, -, hr⟩ := reluctant_sound anyChar _ rest seg r hg
  have hr2 : r = [['}']] := by
    cases rest0 with
    | nil => simp [matchAtoms] at hr
    | cons d ds =>
      simp only [matchAtoms] at hr
      by_cases hd : d = '}'
      · rw [if_pos hd] at hr
        simp at hr
        rw [← hr, hd]
      · rw [if_neg hd] at hr; cases hr
  exact ⟨seg, by rw [hr2], hno⟩

theorem scanAll_mem (re : Regex) (text : Str) : ∀ (fuel lastIndex : Nat)
    (ms : List RegExpMatch), scanAll re text fuel lastIndex = some ms →
    ∀ m ∈ ms, ∃ j, regexExec re text j = some m
  | 0, _, _, h, _, _ => by simp [scanAll] at h
  | fuel + 1, lastIndex, ms, h, m, hm => by
    rw [scanAll] at h
    cases he : regexExec re text lastIndex with
    | none =>
      rw [he] at h
      injection h with h
      subst h
      cases hm
    | some m0 =>
      rw [he] at h
      simp only [Option.map_eq_some'] at h
      obtain ⟨ms', hs, hms⟩ := h
      subst hms
      rcases List.mem_cons.mp hm with hm | hm
      · subst hm; exact ⟨lastIndex, he⟩
      · exact scanAll_mem re text fuel m0.endIndex ms' hs m hm

theorem regexExec_matchAtoms (re : Regex) (text : Str) (j : Nat) (m : RegExpMatch)
    (h : regexExec re text j = some m) :
    ∃ s, matchAtoms (re.map Prod.snd) s = some m.segments := by
  unfold regexExec at h
  by_cases hl : j > text.length
  · rw [if_pos hl] at h; cases h
  · rw [if_neg hl] at h
    obtain ⟨k, -, -, hs⟩ := execFrom_sound re _ j m h
    exact ⟨_, hs⟩

theorem function_match_shape (s : Str) (segs : List Str)
    (h : matchAtoms (functionRegex.map Prod.snd) s = some segs) :
    ∃ mid body, segs = ['f'] :: ['n'] :: (mid ++ [['{'], body, ['}']]) ∧
      segmentsAccepted functionSignatureAtoms mid = true ∧ '}' ∉ body := by
  have hsplit : functionRegex.map Prod.snd
      = (Atom.chr 'f' :: Atom.chr 'n' :: (functionSignatureAtoms ++ [Atom.chr '{']))
        ++ [Atom.lazyStar anyChar, Atom.chr '}'] := rfl
  rw [hsplit] at h
  obtain ⟨segs1, segs2, rest, hs, ha, -, hm⟩ := matchAtoms_append _ _ s segs h
  obtain ⟨body, hb, hno⟩ := lazy_body_sound rest segs2 hm
  cases segs1 with
  | nil => simp [segmentsAccepted] at ha
  | cons s0 t1 =>
    cases t1 with
    | nil => simp [segmentsAccepted] at ha
    | cons s1 tail =>
      simp only [segmentsAccepted, Atom.accepts, Bool.and_eq_true, beq_iff_eq] at ha
      obtain ⟨h0, h1, ht⟩ := ha
      obtain ⟨mid, last, htl, hmid, hlast⟩ := segmentsAccepted_append _ _ tail ht
      have hl : last = [['{']] := by
        cases last with
        | nil => simp [segmentsAccepted] at hlast
        | cons x xs =>
          cases xs with
          | nil =>
            simp only [segmentsAccepted, Atom.accepts, Bool.and_true, beq_iff_eq] at hlast
            rw [hlast]
          | cons y ys => simp [segmentsAccepted] at hlast
      refine ⟨mid, body, ?_, hmid, hno⟩
      rw [hs, hb, h0, h1, htl, hl]
      simp

/-- C16: non-greedy function body. For every text and table, tracking ends and
stores one record per match of the scan, its raw text being the matched text;
each of these raw texts starts with `fn`, ends with a closing brace, and the
body between the opening brace that follows the return type and that final
brace contains no closing brace. On `fn f(): number { if (x) { y } z }` the
stored raw text is `fn f(): number { if (x) { y }`. -/
theorem function_body_nearest_brace (text : Str) (fns : JsMap FunctionDeclaration) :
    (∃ fms, functionMatches text = some fms ∧
      trackFunctionDeclarations text fns
        = some (fms.foldl (fun t m => t.set (functionName m) (functionEntry m)) fns) ∧
      ∀ m ∈ fms, functionRecord m = some (functionEntry m) ∧
        (functionEntry m).declaration = m.matched ∧
        ∃ mid body,
          m.segments = ['f'] :: ['n'] :: (mid ++ [['{'], body, ['}']]) ∧
          segmentsAccepted functionSignatureAtoms mid = true ∧
          m.matched = 'f' :: 'n' :: (mid.flatten ++ '{' :: (body ++ ['}'])) ∧
          '}' ∉ body) ∧
    trackFunctionDeclarations nestedBodyText []
      = some [("f".toList,
          ⟨"fn f(): number \x7b if (x) \x7b y \x7d".toList, [], "number".toList⟩)] := by
  refine ⟨?_, by decide⟩
  obtain ⟨fms, hfms⟩ := functionMatches_total text
  refine ⟨fms, hfms, trackFunctionDeclarations_eq text fns fms hfms, ?_⟩
  intro m hm
  obtain ⟨j, hj⟩ := scanAll_mem functionRegex text _ _ fms hfms m hm
  obtain ⟨s, hs⟩ := regexExec_matchAtoms functionRegex text j m hj
  obtain ⟨mid, body, hseg, hmid, hno⟩ := function_match_shape s m.segments hs
  refine ⟨functionRecord_eq m, rfl, mid, body, hseg, hmid, ?_, hno⟩
  unfold RegExpMatch.matched
  rw [hseg]
  simp

/-! ### Parameter lists -/

theorem identStart_identPart (c : Char) (h : isIdentStart c = true) : isIdentPart c = true := by
  simp [isIdentPart, h]

theorem ws_not_identPart (c : Char) (h : isWhiteSpace c = true) : isIdentPart c = false := by
  cases hp : isIdentPart c with
  | false => rfl
  | true =>
    simp only [isWhiteSpace, isIdentPart, isIdentStart, Bool.or_eq_true, Bool.and_eq_true,
      decide_eq_true_eq] at h hp
    omega

theorem identPart_not_ws (c : Char) (h : isIdentPart c = true) : isWhiteSpace c = false := by
  cases hw : isWhiteSpace c with
  | false => rfl
  | true => rw [ws_not_identPart c hw] at h; cases h

theorem greedy_complete (p : Char → Bool) (k : Str → Option (List Str)) (rest : Str)
    (r : List Str) (hnext : ∀ c, rest.head? = some c → p c = false) (hk : k rest = some r) :
    ∀ (seg : Str), seg.all p = true → greedy p k (seg ++ rest) = some (seg, r)
  | [], _ => by
    cases rest with
    | nil => simp [greedy, hk]
    | cons c cs =>
      have := hnext c rfl
      simp [greedy, this, hk]
  | c :: seg, h => by
    simp only [List.all_cons, Bool.and_eq_true] at h
    rw [List.cons_append, greedy, if_pos h.1, greedy_complete p k rest r hnext hk seg h.2]

theorem matchAtoms_chr (c : Char) (atoms : List Atom) (s : Str) (r : List Str)
    (h : matchAtoms atoms s = some r) :
    matchAtoms (Atom.chr c :: atoms) (c :: s) = some ([c] :: r) := by
  simp [matchAtoms, h]

theorem matchAtoms_set (p : Char → Bool) (d : Char) (atoms : List Atom) (s : Str)
    (r : List Str) (hd : p d = true) (h : matchAtoms atoms s = some r) :
    matchAtoms (Atom.set p :: atoms) (d :: s) = some ([d] :: r) := by
  simp [matchAtoms, hd, h]

theorem matchAtoms_star (p : Char → Bool) (atoms : List Atom) (seg s : Str) (r : List Str)
    (hall : seg.all p = true) (hnext : ∀ c, s.head? = some c → p c = false)
    (h : matchAtoms atoms s = some r) :
    matchAtoms (Atom.star p :: atoms) (seg ++ s) = some (seg :: r) := by
  simp only [matchAtoms]
  rw [greedy_complete p _ s r hnext h seg hall]
  rfl

theorem matchAtoms_plus (p : Char → Bool) (atoms : List Atom) (d : Char) (seg s : Str)
    (r : List Str) (hd : p d = true) (hall : seg.all p = true)
    (hnext : ∀ c, s.head? = some c → p c = false) (h : matchAtoms atoms s = some r) :
    matchAtoms (Atom.plus p :: atoms) (d :: (seg ++ s)) = some ((d :: seg) :: r) := by
  simp only [matchAtoms, if_pos hd]
  rw [greedy_complete p _ s r hnext h seg hall]
  rfl

theorem matchAtoms_identifier (atoms : List Atom) (name s : Str) (r : List Str)
    (hid : isIdentifier name = true)
    (hnext : ∀ c, s.head? = some c → isIdentPart c = false)
    (h : matchAtoms atoms s = some r) :
    ∃ c cs, name = c :: cs ∧
      matchAtoms (Atom.set isIdentStart :: Atom.star isIdentPart :: atoms) (name ++ s)
        = some ([c] :: cs :: r) := by
  cases name with
  | nil => simp [isIdentifier] at hid
  | cons c cs =>
    simp only [isIdentifier, Bool.and_eq_true] at hid
    exact ⟨c, cs, rfl, matchAtoms_set _ c _ _ _ hid.1
      (matchAtoms_star _ _ cs s r hid.2 hnext h)⟩

theorem head?_append_cases (a b : Str) (c : Char) (h : (a ++ b).head? = some c) :
    c ∈ a ∨ (a = [] ∧ b.head? = some c) := by
  cases a with
  | nil => exact Or.inr ⟨rfl, h⟩
  | cons x xs =>
    simp at h
    exact Or.inl (by simp [h])

theorem mem_of_all (p : Char → Bool) (l : Str) (h : l.all p = true) (c : Char) (hc : c ∈ l) :
    p c = true :=
  List.all_eq_true.mp h c hc

theorem wellFormed_iff (p : ParameterText) (hp : p.wellFormed = true) :
    p.before.all isWhiteSpace = true ∧ isIdentifier p.name = true ∧
    p.afterName.all isWhiteSpace = true ∧ p.beforeType.all isWhiteSpace = true ∧
    isIdentifier p.type = true ∧ p.afterType.all isWhiteSpace = true := by
  simp only [ParameterText.wellFormed, Bool.and_eq_true] at hp
  obtain ⟨⟨⟨⟨⟨h1, h2⟩, h3⟩, h4⟩, h5⟩, h6⟩ := hp
  exact ⟨h1, h2, h3, h4, h5, h6⟩

theorem param_match (p : ParameterText) (hp : p.wellFormed = true) (tail : Str)
    (ht : ∀ c, tail.head? = some c → isWhiteSpace c = false ∧ isIdentPart c = false) :
    ∃ segs, matchAtoms (paramsRegex.map Prod.snd) (p.text ++ tail) = some segs ∧
      segs.flatten = p.text ∧ ∀ i, matchParameter ⟨i, segs⟩ = p.parameter := by
  obtain ⟨h1, h2, h3, h4, h5, h6⟩ := wellFormed_iff p hp
  have k1 : matchAtoms [Atom.star isWhiteSpace] (p.afterType ++ tail) = some [p.afterType] :=
    matchAtoms_star _ _ _ _ _ h6 (fun c hc => (ht c hc).1) rfl
  obtain ⟨c2, cs2, ht2, k2⟩ := matchAtoms_identifier _ p.type (p.afterType ++ tail) _ h5
    (by
      intro c hc
      rcases head?_append_cases _ _ c hc with hm | ⟨-, hm⟩
      · exact ws_not_identPart c (mem_of_all _ _ h6 c hm)
      · exact (ht c hm).2) k1
  have hc2 : isWhiteSpace c2 = false := by
    rw [ht2] at h5
    simp only [isIdentifier, Bool.and_eq_true] at h5
    exact identPart_not_ws c2 (identStart_identPart c2 h5.1)
  have k3 := matchAtoms_star isWhiteSpace _ p.beforeType _ _ h4
    (by
      intro c hc
      rw [ht2] at hc
      simp at hc
      rw [← hc]; exact hc2) k2
  have k4 := matchAtoms_chr ':' _ _ _ k3
  have k5 := matchAtoms_star isWhiteSpace _ p.afterName _ _ h3
    (by
      intro c hc
      simp at hc
      rw [← hc]; decide) k4
  obtain ⟨c1, cs1, ht1, k6⟩ := matchAtoms_identifier _ p.name _ _ h2
    (by
      intro c hc
      rcases head?_append_cases _ _ c hc with hm | ⟨-, hm⟩
      · exact ws_not_identPart c (mem_of_all _ _ h3 c hm)
      · simp at hm
        rw [← hm]; decide) k5
  have hc1 : isWhiteSpace c1 = false := by
    rw [ht1] at h2
    simp only [isIdentifier, Bool.and_eq_true] at h2
    exact identPart_not_ws c1 (identStart_identPart c1 h2.1)
  have k7 := matchAtoms_star isWhiteSpace _ p.before _ _ h1
    (by
      intro c hc
      rw [ht1] at hc
      simp at hc
      rw [← hc]; exact hc1) k6
  have htext : p.text ++ tail
      = p.before ++ (p.name ++ (p.afterName ++ ':' ::
          (p.beforeType ++ (p.type ++ (p.afterType ++ tail))))) := by
    simp [ParameterText.text, List.append_assoc]
  refine ⟨_, by rw [htext]; exact k7, ?_, ?_⟩
  · simp [ParameterText.text, ht1, ht2]
  · intro i
    simp [matchParameter, RegExpMatch.group, paramsRegex, ParameterText.parameter, ht1, ht2]

theorem parameterListText_cons (p : ParameterText) (ps : List ParameterText) :
    parameterListText (p :: ps) = p.text ++ parameterListTail ps := by
  cases ps with
  | nil => simp [parameterListText, parameterListTail]
  | cons q rest => simp [parameterListText, parameterListTail]

theorem parameterListTail_head (ps : List ParameterText) (c : Char)
    (h : (parameterListTail ps).head? = some c) :
    isWhiteSpace c = false ∧ isIdentPart c = false := by
  cases ps with
  | nil => simp [parameterListTail] at h
  | cons q rest =>
    simp [parameterListTail] at h
    rw [← h]
    exact ⟨by decide, by decide⟩

theorem execFrom_of_match (re : Regex) (s : Str) (i : Nat) (segs : List Str)
    (h : matchAtoms (re.map Prod.snd) s = some segs) : execFrom re s i = some ⟨i, segs⟩ := by
  cases s with
  | nil => simp [execFrom, h]
  | cons c cs => simp [execFrom, h]

theorem matchAtoms_params_comma (s : Str) :
    matchAtoms (paramsRegex.map Prod.snd) (',' :: s) = none := rfl

theorem drop_add_of_drop_eq (text a b : Str) (i : Nat) (h : text.drop i = a ++ b) :
    text.drop (i + a.length) = b := by
  have h2 : (text.drop i).drop a.length = b := by rw [h]; simp
  rw [List.drop_drop] at h2
  rw [← h2]

theorem not_gt_of_drop_ne_nil (text : Str) (i : Nat) (h : text.drop i ≠ []) :
    ¬ i > text.length := by
  intro hgt
  apply h
  exact List.drop_eq_nil_of_le (Nat.le_of_lt hgt)

theorem regexExec_params_nil (text : Str) (i : Nat) (h : text.drop i = []) :
    regexExec paramsRegex text i = none := by
  unfold regexExec
  split
  · rfl
  · rw [h]; rfl

theorem regexExec_params_item (text : Str) (i : Nat) (p : ParameterText)
    (ps : List ParameterText) (hp : p.wellFormed = true)
    (hd : text.drop i = parameterListText (p :: ps)
      ∨ text.drop i = ',' :: parameterListText (p :: ps)) :
    ∃ m, regexExec paramsRegex text i = some m ∧ matchParameter m = p.parameter ∧
      text.drop m.endIndex = parameterListTail ps := by
  obtain ⟨segs, hmatch, hflat, hparam⟩ :=
    param_match p hp (parameterListTail ps) (parameterListTail_head ps)
  rw [parameterListText_cons] at hd
  rcases hd with hd | hd
  · refine ⟨⟨i, segs⟩, ?_, hparam i, ?_⟩
    · unfold regexExec
      have hne : text.drop i ≠ [] := by
        rw [hd]
        intro he
        have := congrArg List.length he
        obtain ⟨-, h2, -⟩ := wellFormed_iff p hp
        cases hn : p.name with
        | nil => rw [hn] at h2; simp [isIdentifier] at h2
        | cons c cs => simp [ParameterText.text, hn] at this
      rw [if_neg (not_gt_of_drop_ne_nil text i hne), hd]
      exact execFrom_of_match _ _ _ _ hmatch
    · show text.drop (i + segs.flatten.length) = _
      rw [hflat]
      exact drop_add_of_drop_eq text _ _ i hd
  · refine ⟨⟨i + 1, segs⟩, ?_, hparam (i + 1), ?_⟩
    · unfold regexExec
      have hne : text.drop i ≠ [] := by rw [hd]; simp
      rw [if_neg (not_gt_of_drop_ne_nil text i hne), hd, execFrom, matchAtoms_params_comma]
      exact execFrom_of_match _ _ _ _ hmatch
    · show text.drop (i + 1 + segs.flatten.length) = _
      rw [hflat]
      have h1 : text.drop (i + 1) = p.text ++ parameterListTail ps := by
        have := drop_add_of_drop_eq text [','] _ i (by rw [hd]; rfl)
        simpa using this
      exact drop_add_of_drop_eq text _ _ (i + 1) h1

theorem params_scan : ∀ (ps : List ParameterText) (text : Str) (fuel i : Nat)
    (ms : List RegExpMatch), (∀ p ∈ ps, p.wellFormed = true) →
    (text.drop i = parameterListText ps
      ∨ (ps ≠ [] ∧ text.drop i = ',' :: parameterListText ps)) →
    scanAll paramsRegex text fuel i = some ms →
    ms.map matchParameter = ps.map ParameterText.parameter
  | _, _, 0, _, _, _, _, h => by simp [scanAll] at h
  | [], text, fuel + 1, i, ms, _, hd, h => by
    have hnil : text.drop i = [] := by
      rcases hd with hd | ⟨hne, -⟩
      · exact hd
      · exact absurd rfl hne
    rw [scanAll, regexExec_params_nil text i hnil] at h
    injection h with h
    subst h
    rfl
  | p :: ps, text, fuel + 1, i, ms, hwf, hd, h => by
    have hd' : text.drop i = parameterListText (p :: ps)
        ∨ text.drop i = ',' :: parameterListText (p :: ps) := by
      rcases hd with hd | ⟨-, hd⟩
      · exact Or.inl hd
      · exact Or.inr hd
    obtain ⟨m, hexec, hparam, hrest⟩ :=
      regexExec_params_item text i p ps (hwf p (List.mem_cons_self _ _)) hd'
    rw [scanAll, hexec] at h
    simp only [Option.map_eq_some'] at h
    obtain ⟨ms', hs, hms⟩ := h
    subst hms
    have hnext : text.drop m.endIndex = parameterListText ps
        ∨ (ps ≠ [] ∧ text.drop m.endIndex = ',' :: parameterListText ps) := by
      cases ps with
      | nil => exact Or.inl hrest
      | cons q rest => exact Or.inr ⟨by simp, hrest⟩
    have ih := params_scan ps text fuel m.endIndex ms'
      (fun q hq => hwf q (List.mem_cons_of_mem _ hq)) hnext hs
    rw [List.map_cons, List.map_cons, hparam, ih]

theorem mem_identifier (name : Str) (h : isIdentifier name = true) (c : Char) (hc : c ∈ name) :
    isIdentPart c = true := by
  cases name with
  | nil => cases hc
  | cons x xs =>
    simp only [isIdentifier, Bool.and_eq_true] at h
    rcases List.mem_cons.mp hc with hc | hc
    · rw [hc]; exact identStart_identPart x h.1
    · exact mem_of_all _ _ h.2 c hc

theorem notCloseParen_of_ws (c : Char) (h : isWhiteSpace c = true) :
    notCloseParen c = true := by
  have : c ≠ ')' := by
    intro e
    rw [e] at h
    revert h
    decide
  simp [notCloseParen, this]

theorem notCloseParen_of_identPart (c : Char) (h : isIdentPart c = true) :
    notCloseParen c = true := by
  have : c ≠ ')' := by
    intro e
    rw [e] at h
    revert h
    decide
  simp [notCloseParen, this]

theorem notCloseParen_text (p : ParameterText) (hp : p.wellFormed = true) (c : Char)
    (hc : c ∈ p.text) : notCloseParen c = true := by
  obtain ⟨h1, h2, h3, h4, h5, h6⟩ := wellFormed_iff p hp
  simp only [ParameterText.text, List.mem_append, List.mem_cons] at hc
  rcases hc with hc | hc | hc | hc | hc | hc | hc
  · exact notCloseParen_of_ws c (mem_of_all _ _ h1 c hc)
  · exact notCloseParen_of_identPart c (mem_identifier _ h2 c hc)
  · exact notCloseParen_of_ws c (mem_of_all _ _ h3 c hc)
  · rw [hc]; decide
  · exact notCloseParen_of_ws c (mem_of_all _ _ h4 c hc)
  · exact notCloseParen_of_identPart c (mem_identifier _ h5 c hc)
  · exact notCloseParen_of_ws c (mem_of_all _ _ h6 c hc)

theorem notCloseParen_list : ∀ (ps : List ParameterText), (∀ p ∈ ps, p.wellFormed = true) →
    ∀ c ∈ parameterListText ps, notCloseParen c = true
  | [], _, c, hc => by simp [parameterListText] at hc
  | p :: ps, hwf, c, hc => by
    rw [parameterListText_cons] at hc
    rcases List.mem_append.mp hc with hc | hc
    · exact notCloseParen_text p (hwf p (List.mem_cons_self _ _)) c hc
    · cases ps with
      | nil => simp [parameterListTail] at hc
      | cons q rest =>
        simp only [parameterListTail, List.mem_cons] at hc
        rcases hc with hc | hc
        · rw [hc]; decide
        · exact notCloseParen_list (q :: rest)
            (fun x hx => hwf x (List.mem_cons_of_mem _ hx)) c hc

theorem signature_match (space name gap plist rest : Str) (hs : space ≠ [])
    (hsw : space.all isWhiteSpace = true) (hn : isIdentifier name = true)
    (hg : gap.all isWhiteSpace = true) (hp : plist.all notCloseParen = true) :
    ∃ segs,
      matchAtoms (signatureRegex.map Prod.snd)
        ('f' :: 'n' :: (space ++ (name ++ (gap ++ '(' :: (plist ++ ')' :: rest)))))
        = some segs ∧
      ∀ i, RegExpMatch.group signatureRegex ⟨i, segs⟩ 1 = plist := by
  have k1 : matchAtoms [Atom.chr ')'] (')' :: rest) = some [[')']] :=
    matchAtoms_chr ')' [] rest [] rfl
  have k2 := matchAtoms_star notCloseParen _ plist _ _ hp
    (by
      intro c hc
      simp at hc
      rw [← hc]; decide) k1
  have k3 := matchAtoms_chr '(' _ _ _ k2
  have k4 := matchAtoms_star isWhiteSpace _ gap _ _ hg
    (by
      intro c hc
      simp at hc
      rw [← hc]; decide) k3
  obtain ⟨c1, cs1, ht1, k5⟩ := matchAtoms_identifier _ name _ _ hn
    (by
      intro c hc
      rcases head?_append_cases _ _ c hc with hm | ⟨-, hm⟩
      · exact ws_not_identPart c (mem_of_all _ _ hg c hm)
      · simp at hm
        rw [← hm]; decide) k4
  have hc1 : isWhiteSpace c1 = false := by
    rw [ht1] at hn
    simp only [isIdentifier, Bool.and_eq_true] at hn
    exact identPart_not_ws c1 (identStart_identPart c1 hn.1)
  cases space with
  | nil => exact absurd rfl hs
  | cons w ws =>
    simp only [List.all_cons, Bool.and_eq_true] at hsw
    have k6 := matchAtoms_plus isWhiteSpace _ w ws _ _ hsw.1 hsw.2
      (by
        intro c hc
        rw [ht1] at hc
        simp at hc
        rw [← hc]; exact hc1) k5
    have k7 := matchAtoms_chr 'f' _ _ _ (matchAtoms_chr 'n' _ _ _ k6)
    refine ⟨_, k7, ?_⟩
    intro i
    simp [RegExpMatch.group, signatureRegex]

/-- C17: for every function declaration whose parameter list is a
comma-separated sequence of `k ≥ 0` pairs `name : type` of identifiers, any white
space around the tokens, `extractParameters` ends and returns exactly the `k`
parameters, with their names and types, in left-to-right order; and for a
match of the function pattern whose matched text is that declaration, these
are the parameters of the record the tracker builds and stores under the
function's name. -/
theorem extractParameters_pairs (space name gap rest : Str) (ps : List ParameterText)
    (hs : space ≠ []) (hsw : space.all isWhiteSpace = true) (hn : isIdentifier name = true)
    (hg : gap.all isWhiteSpace = true) (hps : ∀ p ∈ ps, p.wellFormed = true) :
    extractParameters (declarationText space name gap ps rest)
      = some (ps.map (fun p => { name := p.name, type := p.type })) ∧
    ∀ m : RegExpMatch, m.matched = declarationText space name gap ps rest →
      functionRecord m
        = some { declaration := m.matched,
                 parameters := ps.map (fun p => { name := p.name, type := p.type }),
                 returnType := m.group functionRegex 3 } ∧
      ∀ fns : JsMap FunctionDeclaration,
        functionBody fns m
          = some (fns.set (m.group functionRegex 1)
              { declaration := m.matched,
                parameters := ps.map (fun p => { name := p.name, type := p.type }),
                returnType := m.group functionRegex 3 }) := by
  have hall : (parameterListText ps).all notCloseParen = true :=
    List.all_eq_true.mpr (notCloseParen_list ps hps)
  obtain ⟨segs, hmatch, hgroup⟩ :=
    signature_match space name gap (parameterListText ps) rest hs hsw hn hg hall
  have hexec : regexExec signatureRegex (declarationText space name gap ps rest) 0
      = some ⟨0, segs⟩ := by
    unfold regexExec
    rw [if_neg (Nat.not_lt_zero _), List.drop_zero]
    exact execFrom_of_match _ _ _ _ hmatch
  have hlen : (parameterListText ps).length
      < (declarationText space name gap ps rest).length + 1 + 0 := by
    simp [declarationText]
    omega
  obtain ⟨ms, hms⟩ := scanAll_terminates paramsRegex (parameterListText ps) (by decide)
    ((declarationText space name gap ps rest).length + 1) 0 hlen (by omega)
  have hscan := params_scan ps (parameterListText ps) _ 0 ms hps (Or.inl (by simp)) hms
  have hextract : extractParameters (declarationText space name gap ps rest)
      = some (ps.map ParameterText.parameter) := by
    unfold extractParameters extractParametersFuel
    rw [hexec]
    simp only [hgroup]
    rw [execLoop_eq_scanAll, hms, Option.some_bind,
      foldlM_eq_foldl paramsBody (fun acc m => acc ++ [matchParameter m]) (fun _ _ => rfl),
      foldl_push matchParameter ms [], List.nil_append, hscan]
  refine ⟨hextract, ?_⟩
  intro m hm
  refine ⟨?_, ?_⟩
  · simp only [functionRecord, hm, hextract, Option.map_some']
    rfl
  · intro fns
    simp only [functionBody, hm, hextract, Option.map_some']
    rfl

/-- C17 at the declaration `fn add(a: number, b :string ): number {}`. -/
theorem extractParameters_pairs_witness :
    declarationText " ".toList "add".toList [] samplePairs ": number \x7b\x7d".toList
      = "fn add(a: number, b :string ): number \x7b\x7d".toList ∧
    (extractParameters
        (declarationText " ".toList "add".toList [] samplePairs ": number \x7b\x7d".toList)
      = some (samplePairs.map (fun p => { name := p.name, type := p.type })) ∧
    ∀ m : RegExpMatch,
      m.matched
        = declarationText " ".toList "add".toList [] samplePairs ": number \x7b\x7d".toList →
      functionRecord m
        = some { declaration := m.matched,
                 parameters := samplePairs.map (fun p => { name := p.name, type := p.type }),
                 returnType := m.group functionRegex 3 } ∧
      ∀ fns : JsMap FunctionDeclaration,
        functionBody fns m
          = some (fns.set (m.group functionRegex 1)
              { declaration := m.matched,
                parameters := samplePairs.map (fun p => { name := p.name, type := p.type }),
                returnType := m.group functionRegex 3 })) :=
  ⟨by decide,
    extractParameters_pairs " ".toList "add".toList [] ": number \x7b\x7d".toList samplePairs
      (by decide) (by decide) (by decide) (by decide) (by decide)⟩

/-! ### Termination of the scan loops -/

theorem scanAll_length_le (re : Regex) (text : Str) (hmin : 0 < re.minLength) :
    ∀ (fuel lastIndex : Nat) (ms : List RegExpMatch),
      scanAll re text fuel lastIndex = some ms → ms.length ≤ text.length - lastIndex
  | 0, _, _, h => by simp [scanAll] at h
  | fuel + 1, lastIndex, ms, h => by
    rw [scanAll] at h
    cases hm : regexExec re text lastIndex with
    | none =>
      rw [hm] at h
      injection h with h
      subst h
      simp
    | some m =>
      rw [hm] at h
      simp only [Option.map_eq_some'] at h
      obtain ⟨ms', hs, hms⟩ := h
      subst hms
      obtain ⟨h1, h2, h3, -⟩ := regexExec_sound re text lastIndex m hm
      have ih := scanAll_length_le re text hmin fuel m.endIndex ms' hs
      have hend : lastIndex < m.endIndex := by
        unfold RegExpMatch.endIndex; omega
      rw [List.length_cons]
      omega

theorem loopTerminates_of_minLength (re : Regex) (text : Str) (hmin : 0 < re.minLength) :
    loopTerminates re text := by
  refine ⟨?_, ?_⟩
  · intro lastIndex m hm
    obtain ⟨h1, h2, h3, -⟩ := regexExec_sound re text lastIndex m hm
    refine ⟨by omega, ?_, h2⟩
    unfold RegExpMatch.endIndex
    omega
  · obtain ⟨ms, hms⟩ := scanAll_total re text hmin
    refine ⟨ms, fun k => scanAll_mono re text _ 0 ms hms k, ?_⟩
    have := scanAll_length_le re text hmin _ 0 ms hms
    omega

/-- C21: the three scan loops terminate on every input. Every match of the
variable-declaration pattern, of the function-declaration pattern and of the
parameter-pair pattern has length at least 1, so the scan position of each
loop strictly increases, the scan ends within one call of `exec` per character
of the scanned text and one more, and it finds at most as many matches as the
text has characters; hence `trackVariableDeclarations`,
`trackFunctionDeclarations` and `extractParameters` return on every input. -/
theorem scan_loops_terminate (text : Str) :
    loopTerminates variableRegex text ∧ loopTerminates functionRegex text ∧
    loopTerminates paramsRegex text ∧
    (∀ vars : JsMap VariableDeclaration, ∃ vars', trackVariableDeclarations text vars = some vars') ∧
    (∀ fns : JsMap FunctionDeclaration, ∃ fns', trackFunctionDeclarations text fns = some fns') ∧
    (∃ parameters, extractParameters text = some parameters) ∧
    (∀ tables : Tables, ∃ tables', onDidChangeContent text tables = some tables') := by
  obtain ⟨vms, hvms⟩ := variableMatches_total text
  obtain ⟨fms, hfms⟩ := functionMatches_total text
  exact ⟨loopTerminates_of_minLength variableRegex text (by decide),
    loopTerminates_of_minLength functionRegex text (by decide),
    loopTerminates_of_minLength paramsRegex text (by decide),
    fun vars => ⟨_, trackVariableDeclarations_eq text vars vms hvms⟩,
    fun fns => ⟨_, trackFunctionDeclarations_eq text fns fms hfms⟩,
    extractParameters_total text,
    fun tables => ⟨_, onDidChangeContent_eq text tables vms fms hvms hfms⟩⟩

end Tron
